import Mathlib

/-!
Verification of the `changelog` Go package (nekr0z/changelog).

The embedding models Go strings as `List Char`, the `Changelog` map as an
association list (one possible iteration/insertion order of the Go map),
`time.Time` as an explicit calendar record, and the two regular expressions
(`semver`, `dateRe`) by executable matchers implementing Go's leftmost-first
(Perl-style) matching semantics for the unanchored uses (`FindString`,
`ReplaceAllString`) and the anchored language for `MatchString("^…$")`.
-/

namespace Changelog

/-- Go strings, modelled as lists of characters. -/
abbrev GoStr := List Char

/-- Convert a Lean string literal to the `GoStr` model. -/
def s2l (s : String) : GoStr := s.data

/-! ### Character classes used by the `semver` regular expression -/

def isDigitC (c : Char) : Bool := '0' ≤ c && c ≤ '9'

def isNonzeroC (c : Char) : Bool := '1' ≤ c && c ≤ '9'

def isAlphaC (c : Char) : Bool := ('a' ≤ c && c ≤ 'z') || ('A' ≤ c && c ≤ 'Z')

/-- The `[0-9a-zA-Z-]` class (prerelease / build-metadata identifier characters). -/
def isIdentC (c : Char) : Bool := isDigitC c || isAlphaC c || c = '-'

/-! ### Decimal numerals -/

def digitVal (c : Char) : Nat := c.toNat - '0'.toNat

/-- Value of a digit string (most significant first). -/
def digitsVal (l : GoStr) : Nat := l.foldl (fun a c => 10 * a + digitVal c) 0

def digitChar (n : Nat) : Char := Char.ofNat ('0'.toNat + n)

def natDigitsAux : Nat → Nat → GoStr
  | 0, _ => []
  | fuel + 1, n =>
    if n < 10 then [digitChar n]
    else natDigitsAux fuel (n / 10) ++ [digitChar (n % 10)]

/-- Decimal digits of a natural number, no leading zeros (`"0"` for zero). -/
def natDigits (n : Nat) : GoStr := natDigitsAux (n + 1) n

/-- `fmt` `%d` on a Go `int`. -/
def intToStr (i : Int) : GoStr :=
  if i < 0 then '-' :: natDigits i.natAbs else natDigits i.natAbs

/-- `strconv.Atoi` (without the 64-bit overflow case, which no claim touches). -/
def Atoi (s : GoStr) : Option Int :=
  match s with
  | [] => none
  | '+' :: t => if t ≠ [] && t.all isDigitC then some (digitsVal t) else none
  | '-' :: t => if t ≠ [] && t.all isDigitC then some (-(digitsVal t : Int)) else none
  | l => if l.all isDigitC then some (digitsVal l) else none

/-! ### Go `strings` operations -/

def hasPrefix (p s : GoStr) : Bool :=
  match p, s with
  | [], _ => true
  | _ :: _, [] => false
  | a :: p', b :: s' => a = b && hasPrefix p' s'

def trimPrefix (p s : GoStr) : GoStr :=
  if hasPrefix p s then s.drop p.length else s

def hasSuffix (p s : GoStr) : Bool := hasPrefix p.reverse s.reverse

def trimSuffix (p s : GoStr) : GoStr :=
  if hasSuffix p s then s.take (s.length - p.length) else s

/-- First occurrence of the (non-empty) separator `sep` in `s`:
returns the part before it and the part after it. -/
def splitFirst (sep : GoStr) : GoStr → Option (GoStr × GoStr)
  | [] => none
  | c :: cs =>
    if hasPrefix sep (c :: cs) then some ([], (c :: cs).drop sep.length)
    else (splitFirst sep cs).map fun p => (c :: p.1, p.2)

/-- Does `sep` occur in `s` as a substring? -/
def containsSub (sep s : GoStr) : Bool := (splitFirst sep s).isSome

/-- `strings.Split` for a non-empty separator (fuel-driven). -/
def goSplitAux (sep : GoStr) : Nat → GoStr → List GoStr
  | 0, s => [s]
  | fuel + 1, s =>
    match splitFirst sep s with
    | none => [s]
    | some (a, b) => a :: goSplitAux sep fuel b

def goSplit (sep s : GoStr) : List GoStr := goSplitAux sep (s.length + 1) s

/-- `strings.SplitN(s, sep, 2)`. -/
def goSplitN2 (sep s : GoStr) : List GoStr :=
  match splitFirst sep s with
  | none => [s]
  | some (a, b) => [a, b]

/-- Split on a single character (all occurrences; result is never empty). -/
def splitOnChar (c : Char) : GoStr → List GoStr
  | [] => [[]]
  | d :: ds =>
    match splitOnChar c ds with
    | [] => [[]]
    | t :: ts => if d = c then [] :: t :: ts else (d :: t) :: ts

/-- `bufio.ScanLines`' dropCR: strip one trailing carriage return. -/
def dropCR (l : GoStr) : GoStr := trimSuffix ['\r'] l

/-- The sequence of lines a `bufio.Scanner` with `ScanLines` yields on `s`. -/
def splitLinesAux : Nat → GoStr → List GoStr
  | 0, _ => []
  | fuel + 1, s =>
    match splitFirst ['\n'] s with
    | some (a, b) => dropCR a :: splitLinesAux fuel b
    | none => if s = [] then [] else [dropCR s]

def splitLines (s : GoStr) : List GoStr := splitLinesAux (s.length + 1) s

/-! ### The data model -/

/-- `Version` (changelog.go line 35): Go `int` fields and the prerelease string. -/
structure Version where
  Major : Int
  Minor : Int
  Patch : Int
  Prerelease : GoStr
deriving DecidableEq, Repr

def zeroVersion : Version := ⟨0, 0, 0, []⟩

/-- `Change` (changelog.go line 64). The Go field `Type` is a reserved word
in Lean and is rendered `Type'`. -/
structure Change where
  Type' : GoStr
  Body : GoStr
deriving DecidableEq, Repr

/-- `Maintainer` (changelog.go line 79). -/
structure Maintainer where
  Name : GoStr
  Email : GoStr
deriving DecidableEq, Repr

/-- The calendar model of Go's `time.Time` as used here: a wall-clock date-time
with nanoseconds and a fixed zone offset in minutes. -/
structure DebTime where
  year : Nat
  month : Nat
  day : Nat
  hour : Nat
  minute : Nat
  second : Nat
  nanos : Nat
  tzMin : Int
deriving DecidableEq, Repr

/-- The zero Go `time.Time`: January 1, year 1, 00:00:00 UTC. -/
def zeroTime : DebTime := ⟨1, 1, 1, 0, 0, 0, 0, 0⟩

/-- `Release` (changelog.go line 70). -/
structure Release where
  Date : DebTime
  Changes : List Change
  Urgency : GoStr
  Distribution : GoStr
  Maintainer : Maintainer
deriving DecidableEq, Repr

def zeroRelease : Release := ⟨zeroTime, [], [], [], ⟨[], []⟩⟩

/-- `Changelog` (changelog.go line 84): the map, as an association list in one
fixed iteration order. -/
abbrev Changelog := List (Version × Release)

/-- Go map read. -/
def lookupRel : Changelog → Version → Option Release
  | [], _ => none
  | (k, r) :: t, v => if k = v then some r else lookupRel t v

/-- The `_, ok := cl[v]` test. -/
def hasKey (cl : Changelog) (v : Version) : Bool := (lookupRel cl v).isSome

/-- Go map assignment `cl[v] = r` (replaces in place, else appends). -/
def setRel : Changelog → Version → Release → Changelog
  | [], v, r => [(v, r)]
  | (k, x) :: t, v, r => if k = v then (v, r) :: t else (k, x) :: setRel t v r

/-! ### Calendar arithmetic (for `time.Format`/`time.Parse` RFC1123Z) -/

def isLeap (y : Nat) : Bool := (y % 4 = 0 && y % 100 ≠ 0) || y % 400 = 0

def daysInMonth (y m : Nat) : Nat :=
  if m = 2 then (if isLeap y then 29 else 28)
  else [31, 28, 31, 30, 31, 30, 31, 31, 30, 31, 30, 31].getD (m - 1) 30

def daysBeforeMonth (m : Nat) : Nat :=
  [0, 0, 31, 59, 90, 120, 151, 181, 212, 243, 273, 304, 334].getD m 0

/-- Days since 0001-01-01 in the proleptic Gregorian calendar. -/
def daysFromYear1 (y m d : Nat) : Nat :=
  365 * (y - 1) + ((y - 1) / 4 - (y - 1) / 100 + (y - 1) / 400)
    + daysBeforeMonth m + (if isLeap y && decide (2 < m) then 1 else 0) + (d - 1)

/-- Go `Weekday` index (Sunday = 0); 0001-01-01 is a Monday. -/
def weekdayIdx (t : DebTime) : Nat := (daysFromYear1 t.year t.month t.day + 1) % 7

/-- The instant a `DebTime` denotes, in nanoseconds from 0001-01-01 UTC.
`time.Time.Equal`/`Before` compare these. -/
def instant (t : DebTime) : Int :=
  ((((daysFromYear1 t.year t.month t.day : Int) * 24 + t.hour) * 60 + t.minute
      - t.tzMin) * 60 + t.second) * 1000000000 + t.nanos

def timeEqB (a b : DebTime) : Bool := instant a = instant b

def timeLtB (a b : DebTime) : Bool := instant a < instant b

def shortDayNames : List GoStr :=
  [s2l "Sun", s2l "Mon", s2l "Tue", s2l "Wed", s2l "Thu", s2l "Fri", s2l "Sat"]

def shortMonthNames : List GoStr :=
  [s2l "Jan", s2l "Feb", s2l "Mar", s2l "Apr", s2l "May", s2l "Jun",
   s2l "Jul", s2l "Aug", s2l "Sep", s2l "Oct", s2l "Nov", s2l "Dec"]

def pad2 (n : Nat) : GoStr := if n < 10 then '0' :: natDigits n else natDigits n

def pad4 (n : Nat) : GoStr :=
  List.replicate (4 - (natDigits n).length) '0' ++ natDigits n

/-- `time.Time.Format(time.RFC1123Z)`: layout `Mon, 02 Jan 2006 15:04:05 -0700`. -/
def fmtRFC1123Z (t : DebTime) : GoStr :=
  shortDayNames.getD (weekdayIdx t) [] ++ s2l ", "
    ++ pad2 t.day ++ [' ']
    ++ shortMonthNames.getD (t.month - 1) [] ++ [' ']
    ++ pad4 t.year ++ [' ']
    ++ pad2 t.hour ++ [':'] ++ pad2 t.minute ++ [':'] ++ pad2 t.second ++ [' ']
    ++ (if t.tzMin < 0 then '-' else '+')
      :: (pad2 (t.tzMin.natAbs / 60) ++ pad2 (t.tzMin.natAbs % 60))

def get2Digits : GoStr → Option (Nat × GoStr)
  | a :: b :: r =>
    if isDigitC a && isDigitC b then some (10 * digitVal a + digitVal b, r) else none
  | _ => none

def get4Digits : GoStr → Option (Nat × GoStr)
  | a :: b :: c :: d :: r =>
    if isDigitC a && isDigitC b && isDigitC c && isDigitC d then
      some (1000 * digitVal a + 100 * digitVal b + 10 * digitVal c + digitVal d, r)
    else none
  | _ => none

/-- ASCII lowercasing; Go's `match` (time/format.go) compares bytes up to
`|0x20` folding restricted to letters, which on strings coincides with
comparing ASCII-lowercased characters. -/
def asciiLowerC (c : Char) : Char :=
  if 'A' ≤ c && c ≤ 'Z' then Char.ofNat (c.toNat + 32) else c

/-- Go `match` (time/format.go): ASCII case-insensitive string equality. -/
def strEqFold (a b : GoStr) : Bool := decide (a.map asciiLowerC = b.map asciiLowerC)

/-- Go `lookup` (time/format.go): index of the first name in the table that
case-folded-matches the input prefix. -/
def lookupIdx (x : GoStr) : List GoStr → Option Nat
  | [] => none
  | y :: ys => if strEqFold y x then some 0 else (lookupIdx x ys).map (· + 1)

/-- Go `getnum(s, false)` (non-zero-padded layout `15`): one digit, or two
when the second character is also a digit. -/
def getNum1or2 : GoStr → Option (Nat × GoStr)
  | [] => none
  | [a] => if isDigitC a then some (digitVal a, []) else none
  | a :: b :: r =>
    if isDigitC a then
      if isDigitC b then some (10 * digitVal a + digitVal b, r)
      else some (digitVal a, b :: r)
    else none

/-- `time.Parse(time.RFC1123Z, s)`: day and month names are matched
case-insensitively (Go's `lookup`/`match` fold ASCII case); the hour layout
`15` accepts one or two digits; the other numeric fields are fixed
two-digit (four for the year); the weekday name is checked for syntax but
otherwise unused; day/hour/minute/second ranges are validated. Returns
`none` on any parse error (the caller gets the zone as a fixed offset). -/
def parseRFC1123Z (s : GoStr) : Option DebTime :=
  if (lookupIdx (s.take 3) shortDayNames).isSome then
    match s.drop 3 with
    | ',' :: ' ' :: r1 =>
      match get2Digits r1 with
      | some (day, ' ' :: r2) =>
        match lookupIdx (r2.take 3) shortMonthNames with
        | some mIdx =>
          match r2.drop 3 with
          | ' ' :: r3 =>
            match get4Digits r3 with
            | some (year, ' ' :: r4) =>
              match getNum1or2 r4 with
              | some (hour, ':' :: r5) =>
                match get2Digits r5 with
                | some (minute, ':' :: r6) =>
                  match get2Digits r6 with
                  | some (second, ' ' :: sign :: r7) =>
                    if sign = '+' || sign = '-' then
                      match get2Digits r7 with
                      | some (zh, r8) =>
                        match get2Digits r8 with
                        | some (zm, []) =>
                          if 1 ≤ day && day ≤ daysInMonth year (mIdx + 1)
                              && hour ≤ 23 && minute ≤ 59 && second ≤ 59 then
                            some ⟨year, mIdx + 1, day, hour, minute, second, 0,
                              (if sign = '-' then -1 else 1) * ((zh : Int) * 60 + zm)⟩
                          else none
                        | _ => none
                      | _ => none
                    else none
                  | _ => none
                | _ => none
              | _ => none
            | _ => none
          | _ => none
        | none => none
      | _ => none
    | _ => none
  else none

/-- `dateRe.FindString` (` \d{4}-\d{2}-\d{2}$`) composed with
`time.Parse(" 2006-01-02", …)`, errors discarded (changelog.go line 110):
yields the zero time unless the line ends in a valid ` YYYY-MM-DD`. -/
def parseMdDate (line : GoStr) : DebTime :=
  match line.drop (line.length - 11) with
  | [sp, y1, y2, y3, y4, h1, m1, m2, h2, d1, d2] =>
    if sp = ' ' && h1 = '-' && h2 = '-'
        && isDigitC y1 && isDigitC y2 && isDigitC y3 && isDigitC y4
        && isDigitC m1 && isDigitC m2 && isDigitC d1 && isDigitC d2 then
      let y := digitsVal [y1, y2, y3, y4]
      let m := digitsVal [m1, m2]
      let d := digitsVal [d1, d2]
      if 1 ≤ m && m ≤ 12 && 1 ≤ d && d ≤ daysInMonth y m then
        ⟨y, m, d, 0, 0, 0, 0, 0⟩
      else zeroTime
    else zeroTime
  | _ => zeroTime

/-! ### The `semver` regular expression (changelog.go line 87)

`(?P<major>0|[1-9]\d*)\.(?P<minor>0|[1-9]\d*)\.(?P<patch>0|[1-9]\d*)`
`(?:-(?P<prerelease>(?:0|[1-9]\d*|\d*[a-zA-Z-][0-9a-zA-Z-]*)`
`(?:\.(?:0|[1-9]\d*|\d*[a-zA-Z-][0-9a-zA-Z-]*))*))?`
`(?:\+(?P<buildmetadata>[0-9a-zA-Z-]+(?:\.[0-9a-zA-Z-]+)*))?`

Unanchored matching (`FindString`, `ReplaceAllString`) follows Go's
leftmost-first semantics.  Because every sub-pattern after each greedy
choice point is optional, the backtracking search commits to the first
local success, which the scanners below compute directly. -/

def spanC (p : Char → Bool) : GoStr → GoStr × GoStr
  | [] => ([], [])
  | c :: cs =>
    if p c then
      let (a, b) := spanC p cs
      (c :: a, b)
    else ([], c :: cs)

/-- `0|[1-9]\d*` under leftmost-first: `0` wins at a `'0'`, otherwise a
maximal nonzero-led digit run. -/
def scanNum : GoStr → Option (GoStr × GoStr)
  | [] => none
  | c :: cs =>
    if c = '0' then some (['0'], cs)
    else if isNonzeroC c then
      let (a, b) := spanC isDigitC cs
      some (c :: a, b)
    else none

/-- One prerelease identifier `0|[1-9]\d*|\d*[a-zA-Z-][0-9a-zA-Z-]*` under
leftmost-first with an all-optional continuation. -/
def scanIdent : GoStr → Option (GoStr × GoStr)
  | [] => none
  | c :: cs =>
    if c = '0' then some (['0'], cs)
    else if isNonzeroC c then
      let (a, b) := spanC isDigitC cs
      some (c :: a, b)
    else if isAlphaC c || c = '-' then
      let (a, b) := spanC isIdentC cs
      some (c :: a, b)
    else none

/-- The greedy `(?:\.ident)*` loop: consumed characters (dots included) and
the rest. Fuel-driven; `fuel = length` suffices. -/
def scanDotIdents : Nat → GoStr → GoStr × GoStr
  | 0, l => ([], l)
  | fuel + 1, l =>
    match l with
    | '.' :: r =>
      match scanIdent r with
      | some (i, r') =>
        let (a, b) := scanDotIdents fuel r'
        ('.' :: i ++ a, b)
      | none => ([], l)
    | _ => ([], l)

/-- `[0-9a-zA-Z-]+`, maximal. -/
def scanBuildRun (l : GoStr) : Option (GoStr × GoStr) :=
  match spanC isIdentC l with
  | ([], _) => none
  | (a, b) => some (a, b)

/-- The greedy `(?:\.[0-9a-zA-Z-]+)*` loop. -/
def scanDotBuilds : Nat → GoStr → GoStr × GoStr
  | 0, l => ([], l)
  | fuel + 1, l =>
    match l with
    | '.' :: r =>
      match scanBuildRun r with
      | some (i, r') =>
        let (a, b) := scanDotBuilds fuel r'
        ('.' :: i ++ a, b)
      | none => ([], l)
    | _ => ([], l)

/-- The capture groups of a `semver` match, plus the whole matched text. -/
structure SemGroups where
  matched : GoStr
  major : GoStr
  minor : GoStr
  patch : GoStr
  pre : GoStr
deriving DecidableEq, Repr

/-- The leftmost-first match of `semver` starting exactly at the head of `l`
(groups and the remaining input), or `none`. -/
def matchSemverAt (l : GoStr) : Option (SemGroups × GoStr) :=
  match scanNum l with
  | none => none
  | some (ma, r1) =>
    match r1 with
    | '.' :: r2 =>
      match scanNum r2 with
      | none => none
      | some (mi, r3) =>
        match r3 with
        | '.' :: r4 =>
          match scanNum r4 with
          | none => none
          | some (pa, r5) =>
            let (preC, preG, r6) : GoStr × GoStr × GoStr :=
              match r5 with
              | '-' :: r =>
                match scanIdent r with
                | some (i, r') =>
                  let (a, b) := scanDotIdents r'.length r'
                  ('-' :: i ++ a, i ++ a, b)
                | none => ([], [], r5)
              | _ => ([], [], r5)
            let (bmC, r7) : GoStr × GoStr :=
              match r6 with
              | '+' :: r =>
                match scanBuildRun r with
                | some (i, r') =>
                  let (a, b) := scanDotBuilds r'.length r'
                  ('+' :: i ++ a, b)
                | none => ([], r6)
              | _ => ([], r6)
            some ({ matched := ma ++ '.' :: mi ++ '.' :: pa ++ preC ++ bmC,
                    major := ma, minor := mi, patch := pa, pre := preG }, r7)
        | _ => none
    | _ => none

/-- The leftmost match of `semver` in `l`: the text before it, its groups,
and the text after it. -/
def findSemver : GoStr → Option (GoStr × SemGroups × GoStr)
  | [] => none
  | c :: cs =>
    match matchSemverAt (c :: cs) with
    | some (g, r) => some ([], g, r)
    | none => (findSemver cs).map fun p => (c :: p.1, p.2.1, p.2.2)

/-- `semver.FindString` (returns `""` when there is no match). -/
def FindString (l : GoStr) : GoStr :=
  match findSemver l with
  | some (_, g, _) => g.matched
  | none => []

/-- `semver.ReplaceAllString(s, "${group}")`: replace every match by the
selected group. Fuel-driven; every match is non-empty so `length` suffices. -/
def replaceAllG (sel : SemGroups → GoStr) : Nat → GoStr → GoStr
  | 0, l => l
  | fuel + 1, l =>
    match findSemver l with
    | none => l
    | some (p, g, r) => p ++ sel g ++ replaceAllG sel fuel r

def ReplaceAllString (sel : SemGroups → GoStr) (l : GoStr) : GoStr :=
  replaceAllG sel l.length l

/-! ### The anchored language `^semver$` and its capture groups

On a full anchored match the decomposition into the four components is
forced: major/minor/patch contain neither `.`-free ambiguity nor `-`/`+`,
the prerelease starts after the first `-` following the patch, and the build
metadata after the unique `+`. -/

def validNumToken (t : GoStr) : Bool :=
  t ≠ [] && t.all isDigitC && (t.length = 1 || t.headD ' ' ≠ '0')

def validPreToken (t : GoStr) : Bool :=
  t ≠ [] && t.all isIdentC && (!t.all isDigitC || validNumToken t)

def validBuildToken (t : GoStr) : Bool := t ≠ [] && t.all isIdentC

/-- Split at the first occurrence of a character. -/
def splitFirstChar (c : Char) (s : GoStr) : Option (GoStr × GoStr) :=
  splitFirst [c] s

/-- Whether `s` is in the anchored language `^semver$`, and if so its four
capture groups (build metadata dropped). -/
def semverDecomp (s : GoStr) : Option Version :=
  let (core, build) : GoStr × Option GoStr :=
    match splitFirstChar '+' s with
    | some (a, b) => (a, some b)
    | none => (s, none)
  let buildOk : Bool :=
    match build with
    | some b => (splitOnChar '.' b).all validBuildToken
    | none => true
  if buildOk then
    let (base, pre) : GoStr × Option GoStr :=
      match splitFirstChar '-' core with
      | some (a, b) => (a, some b)
      | none => (core, none)
    let preOk : Bool :=
      match pre with
      | some p => (splitOnChar '.' p).all validPreToken
      | none => true
    match splitOnChar '.' base with
    | [a, b, c] =>
      if validNumToken a && validNumToken b && validNumToken c && preOk then
        some ⟨(digitsVal a : Int), (digitsVal b : Int), (digitsVal c : Int),
          pre.getD []⟩
      else none
    | _ => none
  else none

/-- The error values the package produces. -/
inductive GoErr where
  | notSemver
  | multipleReleases (v : GoStr)
  | authorLine (v : GoStr)
  | noEmail (v : GoStr)
  | badDate (v : GoStr)
deriving DecidableEq, Repr

/-- `ToVersion` (changelog.go line 43). The inner `err`s of the Go code are
`:=`-shadowed inside the `if` block, so an `Atoi` failure leaves the named
return `err` nil and `v` zero; only the no-match branch sets `ErrNotSemver`. -/
def ToVersion (s : GoStr) : Version × Option GoErr :=
  if (semverDecomp s).isSome then
    match Atoi (ReplaceAllString (·.major) s) with
    | some ma =>
      match Atoi (ReplaceAllString (·.minor) s) with
      | some mi =>
        match Atoi (ReplaceAllString (·.patch) s) with
        | some pa =>
          ({ Major := ma, Minor := mi, Patch := pa,
             Prerelease := ReplaceAllString (·.pre) s }, none)
        | none => (zeroVersion, none)
      | none => (zeroVersion, none)
    | none => (zeroVersion, none)
  else (zeroVersion, some .notSemver)

/-! ### `ParseMd` (changelog.go line 92) -/

/-- The scanner state of `ParseMd`: the map, the named return `err`, and the
`curVer`/`curGrp` locals. -/
structure MdState where
  cl : Changelog
  err : Option GoErr
  curVer : Option Version
  curGrp : GoStr
deriving DecidableEq, Repr

def initMdState : MdState := ⟨[], none, none, []⟩

/-- One iteration of `ParseMd`'s scan loop (the `switch` on the line). -/
def mdStep (st : MdState) (line : GoStr) : MdState :=
  if hasPrefix (s2l "## ") line then
    let verString := FindString line
    let ve := ToVersion verString
    match ve.2 with
    | none =>
      let fresh : Release :=
        { Date := parseMdDate line, Changes := [], Urgency := [],
          Distribution := [], Maintainer := ⟨[], []⟩ }
      { cl := setRel st.cl ve.1 fresh,
        err := if hasKey st.cl ve.1 then some (.multipleReleases verString) else none,
        curVer := some ve.1,
        curGrp := st.curGrp }
    | some e => { st with err := some e }
  else if hasPrefix (s2l "### ") line then
    { st with curGrp := trimPrefix (s2l "### ") line }
  else if hasPrefix (s2l "- ") line && st.curVer.isSome then
    match st.curVer with
    | some v =>
      let rel := (lookupRel st.cl v).getD zeroRelease
      let rel' : Release :=
        { rel with
          Changes := rel.Changes ++ [⟨st.curGrp, trimPrefix (s2l "- ") line⟩] }
      { st with cl := setRel st.cl v rel' }
    | none => st
  else st

def parseMdLines (ls : List GoStr) (st : MdState) : MdState := ls.foldl mdStep st

/-- `ParseMd`: scan the stream line by line, return the accumulated map and
the final value of `err`. -/
def ParseMd (s : GoStr) : Changelog × Option GoErr :=
  let st := parseMdLines (splitLines s) initMdState
  (st.cl, st.err)

/-! ### `ParseDebian` (changelog.go line 130) -/

/-- `SplitN(line, ": ", 2)` into a `Change` (changelog.go lines 157-164). -/
def debChange (content : GoStr) : Change :=
  match goSplitN2 (s2l ": ") content with
  | [a, b] => ⟨a, b⟩
  | _ => ⟨[], content⟩

/-- The header-line `switch` over space-separated components
(changelog.go lines 144-152). -/
def debHeaderRel (l : GoStr) : Release :=
  (goSplit (s2l " ") l).foldl
    (fun r comp =>
      if hasSuffix (s2l ";") comp then
        { r with Distribution := trimSuffix (s2l ";") comp }
      else if hasPrefix (s2l "urgency=") comp then
        { r with Urgency := trimPrefix (s2l "urgency=") comp }
      else r)
    zeroRelease

/-- Processing of a trailer line `l2` (with its `" -- "` prefix still on,
and after the possible `"  * "` trim), changelog.go lines 167-191: returns
the updated map and `err`. The release is committed only in the last case. -/
def debTrailer (v : Version) (vs : GoStr) (l2 : GoStr) (cl : Changelog)
    (err : Option GoErr) (rel2 : Release) : Changelog × Option GoErr :=
  let line := trimPrefix (s2l " -- ") l2
  let s := goSplit (s2l "  ") line
  if s.length ≠ 2 then (cl, some (.authorLine vs))
  else
    let s0 := s.getD 0 []
    let s1 := s.getD 1 []
    let a := goSplit (s2l " <") s0
    let me : Maintainer × Option GoErr :=
      if a.length = 2 then
        (⟨a.getD 0 [], trimSuffix (s2l ">") (a.getD 1 [])⟩, err)
      else (⟨s0, []⟩, some (.noEmail vs))
    match parseRFC1123Z s1 with
    | none => (cl, some (.badDate vs))
    | some d =>
      (setRel cl v { rel2 with Maintainer := me.1, Date := d }, me.2)

/-- The inner scan loop of `ParseDebian` (changelog.go lines 153-193): note
the Go code re-assigns `line` after trimming the `"  * "` prefix, so the
`" -- "` trailer test applies to the trimmed line. Returns the unconsumed
lines, the map, and `err`. -/
def debInner (v : Version) (vs : GoStr) :
    List GoStr → Changelog → Option GoErr → Release →
    List GoStr × Changelog × Option GoErr
  | [], cl, err, _ => ([], cl, err)
  | l :: ls, cl, err, rel =>
    if hasPrefix (s2l "  * ") l then
      let content := trimPrefix (s2l "  * ") l
      let rel2 : Release :=
        { rel with Changes := rel.Changes ++ [debChange content] }
      if hasPrefix (s2l " -- ") content then
        let p := debTrailer v vs content cl err rel2
        (ls, p.1, p.2)
      else debInner v vs ls cl err rel2
    else if hasPrefix (s2l " -- ") l then
      let p := debTrailer v vs l cl err rel
      (ls, p.1, p.2)
    else debInner v vs ls cl err rel

theorem debInner_rest_length (v : Version) (vs : GoStr) :
    ∀ (ls : List GoStr) (cl : Changelog) (err : Option GoErr) (rel : Release),
      (debInner v vs ls cl err rel).1.length ≤ ls.length := by
  intro ls
  induction ls with
  | nil => intro cl err rel; simp [debInner]
  | cons l ls ih =>
    intro cl err rel
    simp only [debInner]
    split
    · split
      · simp
      · exact Nat.le_succ_of_le (ih _ _ _)
    · split
      · simp
      · exact Nat.le_succ_of_le (ih _ _ _)

/-- The outer scan loop of `ParseDebian` (fuel-driven; every iteration
consumes at least the header line, so `length + 1` fuel suffices); `err` is
overwritten by `v, err = ToVersion(verString)` on every line it examines. -/
def parseDebLines : Nat → List GoStr → Changelog → Option GoErr → Changelog × Option GoErr
  | _, [], cl, err => (cl, err)
  | 0, _ :: _, cl, err => (cl, err)
  | fuel + 1, l :: ls, cl, _ =>
    let verString := FindString l
    let ve := ToVersion verString
    match ve.2 with
    | some e => parseDebLines fuel ls cl (some e)
    | none =>
      let errDup : Option GoErr :=
        if hasKey cl ve.1 then some (.multipleReleases verString) else none
      let r := debInner ve.1 verString ls cl errDup (debHeaderRel l)
      parseDebLines fuel r.1 r.2.1 r.2.2

/-- `ParseDebian`: scan the stream, return the map and the final `err`. -/
def ParseDebian (s : GoStr) : Changelog × Option GoErr :=
  parseDebLines ((splitLines s).length + 1) (splitLines s) [] none

/-! ### `Changelog.Debian` (changelog.go line 200) -/

/-- Go string `<`: lexicographic. -/
def lexLt : GoStr → GoStr → Bool
  | [], [] => false
  | [], _ :: _ => true
  | _ :: _, [] => false
  | a :: as', b :: bs' => a < b || (a = b && lexLt as' bs')

/-- The local `release` struct (changelog.go line 201). -/
structure release where
  v : Version
  d : DebTime
deriving DecidableEq, Repr

/-- The comparator passed to `sort.SliceStable` (changelog.go lines 211-225):
date first (`Equal`/`Before` on instants), then major, minor, patch, then the
prerelease string lexicographically. -/
def releaseLess (x y : release) : Bool :=
  if !timeEqB x.d y.d then timeLtB x.d y.d
  else if x.v.Major ≠ y.v.Major then decide (x.v.Major < y.v.Major)
  else if x.v.Minor ≠ y.v.Minor then decide (x.v.Minor < y.v.Minor)
  else if x.v.Patch ≠ y.v.Patch then decide (x.v.Patch < y.v.Patch)
  else lexLt x.v.Prerelease y.v.Prerelease

/-- `¬ less y x`: the non-strict order a stable sort arranges by. -/
def relLe (x y : release) : Prop := releaseLess y x = false

instance : DecidableRel relLe := fun x y => by unfold relLe; infer_instance

/-- `sort.SliceStable(releases, …)`: the unique stable sort by `releaseLess`. -/
def sortReleasesGo (rs : List release) : List release := List.insertionSort relLe rs

/-- The comparator for `sort.SliceStable(rel.Changes, …)` (line 247). -/
def chLe (x y : Change) : Prop := lexLt y.Type' x.Type' = false

instance : DecidableRel chLe := fun x y => by unfold chLe; infer_instance

/-- `sort.SliceStable` on a release's changes, by `Type` lexicographically. -/
def sortChangesGo (cs : List Change) : List Change := List.insertionSort chLe cs

def substUrg (u : GoStr) : GoStr := if u = [] then s2l "medium" else u

def substDist (d : GoStr) : GoStr := if d = [] then s2l "stable" else d

/-- The version string as rendered (lines 240-243). -/
def renderVer (v : Version) : GoStr :=
  intToStr v.Major ++ '.' :: intToStr v.Minor ++ '.' :: intToStr v.Patch
    ++ (if v.Prerelease = [] then [] else '-' :: v.Prerelease)

def headerLine (pkg : GoStr) (v : Version) (dist urg : GoStr) : GoStr :=
  pkg ++ s2l " (" ++ renderVer v ++ s2l ") " ++ dist ++ s2l "; urgency=" ++ urg

def changeLine (c : Change) : GoStr := s2l "  * " ++ c.Type' ++ s2l ": " ++ c.Body

def trailerLine (m : Maintainer) (d : DebTime) : GoStr :=
  s2l " -- " ++ m.Name ++ s2l " <" ++ m.Email ++ s2l ">  " ++ fmtRFC1123Z d

/-- The text one loop iteration appends for release key `rk` whose stored
release (at read time) is `rel` (lines 229-256). -/
def blockStr (pkg : GoStr) (rk : release) (rel : Release) : GoStr :=
  headerLine pkg rk.v (substDist rel.Distribution) (substUrg rel.Urgency)
    ++ '\n' :: '\n'
    :: ((sortChangesGo rel.Changes).flatMap fun c => changeLine c ++ ['\n'])
    ++ '\n' :: trailerLine rel.Maintainer rk.d ++ '\n' :: ['\n']

/-- The emission loop over `releases` in reverse order. `sort.SliceStable`
on `rel.Changes` sorts the backing array shared with the map's stored
release in place, so the loop also updates the map state. -/
def debEmit (pkg : GoStr) : List release → Changelog → GoStr → GoStr × Changelog
  | [], cl, s => (s, cl)
  | rk :: rest, cl, s =>
    let rel := (lookupRel cl rk.v).getD zeroRelease
    let cl' := setRel cl rk.v { rel with Changes := sortChangesGo rel.Changes }
    debEmit pkg rest cl' (s ++ blockStr pkg rk rel)

/-- The `releases` slice built from the map (changelog.go lines 205-209),
in the model's iteration order. -/
def goReleases (cl : Changelog) : List release :=
  cl.map fun p => release.mk p.1 p.2.Date

/-- The order in which the emission loop visits releases: ascending stable
sort, then reversed (newest first). -/
def emissionOrder (cl : Changelog) : List release :=
  (sortReleasesGo (goReleases cl)).reverse

/-- `Changelog.Debian`: returns the formatted bytes and the (mutated) map
after the call. The Go function never returns a non-nil error. -/
def Changelog.Debian (cl : Changelog) (pkg : GoStr) : GoStr × Changelog :=
  let r := debEmit pkg (emissionOrder cl) cl []
  (trimSuffix (s2l "\n") r.1, r.2)

/-! ### Order theory of the two comparators -/

theorem lexLt_irrefl (a : GoStr) : lexLt a a = false := by
  induction a with
  | nil => rfl
  | cons c t ih => simp [lexLt, ih]

theorem lexLt_trans :
    ∀ {a b c : GoStr}, lexLt a b = true → lexLt b c = true → lexLt a c = true := by
  intro a
  induction a with
  | nil =>
    intro b c hab hbc
    cases b with
    | nil => exact absurd hab (by simp [lexLt])
    | cons y bt => cases c with
      | nil => exact absurd hbc (by simp [lexLt])
      | cons z ct => simp [lexLt]
  | cons x at' ih =>
    intro b c hab hbc
    cases b with
    | nil => exact absurd hab (by simp [lexLt])
    | cons y bt =>
      cases c with
      | nil => exact absurd hbc (by simp [lexLt])
      | cons z ct =>
        simp only [lexLt, Bool.or_eq_true, Bool.and_eq_true, decide_eq_true_eq] at *
        rcases hab with h1 | ⟨rfl, h1⟩
        · rcases hbc with h2 | ⟨rfl, h2⟩
          · exact Or.inl (lt_trans h1 h2)
          · exact Or.inl h1
        · rcases hbc with h2 | ⟨rfl, h2⟩
          · exact Or.inl h2
          · exact Or.inr ⟨rfl, ih h1 h2⟩

theorem lexLt_asymm {a b : GoStr} (h : lexLt a b = true) : lexLt b a = false := by
  by_contra hc
  have hba : lexLt b a = true := by
    cases hh : lexLt b a
    · exact absurd hh hc
    · rfl
  have := lexLt_trans h hba
  rw [lexLt_irrefl] at this
  exact Bool.false_ne_true this

theorem lexLt_eq_of_not {a b : GoStr}
    (h1 : lexLt a b = false) (h2 : lexLt b a = false) : a = b := by
  induction a generalizing b with
  | nil => cases b with
    | nil => rfl
    | cons y bt => exact absurd h1 (by simp [lexLt])
  | cons x at' ih =>
    cases b with
    | nil => exact absurd h2 (by simp [lexLt])
    | cons y bt =>
      simp only [lexLt, Bool.or_eq_false_iff, Bool.and_eq_false_iff,
        decide_eq_false_iff_not] at h1 h2
      have hxy : x = y := by
        rcases lt_trichotomy x y with h | h | h
        · exact absurd h h1.1
        · exact h
        · exact absurd h h2.1
      subst hxy
      rcases h1.2 with h | h
      · exact absurd rfl h
      · rcases h2.2 with h' | h'
        · exact absurd rfl h'
        · rw [ih h h']

/-- A lexicographic transitivity step, used level by level. -/
theorem lex_step {α : Type} [LinearOrder α] {a b c : α} {p q r : Prop}
    (h1 : a < b ∨ (a = b ∧ p)) (h2 : b < c ∨ (b = c ∧ q)) (hpq : p → q → r) :
    a < c ∨ (a = c ∧ r) := by
  rcases h1 with h1 | ⟨e1, hp⟩
  · rcases h2 with h2 | ⟨e2, _⟩
    · exact Or.inl (lt_trans h1 h2)
    · exact Or.inl (e2 ▸ h1)
  · rcases h2 with h2 | ⟨e2, hq⟩
    · exact Or.inl (e1 ▸ h2)
    · exact Or.inr ⟨e1.trans e2, hpq hp hq⟩

/-- A lexicographic "neither side is smaller" step. -/
theorem lex_not {α : Type} [LinearOrder α] {a b : α} {p q : Prop}
    (h1 : ¬(a < b ∨ (a = b ∧ p))) (h2 : ¬(b < a ∨ (b = a ∧ q))) :
    a = b ∧ ¬p ∧ ¬q := by
  push_neg at h1 h2
  have hab : a = b := le_antisymm h2.1 h1.1
  exact ⟨hab, h1.2 hab, h2.2 hab.symm⟩

/-- The comparator, characterized as a lexicographic comparison. -/
theorem releaseLess_true_iff (x y : release) : releaseLess x y = true ↔
    instant x.d < instant y.d ∨ (instant x.d = instant y.d ∧
      (x.v.Major < y.v.Major ∨ (x.v.Major = y.v.Major ∧
        (x.v.Minor < y.v.Minor ∨ (x.v.Minor = y.v.Minor ∧
          (x.v.Patch < y.v.Patch ∨ (x.v.Patch = y.v.Patch ∧
            lexLt x.v.Prerelease y.v.Prerelease = true))))))) := by
  unfold releaseLess timeEqB timeLtB
  by_cases hd : instant x.d = instant y.d
  · by_cases hMa : x.v.Major = y.v.Major
    · by_cases hMi : x.v.Minor = y.v.Minor
      · by_cases hPa : x.v.Patch = y.v.Patch
        · simp [hd, hMa, hMi, hPa]
        · simp [hd, hMa, hMi, hPa]
      · simp [hd, hMa, hMi]
    · simp [hd, hMa]
  · simp [hd]

theorem releaseLess_false_iff (x y : release) : releaseLess x y = false ↔
    ¬(instant x.d < instant y.d ∨ (instant x.d = instant y.d ∧
      (x.v.Major < y.v.Major ∨ (x.v.Major = y.v.Major ∧
        (x.v.Minor < y.v.Minor ∨ (x.v.Minor = y.v.Minor ∧
          (x.v.Patch < y.v.Patch ∨ (x.v.Patch = y.v.Patch ∧
            lexLt x.v.Prerelease y.v.Prerelease = true)))))))) := by
  rw [← releaseLess_true_iff]
  cases releaseLess x y <;> simp

theorem releaseLess_irrefl (x : release) : releaseLess x x = false := by
  rw [releaseLess_false_iff]
  simp [lexLt_irrefl]

/-- `releaseLess` depends only on the instant of the date and the version. -/
theorem releaseLess_congr {a b : release} (hd : instant a.d = instant b.d)
    (hv : a.v = b.v) (c : release) :
    releaseLess a c = releaseLess b c ∧ releaseLess c a = releaseLess c b := by
  unfold releaseLess timeEqB timeLtB
  rw [hd, hv]
  exact ⟨rfl, rfl⟩

/-- If neither release is less than the other, they have equal sort keys:
equal instants and equal versions (all four fields). -/
theorem releaseLess_keyEq {x y : release}
    (h1 : releaseLess x y = false) (h2 : releaseLess y x = false) :
    instant x.d = instant y.d ∧ x.v = y.v := by
  rw [releaseLess_false_iff] at h1 h2
  obtain ⟨hd, h1, h2⟩ := lex_not h1 h2
  obtain ⟨hMa, h1, h2⟩ := lex_not h1 h2
  obtain ⟨hMi, h1, h2⟩ := lex_not h1 h2
  obtain ⟨hPa, h1, h2⟩ := lex_not h1 h2
  have hPre := lexLt_eq_of_not (Bool.not_eq_true _ |>.mp h1) (Bool.not_eq_true _ |>.mp h2)
  refine ⟨hd, ?_⟩
  cases hx : x.v
  cases hy : y.v
  rw [hx, hy] at hMa hMi hPa hPre
  simp_all

theorem releaseLess_trans {x y z : release} (h1 : releaseLess x y = true)
    (h2 : releaseLess y z = true) : releaseLess x z = true := by
  rw [releaseLess_true_iff] at h1 h2 ⊢
  refine lex_step h1 h2 fun a1 a2 => lex_step a1 a2 fun b1 b2 =>
    lex_step b1 b2 fun c1 c2 => lex_step c1 c2 fun d1 d2 => lexLt_trans d1 d2

theorem releaseLess_asymm {x y : release} (h : releaseLess x y = true) :
    releaseLess y x = false := by
  cases hc : releaseLess y x
  · rfl
  · have hxx := releaseLess_trans h hc
    rw [releaseLess_irrefl] at hxx
    exact absurd hxx (by simp)

/-- Negative transitivity of `releaseLess`. -/
theorem releaseLess_negtrans {x y z : release} (h1 : releaseLess x y = false)
    (h2 : releaseLess y z = false) : releaseLess x z = false := by
  cases hxz : releaseLess x z
  · rfl
  · exfalso
    cases hyx : releaseLess y x
    · -- neither x < y nor y < x: equal keys, so x < z means y < z
      obtain ⟨hd1, hv1⟩ := releaseLess_keyEq h1 hyx
      have e1 := (releaseLess_congr hd1 hv1 z).1
      rw [hxz, h2] at e1
      exact absurd e1 (by simp)
    · -- y < x and x < z give y < z
      have hyz := releaseLess_trans hyx hxz
      rw [h2] at hyz
      exact absurd hyz (by simp)

instance : IsTotal release relLe :=
  ⟨fun x y => by
    unfold relLe
    cases h : releaseLess y x
    · exact Or.inl rfl
    · exact Or.inr (releaseLess_asymm h)⟩

instance : IsTrans release relLe :=
  ⟨fun x y z h1 h2 => by
    unfold relLe at *
    exact releaseLess_negtrans h2 h1⟩

theorem chLe_eq_of_equiv {x y : Change} (h1 : chLe x y) (h2 : chLe y x) :
    x.Type' = y.Type' := by
  unfold chLe at h1 h2
  exact lexLt_eq_of_not h2 h1

instance : IsTotal Change chLe :=
  ⟨fun x y => by
    unfold chLe
    cases h : lexLt y.Type' x.Type'
    · exact Or.inl rfl
    · exact Or.inr (lexLt_asymm h)⟩

theorem lexLt_negtrans {a b c : GoStr} (h1 : lexLt a b = false)
    (h2 : lexLt b c = false) : lexLt a c = false := by
  cases hac : lexLt a c
  · rfl
  · exfalso
    cases hba : lexLt b a
    · have e := lexLt_eq_of_not h1 hba
      rw [e, h2] at hac
      exact absurd hac (by simp)
    · have hbc := lexLt_trans hba hac
      rw [h2] at hbc
      exact absurd hbc (by simp)

instance : IsTrans Change chLe :=
  ⟨fun _ _ _ h1 h2 => by
    unfold chLe at *
    exact lexLt_negtrans h2 h1⟩

/-! ### Association-list (Go map) lemmas -/

/-- The key list of the model. -/
def keys (cl : Changelog) : List Version := cl.map Prod.fst

theorem hasKey_iff_mem {cl : Changelog} {v : Version} :
    hasKey cl v = true ↔ v ∈ keys cl := by
  induction cl with
  | nil => simp [hasKey, lookupRel, keys]
  | cons p t ih =>
    obtain ⟨k, r⟩ := p
    by_cases hk : k = v
    · subst hk
      simp [hasKey, lookupRel, keys]
    · simp only [hasKey, lookupRel, if_neg hk, keys, List.map_cons, List.mem_cons]
      rw [← keys, ← hasKey]
      rw [ih]
      constructor
      · exact Or.inr
      · rintro (h | h)
        · exact absurd h.symm hk
        · exact h

theorem lookupRel_setRel_self (cl : Changelog) (v : Version) (r : Release) :
    lookupRel (setRel cl v r) v = some r := by
  induction cl with
  | nil => simp [setRel, lookupRel]
  | cons p t ih =>
    obtain ⟨k, x⟩ := p
    by_cases hk : k = v
    · simp [setRel, hk, lookupRel]
    · simp [setRel, hk, lookupRel, ih]

theorem lookupRel_setRel_ne (cl : Changelog) {v w : Version} (r : Release)
    (h : w ≠ v) : lookupRel (setRel cl v r) w = lookupRel cl w := by
  have hvw : v ≠ w := fun hh => h hh.symm
  induction cl with
  | nil =>
    simp only [setRel, lookupRel, if_neg hvw]
  | cons p t ih =>
    obtain ⟨k, x⟩ := p
    by_cases hk : k = v
    · subst hk
      simp only [setRel, if_pos rfl, lookupRel]
      rw [if_neg hvw, if_neg hvw]
    · simp only [setRel, if_neg hk, lookupRel]
      by_cases hw : k = w
      · simp [hw]
      · rw [if_neg hw, if_neg hw, ih]

theorem map_id_of_no_key {t : Changelog} {v : Version} (r : Release)
    (hnv : v ∉ keys t) :
    (t.map fun p => if p.1 = v then (v, r) else p) = t := by
  induction t with
  | nil => rfl
  | cons p t ih =>
    obtain ⟨k, x⟩ := p
    simp only [keys, List.map_cons, List.mem_cons] at hnv
    push_neg at hnv
    have hkv : ¬((k, x) : Version × Release).1 = v := fun hh => hnv.1 hh.symm
    simp only [List.map_cons, if_neg hkv]
    rw [ih (by simpa [keys] using hnv.2)]

/-- Under distinct keys, a map assignment at a present key is the entrywise
replacement. -/
theorem setRel_of_mem {cl : Changelog} {v : Version} (r : Release)
    (hnd : (keys cl).Nodup) (h : v ∈ keys cl) :
    setRel cl v r = cl.map fun p => if p.1 = v then (v, r) else p := by
  induction cl with
  | nil => simp [keys] at h
  | cons p t ih =>
    obtain ⟨k, x⟩ := p
    simp only [keys, List.map_cons, List.nodup_cons] at hnd
    by_cases hk : k = v
    · subst hk
      have e1 : setRel ((k, x) :: t) k r = (k, r) :: t := by
        simp [setRel]
      have e2 : ((k, x) : Version × Release).1 = k := rfl
      rw [e1, List.map_cons, if_pos e2,
        map_id_of_no_key r (by simpa [keys] using hnd.1)]
    · simp only [keys, List.map_cons, List.mem_cons] at h
      rcases h with h | h
      · exact absurd h.symm hk
      · simp only [setRel, if_neg hk, List.map_cons, if_neg hk]
        rw [ih hnd.2 (by simpa [keys] using h)]

theorem keys_setRel_of_mem {cl : Changelog} {v : Version} (r : Release)
    (h : v ∈ keys cl) : keys (setRel cl v r) = keys cl := by
  induction cl with
  | nil => simp [keys] at h
  | cons p t ih =>
    obtain ⟨k, x⟩ := p
    by_cases hk : k = v
    · subst hk
      simp [setRel, keys]
    · simp only [keys, List.map_cons, List.mem_cons] at h
      rcases h with h | h
      · exact absurd h.symm hk
      · have ht : keys (setRel t v r) = keys t := ih (by simpa [keys] using h)
        simp only [setRel, if_neg hk, keys, List.map_cons]
        rw [show List.map Prod.fst (setRel t v r) = List.map Prod.fst t from ht]

/-! ### Stability of the stable sorts -/

theorem filter_orderedInsert {α : Type} (le : α → α → Prop) [DecidableRel le]
    (p : α → Bool) (x : α) :
    ∀ L : List α, (∀ b ∈ L, p b = true → p x = true → le x b) →
      (L.orderedInsert le x).filter p =
        if p x then x :: L.filter p else L.filter p := by
  intro L
  induction L with
  | nil =>
    intro _
    simp [List.orderedInsert, List.filter_cons]
  | cons y t ih =>
    intro h
    rw [List.orderedInsert]
    by_cases hle : le x y
    · rw [if_pos hle, List.filter_cons]
    · rw [if_neg hle, List.filter_cons]
      have ht := ih fun b hb => h b (List.mem_cons_of_mem _ hb)
      cases hpy : p y with
      | false =>
        simp only [Bool.false_eq_true, if_false]
        rw [ht, List.filter_cons, hpy]
        simp
      | true =>
        cases hpx : p x with
        | false =>
          simp only [if_pos rfl]
          rw [ht, List.filter_cons, hpy]
          simp [hpx]
        | true => exact absurd (h y (List.mem_cons_self y t) hpy hpx) hle

/-- A stable sort does not reorder elements within one equivalence class of
the sorting order: filtering by any class predicate is unchanged. -/
theorem filter_insertionSort {α : Type} (le : α → α → Prop) [DecidableRel le]
    (p : α → Bool) (hp : ∀ a b, p a = true → p b = true → le a b) :
    ∀ l : List α, (l.insertionSort le).filter p = l.filter p := by
  intro l
  induction l with
  | nil => rfl
  | cons x t ih =>
    rw [List.insertionSort,
      filter_orderedInsert le p x _ (fun b _ hb hx => hp x b hx hb),
      List.filter_cons, ih]

/-! ### Emission-loop lemmas -/

theorem lookupRel_isSome_of_mem {cl : Changelog} {v : Version}
    (h : v ∈ keys cl) : ∃ r, lookupRel cl v = some r := by
  induction cl with
  | nil => simp [keys] at h
  | cons p t ih =>
    obtain ⟨k, x⟩ := p
    by_cases hk : k = v
    · exact ⟨x, by simp [lookupRel, hk]⟩
    · simp only [keys, List.map_cons, List.mem_cons] at h
      rcases h with h | h
      · exact absurd h.symm hk
      · obtain ⟨r, hr⟩ := ih (by simpa [keys] using h)
        exact ⟨r, by simp [lookupRel, hk, hr]⟩

/-- The string built by the emission loop: one block per release key, each
block reading the model state of its own iteration; with distinct keys that
state is the original model. -/
theorem debEmit_flatMap (pkg : GoStr) :
    ∀ (rks : List release) (cl : Changelog) (s : GoStr),
      (rks.map (·.v)).Nodup →
      (debEmit pkg rks cl s).1
        = s ++ rks.flatMap fun rk =>
            blockStr pkg rk ((lookupRel cl rk.v).getD zeroRelease) := by
  intro rks
  induction rks with
  | nil => intro cl s _; simp [debEmit]
  | cons rk rest ih =>
    intro cl s hnd
    simp only [List.map_cons, List.nodup_cons] at hnd
    rw [debEmit, ih _ _ hnd.2]
    rw [List.flatMap_cons, ← List.append_assoc]
    congr 1
    apply List.flatMap_congr ?_
    intro rk' hrk'
    have hne : rk'.v ≠ rk.v := by
      intro he
      exact hnd.1 (he ▸ List.mem_map_of_mem (·.v) hrk')
    rw [lookupRel_setRel_ne _ _ hne]

/-- Under distinct keys, looking up an entry's key returns its value. -/
theorem lookupRel_of_mem_nodup :
    ∀ {cl : Changelog}, (keys cl).Nodup → ∀ {p : Version × Release}, p ∈ cl →
      lookupRel cl p.1 = some p.2 := by
  intro cl
  induction cl with
  | nil => intro _ p hp; simp at hp
  | cons q t ih =>
    intro hcl p hp
    obtain ⟨qk, qx⟩ := q
    simp only [keys, List.map_cons, List.nodup_cons] at hcl
    rcases List.mem_cons.mp hp with he | ht
    · subst he
      simp [lookupRel]
    · have hqk : qk ≠ p.1 := by
        intro hh
        exact hcl.1 (hh ▸ List.mem_map_of_mem Prod.fst ht)
      simp only [lookupRel, if_neg hqk]
      exact ih (by simpa [keys] using hcl.2) ht

/-- The model state after the emission loop: every visited key's changes are
sorted in place; nothing else is touched. -/
theorem debEmit_state_map (pkg : GoStr) :
    ∀ (rks : List release) (cl : Changelog) (s : GoStr),
      (keys cl).Nodup → (rks.map (·.v)).Nodup →
      (∀ rk ∈ rks, rk.v ∈ keys cl) →
      (debEmit pkg rks cl s).2
        = cl.map fun p =>
            if p.1 ∈ rks.map (·.v) then
              (p.1, { p.2 with Changes := sortChangesGo p.2.Changes })
            else p := by
  intro rks
  induction rks with
  | nil =>
    intro cl s _ _ _
    simp [debEmit]
  | cons rk rest ih =>
    intro cl s hcl hnd hmem
    simp only [List.map_cons, List.nodup_cons] at hnd
    have hrkv : rk.v ∈ keys cl := hmem rk (List.mem_cons_self _ _)
    rw [debEmit]
    have hset := setRel_of_mem
      ({ (lookupRel cl rk.v).getD zeroRelease with
        Changes := sortChangesGo ((lookupRel cl rk.v).getD zeroRelease).Changes })
      hcl hrkv
    have hkeys : (Prod.fst ∘ fun p : Version × Release =>
        if p.1 = rk.v then (rk.v, { (lookupRel cl rk.v).getD zeroRelease with
          Changes := sortChangesGo ((lookupRel cl rk.v).getD zeroRelease).Changes })
        else p) = Prod.fst := by
      funext p
      by_cases hp : p.1 = rk.v
      · simp [hp]
      · simp [hp]
    rw [ih _ _ (by rw [hset, keys, List.map_map, hkeys]; exact hcl)
          hnd.2
          (by intro rk' h'
              rw [keys_setRel_of_mem _ hrkv]
              exact hmem rk' (List.mem_cons_of_mem _ h'))]
    rw [hset, List.map_map]
    apply List.map_congr_left
    intro p hp
    simp only [Function.comp_apply, List.map_cons, List.mem_cons]
    by_cases hpv : p.1 = rk.v
    · have hlook : (lookupRel cl rk.v).getD zeroRelease = p.2 := by
        rw [← hpv, lookupRel_of_mem_nodup hcl hp]
        rfl
      rw [if_pos hpv, hlook, if_neg (show ¬ (rk.v ∈ rest.map (·.v)) from hnd.1),
        if_pos (Or.inl hpv), hpv]
    · rw [if_neg hpv]
      by_cases hprest : p.1 ∈ rest.map (·.v)
      · rw [if_pos hprest, if_pos (Or.inr hprest)]
      · rw [if_neg hprest, if_neg (by
          rintro (hc | hc)
          · exact hpv hc
          · exact hprest hc)]

theorem emissionOrder_v_perm (cl : Changelog) :
    ((emissionOrder cl).map (·.v)).Perm (keys cl) := by
  have h1 : (emissionOrder cl).Perm (goReleases cl) :=
    (List.reverse_perm _).trans (List.perm_insertionSort relLe _)
  have h2 := h1.map (·.v)
  have h3 : (goReleases cl).map (·.v) = keys cl := by
    unfold goReleases keys
    rw [List.map_map]
    rfl
  rw [h3] at h2
  exact h2

theorem emissionOrder_v_nodup {cl : Changelog} (hnd : (keys cl).Nodup) :
    ((emissionOrder cl).map (·.v)).Nodup :=
  (emissionOrder_v_perm cl).nodup_iff.mpr hnd

theorem emissionOrder_v_mem {cl : Changelog} {rk : release}
    (h : rk ∈ emissionOrder cl) : rk.v ∈ keys cl := by
  have := (emissionOrder_v_perm cl).mem_iff.mp (List.mem_map_of_mem (·.v) h)
  exact this

/-! ### Claim theorems -/

/-- C8: parsing the Markdown lines `## [2.2.0] - 2019-09-21`, `### Added`,
`- a way to set custom battery threshold` with `ParseMd` returns no error and
a model with exactly one entry, keyed by version 2.2.0 (empty prerelease),
dated 2019-09-21, with exactly one change of Type "Added" and Body
"a way to set custom battery threshold". -/
theorem c8_markdown_example :
    ParseMd (s2l "## [2.2.0] - 2019-09-21\n### Added\n- a way to set custom battery threshold\n")
      = ([(⟨2, 2, 0, []⟩,
           ⟨⟨2019, 9, 21, 0, 0, 0, 0, 0⟩,
            [⟨s2l "Added", s2l "a way to set custom battery threshold"⟩],
            [], [], ⟨[], []⟩⟩)], none) := by decide

/-- C4 (divergence): on the version list of the repository's own
`TestSortReleases` (all dates equal), the comparator of `Changelog.Debian`
sorts `5.2.14` *before* `5.2.14-rc1` and `5.2.14-rc2` (the empty prerelease
is lexicographically smallest), so the claimed ascending sequence
`…, 5.2.14-rc2, 5.2.14, …` does not hold: `5.2.14-rc2 < 5.2.14` is false and
`5.2.14 < 5.2.14-rc2` is true. -/
theorem c4_code_divergence :
    sortReleasesGo
        [⟨⟨5, 2, 14, []⟩, zeroTime⟩, ⟨⟨5, 2, 14, s2l "rc1"⟩, zeroTime⟩,
         ⟨⟨6, 1, 12, []⟩, zeroTime⟩, ⟨⟨5, 2, 15, []⟩, zeroTime⟩,
         ⟨⟨5, 3, 0, s2l "rc"⟩, zeroTime⟩, ⟨⟨5, 2, 14, s2l "rc2"⟩, zeroTime⟩,
         ⟨⟨5, 3, 0, []⟩, zeroTime⟩]
      = [⟨⟨5, 2, 14, []⟩, zeroTime⟩, ⟨⟨5, 2, 14, s2l "rc1"⟩, zeroTime⟩,
         ⟨⟨5, 2, 14, s2l "rc2"⟩, zeroTime⟩, ⟨⟨5, 2, 15, []⟩, zeroTime⟩,
         ⟨⟨5, 3, 0, []⟩, zeroTime⟩, ⟨⟨5, 3, 0, s2l "rc"⟩, zeroTime⟩,
         ⟨⟨6, 1, 12, []⟩, zeroTime⟩]
    ∧ releaseLess ⟨⟨5, 2, 14, s2l "rc2"⟩, zeroTime⟩ ⟨⟨5, 2, 14, []⟩, zeroTime⟩ = false
    ∧ releaseLess ⟨⟨5, 2, 14, []⟩, zeroTime⟩ ⟨⟨5, 2, 14, s2l "rc2"⟩, zeroTime⟩ = true := by
  decide

/-- C6 (divergence): `"1.2.3-0x"` is in the anchored semver language with
capture groups `1.2.3` and prerelease `0x`, yet `ToVersion` returns the zero
`Version` with a nil error: the leftmost-first match used by
`ReplaceAllString` stops at `"1.2.3-0"`, `strconv.Atoi` then fails on
`"1x"`, and that failure is lost because the inner `err` is `:=`-shadowed
inside the `if` block. The anchored-grammar error behaviour itself is as
claimed: the `v`-prefixed string yields the `ErrNotSemver` sentinel. -/
theorem c6_code_divergence :
    semverDecomp (s2l "1.2.3-0x") = some ⟨1, 2, 3, s2l "0x"⟩
    ∧ ToVersion (s2l "1.2.3-0x") = (zeroVersion, none)
    ∧ zeroVersion ≠ Version.mk 1 2 3 (s2l "0x")
    ∧ ToVersion (s2l "v3.2.18-rc1+df8891") = (zeroVersion, some .notSemver) := by
  decide

/-- C1 (counterexample): a duplicate `## 1.0.0` heading reports the
"multiple releases" error, but the model maps 1.0.0 to the *second* entry: a
fresh release with the second heading's (zero) date and no changes; the
first release's date and its change "a" are not retained. -/
theorem c1_counterexample :
    ParseMd (s2l "## 1.0.0 - 2019-01-01\n- a\n## 1.0.0")
      = ([(⟨1, 0, 0, []⟩, ⟨zeroTime, [], [], [], ⟨[], []⟩⟩)],
         some (.multipleReleases (s2l "1.0.0")))
    ∧ parseMdDate (s2l "## 1.0.0 - 2019-01-01") = ⟨2019, 1, 1, 0, 0, 0, 0, 0⟩ := by
  decide

/-- C7 (counterexample): `Changelog.Debian` does *not* leave the caller's
model unchanged: `sort.SliceStable(rel.Changes, …)` permutes the backing
array shared with the stored release, so after the call the stored change
order is Type-sorted. -/
theorem c7_counterexample :
    (Changelog.Debian
        [(⟨1, 0, 0, []⟩,
          ⟨⟨2019, 1, 2, 0, 0, 0, 0, 0⟩,
           [⟨s2l "Fixed", s2l "b"⟩, ⟨s2l "Added", s2l "a"⟩],
           [], [], ⟨s2l "J", s2l "j@d"⟩⟩)]
        (s2l "pkg")).2
      = [(⟨1, 0, 0, []⟩,
          ⟨⟨2019, 1, 2, 0, 0, 0, 0, 0⟩,
           [⟨s2l "Added", s2l "a"⟩, ⟨s2l "Fixed", s2l "b"⟩],
           [], [], ⟨s2l "J", s2l "j@d"⟩⟩)]
    ∧ ([⟨s2l "Added", s2l "a"⟩, ⟨s2l "Fixed", s2l "b"⟩] : List Change)
        ≠ [⟨s2l "Fixed", s2l "b"⟩, ⟨s2l "Added", s2l "a"⟩] := by
  decide

/-- C10 (counterexample): the "not a valid version" error from the invalid
heading `## unreleased` is *not* carried to the end: the later valid heading
`## 1.0.0` re-assigns `err` to nil, so `ParseMd` returns no error (the
bullet before any valid heading is dropped, and later bullets attach to
1.0.0). -/
theorem c10_counterexample :
    ParseMd (s2l "## unreleased\n- a\n## 1.0.0\n- b")
      = ([(⟨1, 0, 0, []⟩, ⟨zeroTime, [⟨[], s2l "b"⟩], [], [], ⟨[], []⟩⟩)],
         none) := by
  decide

/-- C2 (counterexample): with a maintainer containing no double space, a
change whose Type contains `": "` breaks the round trip: formatting then
parsing yields the change `("a", "b: c")` in place of `("a: b", "c")`, so
the multiset of changes differs. -/
theorem c2_counterexample :
    (ParseDebian (Changelog.Debian
        [(⟨1, 0, 0, []⟩,
          ⟨⟨2019, 1, 2, 0, 0, 0, 0, 0⟩, [⟨s2l "a: b", s2l "c"⟩],
           [], [], ⟨s2l "John Doe", s2l "john@doe.me"⟩⟩)]
        (s2l "pkg")).1).1
      = [(⟨1, 0, 0, []⟩,
          ⟨⟨2019, 1, 2, 0, 0, 0, 0, 0⟩, [⟨s2l "a", s2l "b: c"⟩],
           s2l "medium", s2l "stable", ⟨s2l "John Doe", s2l "john@doe.me"⟩⟩)]
    ∧ ¬ ([⟨s2l "a", s2l "b: c"⟩] : List Change).Perm [⟨s2l "a: b", s2l "c"⟩]
    ∧ containsSub (s2l "  ") (s2l "John Doe") = false
    ∧ containsSub (s2l "  ") (s2l "john@doe.me") = false := by
  decide

/-- C7 (amended): `Changelog.Debian` leaves the caller's model unchanged
*except* that each release's `Changes` sequence is re-ordered in place into
the stable Type-sorted order (via the backing array shared with
`sort.SliceStable`); in particular the urgency and distribution defaults are
substituted only in the output and never stored, and the date, urgency,
distribution, maintainer and the multiset of changes of every stored release
are untouched. -/
theorem c7_amended (cl : Changelog) (pkg : GoStr) (hnd : (keys cl).Nodup) :
    (Changelog.Debian cl pkg).2
      = cl.map fun p => (p.1, { p.2 with Changes := sortChangesGo p.2.Changes }) := by
  unfold Changelog.Debian
  rw [debEmit_state_map pkg (emissionOrder cl) cl [] hnd
    (emissionOrder_v_nodup hnd) (fun rk h => emissionOrder_v_mem h)]
  apply List.map_congr_left
  intro p hp
  rw [if_pos ((emissionOrder_v_perm cl).mem_iff.mpr (List.mem_map_of_mem Prod.fst hp))]

/-- Witness for C7 (amended) at a concrete two-release model. -/
theorem c7_amended_witness :
    (keys [(⟨1, 0, 0, []⟩,
        ⟨⟨2019, 1, 2, 0, 0, 0, 0, 0⟩,
         [⟨s2l "Fixed", s2l "b"⟩, ⟨s2l "Added", s2l "a"⟩],
         s2l "low", [], ⟨s2l "J", s2l "j@d"⟩⟩)]).Nodup
    ∧ (Changelog.Debian
        [(⟨1, 0, 0, []⟩,
          ⟨⟨2019, 1, 2, 0, 0, 0, 0, 0⟩,
           [⟨s2l "Fixed", s2l "b"⟩, ⟨s2l "Added", s2l "a"⟩],
           s2l "low", [], ⟨s2l "J", s2l "j@d"⟩⟩)]
        (s2l "pkg")).2
      = [(⟨1, 0, 0, []⟩,
          ⟨⟨2019, 1, 2, 0, 0, 0, 0, 0⟩,
           [⟨s2l "Added", s2l "a"⟩, ⟨s2l "Fixed", s2l "b"⟩],
           s2l "low", [], ⟨s2l "J", s2l "j@d"⟩⟩)] :=
  ⟨by decide, (c7_amended _ (s2l "pkg") (by decide)).trans (by decide)⟩

/-- C5: the emission of `Changelog.Debian` is exactly the blocks of the
releases in `emissionOrder` (ascending stable sort by date, then major,
minor, patch, prerelease — reversed, newest first, one trailing newline
trimmed); the sorted list is a permutation of the (insertion-ordered)
releases list, is sorted by the comparator, is stable (filtering by any
equal-key class is the identity on the order), and in the emitted order any
two releases with distinct dates appear in descending date order. -/
theorem c5_emission_order (cl : Changelog) (pkg : GoStr)
    (hnd : (keys cl).Nodup) :
    (Changelog.Debian cl pkg).1
        = trimSuffix (s2l "\n")
            ((emissionOrder cl).flatMap fun rk =>
              blockStr pkg rk ((lookupRel cl rk.v).getD zeroRelease))
    ∧ (sortReleasesGo (goReleases cl)).Perm (goReleases cl)
    ∧ List.Sorted relLe (sortReleasesGo (goReleases cl))
    ∧ (∀ k : release,
        (sortReleasesGo (goReleases cl)).filter
            (fun x => releaseLess x k = false && releaseLess k x = false)
          = (goReleases cl).filter
            (fun x => releaseLess x k = false && releaseLess k x = false))
    ∧ (∀ i j : Fin (emissionOrder cl).length, i < j →
        instant ((emissionOrder cl).get i).d ≠ instant ((emissionOrder cl).get j).d →
        instant ((emissionOrder cl).get j).d < instant ((emissionOrder cl).get i).d) := by
  refine ⟨?_, List.perm_insertionSort relLe _, List.sorted_insertionSort relLe _, ?_, ?_⟩
  · unfold Changelog.Debian
    dsimp only
    rw [debEmit_flatMap pkg (emissionOrder cl) cl [] (emissionOrder_v_nodup hnd)]
    rfl
  · intro k
    apply filter_insertionSort
    intro a b ha hb
    simp only [Bool.and_eq_true, decide_eq_true_eq] at ha hb
    unfold relLe
    exact releaseLess_negtrans hb.1 ha.2
  · intro i j hij hne
    have hsorted : List.Sorted relLe (sortReleasesGo (goReleases cl)) :=
      List.sorted_insertionSort relLe _
    have hrev : (emissionOrder cl).Pairwise (fun a b => relLe b a) := by
      unfold emissionOrder
      rw [List.pairwise_reverse]
      exact hsorted
    have hrel := (List.pairwise_iff_get.mp hrev) i j hij
    unfold relLe at hrel
    rw [releaseLess_false_iff] at hrel
    push_neg at hrel
    exact lt_of_le_of_ne hrel.1 fun hh => hne hh.symm

/-- Witness for C5 at a concrete two-release model with distinct dates. -/
theorem c5_emission_order_witness :
    (keys [(⟨1, 0, 0, []⟩,
        ⟨⟨2019, 1, 2, 0, 0, 0, 0, 0⟩, [], [], [], ⟨s2l "J", s2l "j@d"⟩⟩),
       (⟨2, 0, 0, []⟩,
        ⟨⟨2018, 1, 2, 0, 0, 0, 0, 0⟩, [], [], [], ⟨s2l "J", s2l "j@d"⟩⟩)]).Nodup
    ∧ ((Changelog.Debian
        [(⟨1, 0, 0, []⟩,
          ⟨⟨2019, 1, 2, 0, 0, 0, 0, 0⟩, [], [], [], ⟨s2l "J", s2l "j@d"⟩⟩),
         (⟨2, 0, 0, []⟩,
          ⟨⟨2018, 1, 2, 0, 0, 0, 0, 0⟩, [], [], [], ⟨s2l "J", s2l "j@d"⟩⟩)]
        (s2l "pkg")).1
        = trimSuffix (s2l "\n")
            ((emissionOrder
              [(⟨1, 0, 0, []⟩,
                ⟨⟨2019, 1, 2, 0, 0, 0, 0, 0⟩, [], [], [], ⟨s2l "J", s2l "j@d"⟩⟩),
               (⟨2, 0, 0, []⟩,
                ⟨⟨2018, 1, 2, 0, 0, 0, 0, 0⟩, [], [], [], ⟨s2l "J", s2l "j@d"⟩⟩)]).flatMap
              fun rk =>
                blockStr (s2l "pkg") rk
                  ((lookupRel
                    [(⟨1, 0, 0, []⟩,
                      ⟨⟨2019, 1, 2, 0, 0, 0, 0, 0⟩, [], [], [], ⟨s2l "J", s2l "j@d"⟩⟩),
                     (⟨2, 0, 0, []⟩,
                      ⟨⟨2018, 1, 2, 0, 0, 0, 0, 0⟩, [], [], [], ⟨s2l "J", s2l "j@d"⟩⟩)]
                    rk.v).getD zeroRelease))) :=
  ⟨by decide, (c5_emission_order _ (s2l "pkg") (by decide)).1⟩

/-! ### Output-tail lemmas for C9 -/

theorem trimSuffix_concat_newline (x : GoStr) :
    trimSuffix (s2l "\n") (x ++ ['\n']) = x := by
  have h1 : hasSuffix (s2l "\n") (x ++ ['\n']) = true := by
    unfold hasSuffix
    rw [show (s2l "\n").reverse = ['\n'] from rfl, List.reverse_append]
    simp [hasPrefix]
  unfold trimSuffix
  rw [if_pos h1]
  have h2 : (x ++ ['\n']).length - (s2l "\n").length = x.length := by
    rw [show (s2l "\n").length = 1 from rfl]
    simp
  rw [h2, List.take_left]

theorem digitChar_isDigit {n : Nat} (h : n ≤ 9) : isDigitC (digitChar n) = true := by
  interval_cases n <;> decide

theorem natDigits_concat (n : Nat) :
    ∃ init c, natDigits n = init ++ [c] ∧ isDigitC c = true := by
  unfold natDigits natDigitsAux
  by_cases h : n < 10
  · exact ⟨[], digitChar n, by rw [if_pos h]; rfl, digitChar_isDigit (by omega)⟩
  · refine ⟨natDigitsAux n (n / 10), digitChar (n % 10), ?_, digitChar_isDigit (by omega)⟩
    rw [if_neg h]

theorem pad2_concat (n : Nat) :
    ∃ init c, pad2 n = init ++ [c] ∧ isDigitC c = true := by
  obtain ⟨init, c, he, hc⟩ := natDigits_concat n
  unfold pad2
  by_cases h : n < 10
  · exact ⟨'0' :: init, c, by rw [if_pos h, he]; rfl, hc⟩
  · exact ⟨init, c, by rw [if_neg h, he], hc⟩

theorem fmtRFC1123Z_concat (t : DebTime) :
    ∃ init c, fmtRFC1123Z t = init ++ [c] ∧ isDigitC c = true := by
  obtain ⟨init, c, he, hc⟩ := pad2_concat (t.tzMin.natAbs % 60)
  refine ⟨shortDayNames.getD (weekdayIdx t) [] ++ s2l ", "
    ++ pad2 t.day ++ [' ']
    ++ shortMonthNames.getD (t.month - 1) [] ++ [' ']
    ++ pad4 t.year ++ [' ']
    ++ pad2 t.hour ++ [':'] ++ pad2 t.minute ++ [':'] ++ pad2 t.second ++ [' ']
    ++ (if t.tzMin < 0 then '-' else '+') :: (pad2 (t.tzMin.natAbs / 60) ++ init),
    c, ?_, hc⟩
  unfold fmtRFC1123Z
  rw [he]
  simp only [List.cons_append, List.append_assoc]

theorem trailerLine_concat (m : Maintainer) (d : DebTime) :
    ∃ init c, trailerLine m d = init ++ [c] ∧ isDigitC c = true := by
  obtain ⟨init, c, he, hc⟩ := fmtRFC1123Z_concat d
  exact ⟨s2l " -- " ++ m.Name ++ s2l " <" ++ m.Email ++ s2l ">  " ++ init, c, by
    unfold trailerLine
    rw [he]
    simp only [List.append_assoc], hc⟩

theorem hasSuffix_two_newlines_false {y : GoStr} {c : Char} (hc : c ≠ '\n') :
    hasSuffix (s2l "\n\n") (y ++ [c, '\n']) = false := by
  unfold hasSuffix
  have hrev : (y ++ [c, '\n']).reverse = '\n' :: c :: y.reverse := by
    rw [List.reverse_append]
    rfl
  rw [show (s2l "\n\n").reverse = ['\n', '\n'] from rfl, hrev]
  simp only [hasPrefix, Bool.and_eq_true, decide_eq_true_eq]
  simp only [Bool.and_eq_false_iff, decide_eq_false_iff_not]
  exact Or.inr (Or.inl fun hh => hc hh.symm)

theorem blockStr_decomp (pkg : GoStr) (rk : release) (rel : Release) :
    blockStr pkg rk rel
      = (headerLine pkg rk.v (substDist rel.Distribution) (substUrg rel.Urgency)
          ++ '\n' :: '\n'
          :: ((sortChangesGo rel.Changes).flatMap fun c => changeLine c ++ ['\n'])
          ++ ['\n'])
        ++ trailerLine rel.Maintainer rk.d ++ ['\n', '\n'] := by
  unfold blockStr
  simp only [List.cons_append, List.append_assoc, List.nil_append, List.append_nil]

/-- C9: for a non-empty model the produced bytes are some prefix, then the
last emitted release's trailer line, then a single newline — and the output
does not end in a blank line (no `"\n\n"` suffix): `TrimSuffix` removes
exactly one of the two newlines written after the last trailer. -/
theorem c9_output_tail (cl : Changelog) (pkg : GoStr) (hne : cl ≠ [])
    (hnd : (keys cl).Nodup) :
    ∃ pre rk, (emissionOrder cl).getLast? = some rk
      ∧ (Changelog.Debian cl pkg).1
          = pre ++ trailerLine ((lookupRel cl rk.v).getD zeroRelease).Maintainer rk.d
              ++ ['\n']
      ∧ hasSuffix (s2l "\n\n") (Changelog.Debian cl pkg).1 = false := by
  have hlen : (emissionOrder cl).length = cl.length := by
    simp [emissionOrder, sortReleasesGo, goReleases]
  have hne' : emissionOrder cl ≠ [] := by
    intro h
    rw [h] at hlen
    exact hne (List.length_eq_zero.mp hlen.symm)
  have hlast : (emissionOrder cl).getLast? =
      some ((emissionOrder cl).getLast hne') :=
    List.getLast?_eq_getLast _ hne'
  have hsplit : (emissionOrder cl).dropLast ++ [(emissionOrder cl).getLast hne']
      = emissionOrder cl := List.dropLast_append_getLast hne'
  have hout : (Changelog.Debian cl pkg).1
      = trimSuffix (s2l "\n")
          ((emissionOrder cl).flatMap fun rk =>
            blockStr pkg rk ((lookupRel cl rk.v).getD zeroRelease)) := by
    unfold Changelog.Debian
    dsimp only
    rw [debEmit_flatMap pkg (emissionOrder cl) cl [] (emissionOrder_v_nodup hnd)]
    rfl
  set rk := (emissionOrder cl).getLast hne' with hrk
  set rel := (lookupRel cl rk.v).getD zeroRelease with hrel
  obtain ⟨tinit, tc, hte, htc⟩ := trailerLine_concat rel.Maintainer rk.d
  have htcne : tc ≠ '\n' := by
    intro hh
    rw [hh] at htc
    exact absurd htc (by decide)
  have hfm : (emissionOrder cl).flatMap
        (fun rk' => blockStr pkg rk' ((lookupRel cl rk'.v).getD zeroRelease))
      = ((emissionOrder cl).dropLast.flatMap
          (fun rk' => blockStr pkg rk' ((lookupRel cl rk'.v).getD zeroRelease))
          ++ (headerLine pkg rk.v (substDist rel.Distribution) (substUrg rel.Urgency)
              ++ '\n' :: '\n'
              :: ((sortChangesGo rel.Changes).flatMap fun c => changeLine c ++ ['\n'])
              ++ ['\n'])
          ++ trailerLine rel.Maintainer rk.d ++ ['\n'])
        ++ ['\n'] := by
    conv =>
      lhs
      rw [← hsplit]
    rw [List.flatMap_append]
    simp only [List.flatMap_cons, List.flatMap_nil, List.append_nil]
    rw [blockStr_decomp]
    simp only [List.append_assoc, List.cons_append, List.nil_append]
  refine ⟨(emissionOrder cl).dropLast.flatMap
      (fun rk' => blockStr pkg rk' ((lookupRel cl rk'.v).getD zeroRelease))
      ++ (headerLine pkg rk.v (substDist rel.Distribution) (substUrg rel.Urgency)
          ++ '\n' :: '\n'
          :: ((sortChangesGo rel.Changes).flatMap fun c => changeLine c ++ ['\n'])
          ++ ['\n']), rk, hlast, ?_, ?_⟩
  · rw [hout, hfm, trimSuffix_concat_newline]
  · rw [hout, hfm, trimSuffix_concat_newline, hte]
    have : (emissionOrder cl).dropLast.flatMap
          (fun rk' => blockStr pkg rk' ((lookupRel cl rk'.v).getD zeroRelease))
          ++ (headerLine pkg rk.v (substDist rel.Distribution) (substUrg rel.Urgency)
              ++ '\n' :: '\n'
              :: ((sortChangesGo rel.Changes).flatMap fun c => changeLine c ++ ['\n'])
              ++ ['\n'])
          ++ (tinit ++ [tc]) ++ ['\n']
        = ((emissionOrder cl).dropLast.flatMap
            (fun rk' => blockStr pkg rk' ((lookupRel cl rk'.v).getD zeroRelease))
            ++ (headerLine pkg rk.v (substDist rel.Distribution) (substUrg rel.Urgency)
                ++ '\n' :: '\n'
                :: ((sortChangesGo rel.Changes).flatMap fun c => changeLine c ++ ['\n'])
                ++ ['\n'])
            ++ tinit) ++ [tc, '\n'] := by
      simp only [List.append_assoc, List.cons_append, List.nil_append]
    rw [this]
    exact hasSuffix_two_newlines_false htcne

/-- Witness for C9 at a concrete one-release model. -/
theorem c9_output_tail_witness :
    ([(⟨1, 0, 0, []⟩,
        ⟨⟨2019, 1, 2, 0, 0, 0, 0, 0⟩, [], [], [], ⟨s2l "J", s2l "j@d"⟩⟩)] : Changelog) ≠ []
    ∧ (keys [(⟨1, 0, 0, []⟩,
        ⟨⟨2019, 1, 2, 0, 0, 0, 0, 0⟩, [], [], [], ⟨s2l "J", s2l "j@d"⟩⟩)]).Nodup
    ∧ ∃ pre rk,
        (emissionOrder [(⟨1, 0, 0, []⟩,
          ⟨⟨2019, 1, 2, 0, 0, 0, 0, 0⟩, [], [], [], ⟨s2l "J", s2l "j@d"⟩⟩)]).getLast? = some rk
        ∧ (Changelog.Debian [(⟨1, 0, 0, []⟩,
            ⟨⟨2019, 1, 2, 0, 0, 0, 0, 0⟩, [], [], [], ⟨s2l "J", s2l "j@d"⟩⟩)] (s2l "pkg")).1
            = pre ++ trailerLine ((lookupRel [(⟨1, 0, 0, []⟩,
                ⟨⟨2019, 1, 2, 0, 0, 0, 0, 0⟩, [], [], [], ⟨s2l "J", s2l "j@d"⟩⟩)]
                rk.v).getD zeroRelease).Maintainer rk.d ++ ['\n']
        ∧ hasSuffix (s2l "\n\n") (Changelog.Debian [(⟨1, 0, 0, []⟩,
            ⟨⟨2019, 1, 2, 0, 0, 0, 0, 0⟩, [], [], [], ⟨s2l "J", s2l "j@d"⟩⟩)] (s2l "pkg")).1
            = false :=
  ⟨by decide, by decide, c9_output_tail _ (s2l "pkg") (by decide) (by decide)⟩

/-! ### `ParseMd` state lemmas for C10 and C1 -/

/-- A line that is not a level-2 heading never touches `err`, and no step
reads `err`. -/
theorem mdStep_err_indep (st : MdState) (e : Option GoErr) {line : GoStr}
    (h : hasPrefix (s2l "## ") line = false) :
    mdStep { st with err := e } line = { mdStep st line with err := e } := by
  obtain ⟨cl, er, cv, cg⟩ := st
  unfold mdStep
  rw [h]
  simp only [Bool.false_eq_true, if_false]
  by_cases h3 : hasPrefix (s2l "### ") line = true
  · rw [if_pos h3, if_pos h3]
  · rw [if_neg h3, if_neg h3]
    by_cases hb : (hasPrefix (s2l "- ") line
        && (MdState.mk cl er cv cg).curVer.isSome) = true
    · rw [if_pos (by simpa using hb), if_pos hb]
      cases cv with
      | some v => rfl
      | none => rfl
    · rw [if_neg (by simpa using hb), if_neg hb]

theorem parseMdLines_err_indep (e : Option GoErr) :
    ∀ (L : List GoStr) (st : MdState),
      (∀ l ∈ L, hasPrefix (s2l "## ") l = false) →
      parseMdLines L { st with err := e } = { parseMdLines L st with err := e } := by
  intro L
  induction L with
  | nil => intro st _; rfl
  | cons l t ih =>
    intro st hL
    unfold parseMdLines at *
    simp only [List.foldl_cons]
    rw [mdStep_err_indep st e (hL l (List.mem_cons_self _ _))]
    exact ih _ fun l' hl' => hL l' (List.mem_cons_of_mem _ hl')

/-- A heading line with no semver match sets `err` to the sentinel and
changes nothing else. -/
theorem mdStep_invalid_heading (st : MdState) {line : GoStr}
    (hpre : hasPrefix (s2l "## ") line = true)
    (hfind : findSemver line = none) :
    mdStep st line = { st with err := some .notSemver } := by
  unfold mdStep
  rw [hpre]
  simp only [if_true]
  rw [show FindString line = [] by unfold FindString; rw [hfind]]
  rfl

/-- C10 (amended): an invalid level-2 heading leaves the model, the open
release and the current group unchanged — the parse continues exactly as if
the heading were absent, so subsequent bullet lines attach to the release of
the last valid heading — and the "not a valid version" error is carried to
the end *provided no later level-2 heading line re-assigns `err`* (every
heading overwrites the stored error; a later valid one clears it). Bullet
lines before any valid heading are dropped. -/
theorem c10_amended (L0 L1 : List GoStr) (badH : GoStr)
    (hpre : hasPrefix (s2l "## ") badH = true)
    (hfind : findSemver badH = none)
    (hnoh : ∀ l ∈ L1, hasPrefix (s2l "## ") l = false) :
    parseMdLines (L0 ++ badH :: L1) initMdState
      = { parseMdLines (L0 ++ L1) initMdState with err := some .notSemver }
    ∧ (∀ (b : GoStr) (M : List GoStr),
        parseMdLines ((s2l "- " ++ b) :: M) initMdState = parseMdLines M initMdState) := by
  constructor
  · unfold parseMdLines
    rw [List.foldl_append, List.foldl_append, List.foldl_cons,
      mdStep_invalid_heading _ hpre hfind]
    exact parseMdLines_err_indep (some .notSemver) L1 _ hnoh
  · intro b M
    unfold parseMdLines
    rw [List.foldl_cons]
    rfl

/-- Witness for C10 (amended): `## nover` between two streams. -/
theorem c10_amended_witness :
    (hasPrefix (s2l "## ") (s2l "## nover") = true
      ∧ findSemver (s2l "## nover") = none
      ∧ ∀ l ∈ [s2l "- x"], hasPrefix (s2l "## ") l = false)
    ∧ (parseMdLines ([s2l "## 1.0.0"] ++ s2l "## nover" :: [s2l "- x"]) initMdState
        = { parseMdLines ([s2l "## 1.0.0"] ++ [s2l "- x"]) initMdState
            with err := some .notSemver }
      ∧ (∀ (b : GoStr) (M : List GoStr),
          parseMdLines ((s2l "- " ++ b) :: M) initMdState = parseMdLines M initMdState)) :=
  ⟨⟨by decide, by decide, by decide⟩,
    c10_amended [s2l "## 1.0.0"] [s2l "- x"] (s2l "## nover")
      (by decide) (by decide) (by decide)⟩

/-! ### Line-splitting lemmas -/

theorem hasPrefix_append_self (p x : GoStr) : hasPrefix p (p ++ x) = true := by
  induction p with
  | nil => rfl
  | cons c t ih => simp [hasPrefix, ih]

theorem trimPrefix_append_self (p x : GoStr) : trimPrefix p (p ++ x) = x := by
  unfold trimPrefix
  rw [hasPrefix_append_self, if_pos rfl, List.drop_left]

theorem hasPrefix_exists_drop :
    ∀ {p s : GoStr}, hasPrefix p s = true → s = p ++ s.drop p.length := by
  intro p
  induction p with
  | nil => intro s _; simp
  | cons d u ih =>
    intro s hp
    cases s with
    | nil => simp [hasPrefix] at hp
    | cons c t =>
      simp only [hasPrefix, Bool.and_eq_true, decide_eq_true_eq] at hp
      obtain ⟨rfl, hrest⟩ := hp
      simp only [List.cons_append, List.length_cons, List.drop_succ_cons]
      rw [← ih hrest]

theorem splitFirst_eq {sep s a b : GoStr} (h : splitFirst sep s = some (a, b)) :
    s = a ++ sep ++ b := by
  induction s generalizing a with
  | nil => simp [splitFirst] at h
  | cons c t ih =>
    unfold splitFirst at h
    by_cases hp : hasPrefix sep (c :: t) = true
    · rw [if_pos hp] at h
      obtain ⟨rfl, rfl⟩ : a = [] ∧ (c :: t).drop sep.length = b := by
        constructor
        · exact congrArg Prod.fst (Option.some.inj h) |>.symm
        · exact congrArg Prod.snd (Option.some.inj h)
      simpa using hasPrefix_exists_drop hp
    · rw [if_neg hp] at h
      match he : splitFirst sep t with
      | none => rw [he] at h; simp at h
      | some (a', b') =>
        rw [he] at h
        have h2 : (c :: a', b') = (a, b) := Option.some.inj h
        obtain ⟨rfl, rfl⟩ : a = c :: a' ∧ b' = b :=
          ⟨(congrArg Prod.fst h2).symm, congrArg Prod.snd h2⟩
        rw [ih he]
        rfl

theorem splitFirst_newline_append {l : GoStr} (rest : GoStr) (h : '\n' ∉ l) :
    splitFirst ['\n'] (l ++ '\n' :: rest) = some (l, rest) := by
  induction l with
  | nil =>
    show splitFirst ['\n'] ('\n' :: rest) = some ([], rest)
    simp only [splitFirst]
    rw [if_pos (by simp [hasPrefix])]
    rfl
  | cons c t ih =>
    have hc : c ≠ '\n' := fun hh => h (hh ▸ List.mem_cons_self _ _)
    show splitFirst ['\n'] (c :: (t ++ '\n' :: rest)) = some (c :: t, rest)
    simp only [splitFirst]
    rw [if_neg (by
      simp only [hasPrefix, Bool.and_eq_true, decide_eq_true_eq]
      rintro ⟨hh, _⟩
      exact hc hh.symm)]
    rw [ih (fun hm => h (List.mem_cons_of_mem _ hm))]
    rfl

theorem dropCR_eq {l : GoStr} (h : '\r' ∉ l) : dropCR l = l := by
  have hsuf : hasSuffix ['\r'] l = false := by
    unfold hasSuffix
    match hr : l.reverse with
    | [] => rfl
    | c :: t =>
      have hcl : c ∈ l := by
        rw [← List.mem_reverse, hr]
        exact List.mem_cons_self _ _
      have hc : c ≠ '\r' := fun hh => h (hh ▸ hcl)
      show hasPrefix ['\r'] (c :: t) = false
      simp only [hasPrefix]
      rw [decide_eq_false (fun hh : '\r' = c => hc hh.symm)]
      rfl
  unfold dropCR trimSuffix
  rw [if_neg (by rw [hsuf]; exact Bool.false_ne_true)]

theorem splitLinesAux_fuel :
    ∀ (fuel : Nat) (s : GoStr), s.length < fuel →
      splitLinesAux fuel s = splitLinesAux (s.length + 1) s := by
  intro fuel
  induction fuel using Nat.strong_induction_on with
  | _ fuel ih =>
    intro s hs
    cases fuel with
    | zero => omega
    | succ fuel =>
      rw [splitLinesAux]
      conv =>
        rhs
        rw [splitLinesAux]
      match hsp : splitFirst ['\n'] s with
      | some (a, b) =>
        have hsab := splitFirst_eq hsp
        have hblen : b.length < s.length := by
          rw [hsab]
          simp only [List.length_append, List.length_cons, List.length_nil]
          omega
        dsimp only
        congr 1
        rw [ih fuel (by omega) b (by omega)]
        exact (ih s.length (by omega) b hblen).symm
      | none => dsimp only


theorem splitLines_cons {l : GoStr} (rest : GoStr)
    (h1 : '\n' ∉ l) (h2 : '\r' ∉ l) :
    splitLines (l ++ '\n' :: rest) = l :: splitLines rest := by
  unfold splitLines
  rw [splitLinesAux_fuel _ _ (by omega)]
  rw [show (l ++ '\n' :: rest).length + 1 = (l.length + rest.length + 1) + 1 by
    simp; omega]
  rw [splitLinesAux, splitFirst_newline_append rest h1]
  dsimp only
  rw [dropCR_eq h2, splitLinesAux_fuel _ _ (by omega)]

/-- A valid duplicate heading: the error is set to "multiple releases" and
the map entry is overwritten with a fresh release carrying only the new
heading's date. -/
theorem mdStep_heading_dup (st : MdState) {line vs : GoStr} {v : Version}
    (hpre : hasPrefix (s2l "## ") line = true)
    (hvs : FindString line = vs)
    (hv : ToVersion vs = (v, none))
    (hdup : hasKey st.cl v = true) :
    mdStep st line
      = { cl := setRel st.cl v ⟨parseMdDate line, [], [], [], ⟨[], []⟩⟩,
          err := some (.multipleReleases vs),
          curVer := some v, curGrp := st.curGrp } := by
  unfold mdStep
  rw [hpre]
  simp only [if_true]
  rw [hvs, hv]
  dsimp only
  rw [hdup]
  simp only [if_true]

set_option maxRecDepth 4000 in
/-- C1 (amended): a duplicate version yields the "multiple releases" error
naming the version string, but the model maps the version to the *later*
entry, not the first-seen one. In Markdown (stated for a duplicate heading
as the last line, so no later line re-assigns `err`): the entry becomes a
fresh release with only the later heading's date, the earlier changes are
discarded, and subsequent bullets would attach to it. In Debian (concrete
two-block stream): the later block's release replaces the first block's. -/
theorem c1_amended :
    (∀ (L0 : List GoStr) (line : GoStr) (v : Version) (vs : GoStr),
      hasPrefix (s2l "## ") line = true →
      FindString line = vs →
      ToVersion vs = (v, none) →
      hasKey (parseMdLines L0 initMdState).cl v = true →
      parseMdLines (L0 ++ [line]) initMdState
        = { cl := setRel (parseMdLines L0 initMdState).cl v
              ⟨parseMdDate line, [], [], [], ⟨[], []⟩⟩,
            err := some (.multipleReleases vs),
            curVer := some v,
            curGrp := (parseMdLines L0 initMdState).curGrp })
    ∧ ParseDebian (s2l "p (1.0.0) stable; urgency=low\n\n  * A: a\n\n -- J <j@d>  Thu, 02 Jan 2020 15:04:05 +0000\n\np (1.0.0) unstable; urgency=high\n\n  * B: b\n\n -- K <k@d>  Fri, 03 Jan 2020 15:04:05 +0000\n")
        = ([(⟨1, 0, 0, []⟩,
             ⟨⟨2020, 1, 3, 15, 4, 5, 0, 0⟩, [⟨s2l "B", s2l "b"⟩],
              s2l "high", s2l "unstable", ⟨s2l "K", s2l "k@d"⟩⟩)],
           some (.multipleReleases (s2l "1.0.0"))) := by
  constructor
  · intro L0 line v vs hpre hvs hv hdup
    unfold parseMdLines
    rw [List.foldl_append, List.foldl_cons, List.foldl_nil]
    exact mdStep_heading_dup _ hpre hvs hv hdup
  · decide

/-- Witness for C1 (amended), instantiating the Markdown half at a concrete
stream whose second heading repeats version 1.0.0. -/
theorem c1_amended_witness :
    (hasPrefix (s2l "## ") (s2l "## 1.0.0") = true
      ∧ FindString (s2l "## 1.0.0") = s2l "1.0.0"
      ∧ ToVersion (s2l "1.0.0") = (⟨1, 0, 0, []⟩, none)
      ∧ hasKey (parseMdLines [s2l "## 1.0.0 - 2019-01-01", s2l "- a"]
          initMdState).cl ⟨1, 0, 0, []⟩ = true)
    ∧ parseMdLines ([s2l "## 1.0.0 - 2019-01-01", s2l "- a"] ++ [s2l "## 1.0.0"])
        initMdState
      = { cl := setRel (parseMdLines [s2l "## 1.0.0 - 2019-01-01", s2l "- a"]
              initMdState).cl ⟨1, 0, 0, []⟩
            ⟨parseMdDate (s2l "## 1.0.0"), [], [], [], ⟨[], []⟩⟩,
          err := some (.multipleReleases (s2l "1.0.0")),
          curVer := some ⟨1, 0, 0, []⟩,
          curGrp := (parseMdLines [s2l "## 1.0.0 - 2019-01-01", s2l "- a"]
              initMdState).curGrp } :=
  ⟨⟨by decide, by decide, by decide, by decide⟩,
    c1_amended.1 [s2l "## 1.0.0 - 2019-01-01", s2l "- a"] (s2l "## 1.0.0")
      ⟨1, 0, 0, []⟩ (s2l "1.0.0") (by decide) (by decide) (by decide) (by decide)⟩

/-! ### C3: block atomicity on malformed trailers -/

theorem ne_of_class {p : Char → Bool} {c d : Char} (hc : p c = true)
    (hd : p d = false) : c ≠ d := by
  intro h
  rw [h, hd] at hc
  cases hc

theorem hasPrefix_iff_take {p s : GoStr} :
    hasPrefix p s = true ↔ s.take p.length = p := by
  induction p generalizing s with
  | nil => simp [hasPrefix]
  | cons a p' ih =>
    cases s with
    | nil => simp [hasPrefix]
    | cons b s' =>
      simp only [hasPrefix, Bool.and_eq_true, decide_eq_true_eq, List.length_cons,
        List.take_succ_cons, List.cons.injEq, ih]
      constructor
      · rintro ⟨h1, h2⟩; exact ⟨h1.symm, h2⟩
      · rintro ⟨h1, h2⟩; exact ⟨h1.symm, h2⟩

theorem hasPrefix_congr {p s1 s2 : GoStr}
    (h : s1.take p.length = s2.take p.length) :
    hasPrefix p s1 = hasPrefix p s2 := by
  by_cases h1 : s1.take p.length = p
  · rw [hasPrefix_iff_take.mpr h1, hasPrefix_iff_take.mpr (h.symm.trans h1)]
  · have e1 : hasPrefix p s1 = false :=
      Bool.eq_false_iff.mpr fun hh => h1 (hasPrefix_iff_take.mp hh)
    have e2 : hasPrefix p s2 = false :=
      Bool.eq_false_iff.mpr fun hh => h1 (h.trans (hasPrefix_iff_take.mp hh))
    rw [e1, e2]

theorem containsSub_cons (sep : GoStr) (c : Char) (X : GoStr) :
    containsSub sep (c :: X) = (hasPrefix sep (c :: X) || containsSub sep X) := by
  unfold containsSub
  simp only [splitFirst]
  split
  · rename_i hp
    simp [hp]
  · rename_i hp
    have hp' : hasPrefix sep (c :: X) = false := Bool.eq_false_iff.mpr hp
    cases h : splitFirst sep X <;> simp [h, hp']

theorem splitFirst_none_iff {sep s : GoStr} :
    splitFirst sep s = none ↔ containsSub sep s = false := by
  unfold containsSub
  cases h : splitFirst sep s <;> simp [h]

/-- If `sep` does not occur within `T ++ sep.dropLast` then the first
occurrence of `sep` in `T ++ sep ++ B` is the middle one. -/
theorem splitFirst_first_occ {sep : GoStr} (hsep : sep ≠ []) :
    ∀ T B : GoStr, containsSub sep (T ++ sep.dropLast) = false →
      splitFirst sep (T ++ sep ++ B) = some (T, B) := by
  intro T
  induction T with
  | nil =>
    intro B _
    cases hs : sep with
    | nil => exact absurd hs hsep
    | cons a as =>
      simp only [List.nil_append, List.cons_append]
      simp only [splitFirst]
      rw [show a :: (as ++ B) = (a :: as) ++ B from rfl,
        if_pos (hasPrefix_append_self (a :: as) B), List.drop_left]
  | cons c T' ih =>
    intro B hocc
    have hsep2 : sep.dropLast ++ [sep.getLast hsep] = sep :=
      List.dropLast_append_getLast hsep
    have hlen : sep.length = sep.dropLast.length + 1 := by
      conv_lhs => rw [← hsep2]
      simp
    have hep : T' ++ sep ++ B
        = (T' ++ sep.dropLast) ++ ([sep.getLast hsep] ++ B) := by
      conv_lhs => rw [← hsep2]
      simp [List.append_assoc]
    have htk : (c :: (T' ++ sep ++ B)).take sep.length
        = (c :: (T' ++ sep.dropLast)).take sep.length := by
      rw [hlen, List.take_succ_cons, List.take_succ_cons]
      congr 1
      rw [hep, List.take_append_of_le_length (by simp)]
    have hocc' : containsSub sep (c :: (T' ++ sep.dropLast)) = false := by
      simpa using hocc
    have hb2 : hasPrefix sep (c :: (T' ++ sep.dropLast)) = false := by
      cases hb : hasPrefix sep (c :: (T' ++ sep.dropLast)) with
      | false => rfl
      | true =>
        exfalso
        have hcc : containsSub sep (c :: (T' ++ sep.dropLast)) = true := by
          rw [containsSub_cons, hb]
          rfl
        rw [hcc] at hocc'
        cases hocc'
    have hpre : hasPrefix sep (c :: (T' ++ sep ++ B)) = false := by
      rw [hasPrefix_congr htk]
      exact hb2
    have htail : containsSub sep (T' ++ sep.dropLast) = false := by
      have h3 := containsSub_cons sep c (T' ++ sep.dropLast)
      rw [hocc', hb2] at h3
      cases hb : containsSub sep (T' ++ sep.dropLast) with
      | false => rfl
      | true => rw [hb] at h3; simp at h3
    show splitFirst sep (c :: (T' ++ sep ++ B)) = some (c :: T', B)
    simp only [splitFirst]
    rw [hpre]
    simp only [Bool.false_eq_true, if_false]
    rw [ih B htail]
    rfl

theorem goSplitAux_none {sep s : GoStr} (h : splitFirst sep s = none) :
    ∀ fuel, goSplitAux sep fuel s = [s] := by
  intro fuel
  cases fuel with
  | zero => rfl
  | succ f =>
    simp only [goSplitAux, h]

/-- `strings.Split` into exactly two pieces. -/
theorem goSplit_pair {sep : GoStr} (hsep : sep ≠ []) (T B : GoStr)
    (h1 : containsSub sep (T ++ sep.dropLast) = false)
    (h2 : splitFirst sep B = none) :
    goSplit sep (T ++ sep ++ B) = [T, B] := by
  unfold goSplit
  show goSplitAux sep (_ + 1) _ = _
  simp only [goSplitAux, splitFirst_first_occ hsep T B h1]
  rw [goSplitAux_none h2]

theorem goSplit_single {sep s : GoStr} (h : splitFirst sep s = none) :
    goSplit sep s = [s] := by
  unfold goSplit
  exact goSplitAux_none h _

/-! #### The two-character pattern scanner `noPair` -/

/-- No adjacent pair `a`, `b` occurs in the string. -/
def noPair (a b : Char) : GoStr → Bool
  | c :: d :: t => !(c = a && d = b) && noPair a b (d :: t)
  | _ => true

theorem containsSub_pair_eq (a b : Char) :
    ∀ s : GoStr, containsSub [a, b] s = !(noPair a b s) := by
  intro s
  induction s with
  | nil => rfl
  | cons c t ih =>
    rw [containsSub_cons, ih]
    cases t with
    | nil => simp [hasPrefix, noPair]
    | cons d t' =>
      show (hasPrefix [a, b] (c :: d :: t') || !(noPair a b (d :: t')))
          = !(noPair a b (c :: d :: t'))
      simp only [hasPrefix, noPair, Bool.and_true]
      by_cases hca : c = a
      · subst hca
        by_cases hdb : d = b
        · subst hdb; simp
        · have hbd : ¬(b = d) := fun h => hdb h.symm
          simp [hdb, hbd]
      · have hac : ¬(a = c) := fun h => hca h.symm
        simp [hca, hac]

theorem noPair_iff {a b : Char} {s : GoStr} :
    noPair a b s = true ↔ containsSub [a, b] s = false := by
  rw [containsSub_pair_eq]
  cases noPair a b s <;> simp

theorem noPair_of_fst_not_mem {a b : Char} {s : GoStr} (h : a ∉ s) :
    noPair a b s = true := by
  induction s with
  | nil => rfl
  | cons c t ih =>
    cases t with
    | nil => rfl
    | cons d t' =>
      have hca : c ≠ a := fun he => h (he ▸ List.mem_cons_self _ _)
      simp only [noPair, Bool.and_eq_true, Bool.not_eq_true', Bool.and_eq_false_iff,
        decide_eq_false_iff_not]
      exact ⟨Or.inl hca, ih fun hm => h (List.mem_cons_of_mem _ hm)⟩

theorem noPair_of_snd_not_mem {a b : Char} {s : GoStr} (h : b ∉ s) :
    noPair a b s = true := by
  induction s with
  | nil => rfl
  | cons c t ih =>
    cases t with
    | nil => rfl
    | cons d t' =>
      have hdb : d ≠ b := fun he => h (he ▸ List.mem_cons_of_mem _ (List.mem_cons_self _ _))
      simp only [noPair, Bool.and_eq_true, Bool.not_eq_true', Bool.and_eq_false_iff,
        decide_eq_false_iff_not]
      exact ⟨Or.inr hdb, ih fun hm => h (List.mem_cons_of_mem _ hm)⟩

theorem noPair_append {a b : Char} :
    ∀ {x y : GoStr}, noPair a b x = true → noPair a b y = true →
      ¬(x.getLast? = some a ∧ y.head? = some b) → noPair a b (x ++ y) = true := by
  intro x
  induction x with
  | nil => intro y _ hy _; exact hy
  | cons c rest ih =>
    intro y hx hy hxy
    cases rest with
    | nil =>
      cases y with
      | nil => rfl
      | cons d y' =>
        simp only [List.cons_append, List.nil_append, noPair, Bool.and_eq_true,
          Bool.not_eq_true', Bool.and_eq_false_iff, decide_eq_false_iff_not]
        constructor
        · by_cases hca : c = a
          · right
            intro hdb
            exact hxy ⟨by simp [hca], by simp [hdb]⟩
          · exact Or.inl hca
        · exact hy
    | cons d t =>
      show noPair a b (c :: d :: (t ++ y)) = true
      simp only [noPair, Bool.and_eq_true, Bool.not_eq_true', Bool.and_eq_false_iff,
        decide_eq_false_iff_not] at hx ⊢
      refine ⟨hx.1, ?_⟩
      show noPair a b ((d :: t) ++ y) = true
      refine ih hx.2 hy ?_
      intro ⟨h1, h2⟩
      exact hxy ⟨by simpa using h1, h2⟩

theorem noPair_single (a b c : Char) : noPair a b [c] = true := rfl

/-! #### Single-character suffix/split helpers -/

theorem hasSuffix_concat (c d : Char) (x : GoStr) :
    hasSuffix [c] (x ++ [d]) = decide (c = d) := by
  unfold hasSuffix
  rw [List.reverse_append]
  simp [hasPrefix]

theorem hasSuffix_append_right {y : GoStr} (c : Char) (x : GoStr) (hy : y ≠ []) :
    hasSuffix [c] (x ++ y) = hasSuffix [c] y := by
  unfold hasSuffix
  rw [List.reverse_append]
  cases hr : y.reverse with
  | nil => exact absurd (by simpa using hr) hy
  | cons e es => simp [hasPrefix]

theorem trimSuffix_concat_single (c : Char) (x : GoStr) :
    trimSuffix [c] (x ++ [c]) = x := by
  unfold trimSuffix
  rw [hasSuffix_concat, if_pos (by simp)]
  simp

theorem splitFirst_single_none {c : Char} {s : GoStr} (h : c ∉ s) :
    splitFirst [c] s = none := by
  induction s with
  | nil => rfl
  | cons d t ih =>
    have hdc : ¬(c = d) := fun he => h (he ▸ List.mem_cons_self _ _)
    simp only [splitFirst, hasPrefix, Bool.and_eq_true, decide_eq_true_eq]
    rw [if_neg (by simp [hdc]), ih fun hm => h (List.mem_cons_of_mem _ hm)]
    rfl

theorem splitFirst_single_append {c : Char} {x : GoStr} (y : GoStr) (h : c ∉ x) :
    splitFirst [c] (x ++ c :: y) = some (x, y) := by
  induction x with
  | nil =>
    simp only [List.nil_append, splitFirst, hasPrefix]
    rw [if_pos (by simp)]
    rfl
  | cons d t ih =>
    have hdc : ¬(c = d) := fun he => h (he ▸ List.mem_cons_self _ _)
    simp only [List.cons_append, splitFirst, hasPrefix]
    rw [if_neg (by simp [hdc])]
    simp only [List.append_eq]
    rw [ih fun hm => h (List.mem_cons_of_mem _ hm)]
    rfl

theorem splitOnChar_ne_nil (c : Char) : ∀ y : GoStr, splitOnChar c y ≠ [] := by
  intro y
  cases y with
  | nil => simp [splitOnChar]
  | cons e es =>
    rw [splitOnChar]
    split
    · simp
    · split <;> simp

theorem splitOnChar_no {c : Char} {x : GoStr} (h : c ∉ x) :
    splitOnChar c x = [x] := by
  induction x with
  | nil => rfl
  | cons d t ih =>
    have hdc : d ≠ c := fun he => h (he ▸ List.mem_cons_self _ _)
    rw [splitOnChar, ih fun hm => h (List.mem_cons_of_mem _ hm)]
    simp [hdc]

theorem splitOnChar_append {c : Char} {x : GoStr} (y : GoStr) (h : c ∉ x) :
    splitOnChar c (x ++ c :: y) = x :: splitOnChar c y := by
  induction x with
  | nil =>
    simp only [List.nil_append, splitOnChar]
    cases hs : splitOnChar c y with
    | nil => exact absurd hs (splitOnChar_ne_nil c y)
    | cons t ts => simp [← hs]
  | cons d t ih =>
    have hdc : d ≠ c := fun he => h (he ▸ List.mem_cons_self _ _)
    simp only [List.cons_append, splitOnChar, List.append_eq]
    rw [ih fun hm => h (List.mem_cons_of_mem _ hm)]
    simp [hdc]

theorem setRel_append_of_not_mem {cl : Changelog} {v : Version} (r : Release)
    (h : v ∉ keys cl) : setRel cl v r = cl ++ [(v, r)] := by
  induction cl with
  | nil => rfl
  | cons p t ih =>
    obtain ⟨k, x⟩ := p
    have hk : k ≠ v := fun he => h (by simp [keys, he])
    rw [setRel, if_neg hk, ih fun hm => h (by simp [keys] at hm ⊢; exact Or.inr hm)]
    rfl

/-! #### Decimal numeral round-trip lemmas -/

theorem digitVal_digitChar {n : Nat} (h : n ≤ 9) : digitVal (digitChar n) = n := by
  interval_cases n <;> decide

theorem isNonzeroC_digitChar {n : Nat} (h1 : 1 ≤ n) (h2 : n ≤ 9) :
    isNonzeroC (digitChar n) = true := by
  interval_cases n <;> decide

theorem digitsVal_concat (l : GoStr) (c : Char) :
    digitsVal (l ++ [c]) = 10 * digitsVal l + digitVal c := by
  unfold digitsVal
  rw [List.foldl_append]
  rfl

theorem natDigitsAux_spec :
    ∀ fuel n, n < fuel →
      (natDigitsAux fuel n).all isDigitC = true
      ∧ digitsVal (natDigitsAux fuel n) = n
      ∧ natDigitsAux fuel n ≠ [] := by
  intro fuel
  induction fuel with
  | zero => intro n h; omega
  | succ f ih =>
    intro n h
    by_cases h10 : n < 10
    · rw [natDigitsAux, if_pos h10]
      refine ⟨by simp [digitChar_isDigit (by omega : n ≤ 9)], ?_, by simp⟩
      show digitsVal ([] ++ [digitChar n]) = n
      rw [digitsVal_concat]
      simp [digitsVal, digitVal_digitChar (by omega : n ≤ 9)]
    · rw [natDigitsAux, if_neg h10]
      have hdiv : n / 10 < f := by omega
      obtain ⟨ha, hv, hn⟩ := ih (n / 10) hdiv
      refine ⟨?_, ?_, by simp⟩
      · simp only [List.all_append, ha, Bool.true_and, List.all_cons, List.all_nil,
          Bool.and_true]
        exact digitChar_isDigit (by omega)
      · rw [digitsVal_concat, hv, digitVal_digitChar (by omega : n % 10 ≤ 9)]
        omega

theorem natDigits_all (n : Nat) : (natDigits n).all isDigitC = true :=
  (natDigitsAux_spec (n + 1) n (by omega)).1

theorem digitsVal_natDigits (n : Nat) : digitsVal (natDigits n) = n :=
  (natDigitsAux_spec (n + 1) n (by omega)).2.1

theorem natDigits_ne_nil (n : Nat) : natDigits n ≠ [] :=
  (natDigitsAux_spec (n + 1) n (by omega)).2.2

theorem natDigitsAux_small {fuel m : Nat} (hf : m < fuel) (hm : m < 10) :
    natDigitsAux fuel m = [digitChar m] := by
  cases fuel with
  | zero => omega
  | succ f => rw [natDigitsAux, if_pos hm]

theorem natDigits_small {n : Nat} (h : n < 10) : natDigits n = [digitChar n] :=
  natDigitsAux_small (by omega) h

theorem natDigitsAux_head :
    ∀ fuel n, n < fuel → 1 ≤ n →
      ∃ c t, natDigitsAux fuel n = c :: t ∧ isNonzeroC c = true
        ∧ t.all isDigitC = true := by
  intro fuel
  induction fuel with
  | zero => intro n h; omega
  | succ f ih =>
    intro n h h1
    by_cases h10 : n < 10
    · rw [natDigitsAux, if_pos h10]
      exact ⟨digitChar n, [], rfl, isNonzeroC_digitChar h1 (by omega), rfl⟩
    · rw [natDigitsAux, if_neg h10]
      obtain ⟨c, t, he, hc, ht⟩ := ih (n / 10) (by omega) (by omega)
      refine ⟨c, t ++ [digitChar (n % 10)], by rw [he]; rfl, hc, ?_⟩
      simp only [List.all_append, ht, Bool.true_and, List.all_cons, List.all_nil,
        Bool.and_true]
      exact digitChar_isDigit (by omega)

theorem natDigits_head {n : Nat} (h : 1 ≤ n) :
    ∃ c t, natDigits n = c :: t ∧ isNonzeroC c = true ∧ t.all isDigitC = true :=
  natDigitsAux_head (n + 1) n (by omega) h

theorem validNumToken_natDigits (n : Nat) : validNumToken (natDigits n) = true := by
  by_cases h10 : n < 10
  · rw [natDigits_small h10]
    simp [validNumToken, digitChar_isDigit (show n ≤ 9 by omega)]
  · obtain ⟨c, t, he, hc, _⟩ := natDigits_head (show 1 ≤ n by omega)
    have hne : c ≠ '0' := ne_of_class hc (by decide)
    have hall := natDigits_all n
    rw [he] at hall
    unfold validNumToken
    rw [he]
    simp [hall, hne]

theorem natDigitsAux_len :
    ∀ fuel n k, n < fuel → n < 10 ^ k → 1 ≤ k →
      (natDigitsAux fuel n).length ≤ k := by
  intro fuel
  induction fuel with
  | zero => intro n k h; omega
  | succ f ih =>
    intro n k h hk h1
    by_cases h10 : n < 10
    · rw [natDigitsAux, if_pos h10]
      simpa using h1
    · rw [natDigitsAux, if_neg h10]
      have hk2 : 2 ≤ k := by
        by_contra hlt
        have : k = 1 := by omega
        rw [this] at hk
        simp at hk
        omega
      have hdk : n / 10 < 10 ^ (k - 1) := by
        apply Nat.div_lt_of_lt_mul
        calc n < 10 ^ k := hk
        _ = 10 * 10 ^ (k - 1) := by
              rw [← pow_succ']
              congr 1
              omega
      have := ih (n / 10) (k - 1) (by omega) hdk (by omega)
      simp only [List.length_append, List.length_cons, List.length_nil]
      omega

theorem natDigits_length_le {n k : Nat} (h : n < 10 ^ k) (hk : 1 ≤ k) :
    (natDigits n).length ≤ k :=
  natDigitsAux_len (n + 1) n k (by omega) h hk

theorem pad2_eq {n : Nat} (h : n ≤ 99) :
    pad2 n = [digitChar (n / 10), digitChar (n % 10)] := by
  unfold pad2
  by_cases h10 : n < 10
  · rw [if_pos h10, natDigits_small h10]
    have h1 : digitChar (n / 10) = '0' := by
      rw [show n / 10 = 0 by omega]
      rfl
    have h2 : n % 10 = n := by omega
    rw [h1, h2]
  · rw [if_neg h10]
    unfold natDigits
    rw [natDigitsAux, if_neg h10]
    rw [natDigitsAux_small (show n / 10 < n by omega) (by omega)]
    rfl

theorem get2Digits_pad2 {n : Nat} (h : n ≤ 99) (r : GoStr) :
    get2Digits (pad2 n ++ r) = some (n, r) := by
  rw [pad2_eq h]
  show get2Digits (digitChar (n / 10) :: digitChar (n % 10) :: r) = _
  simp only [get2Digits]
  rw [digitChar_isDigit (by omega : n / 10 ≤ 9), digitChar_isDigit (by omega : n % 10 ≤ 9)]
  simp only [Bool.and_self, if_true, Bool.true_and, if_pos]
  rw [digitVal_digitChar (by omega : n / 10 ≤ 9), digitVal_digitChar (by omega : n % 10 ≤ 9)]
  rw [Nat.div_add_mod]

theorem digitsVal_replicate_zero :
    ∀ k (l : GoStr), digitsVal (List.replicate k '0' ++ l) = digitsVal l := by
  intro k
  induction k with
  | zero => intro l; rfl
  | succ m ih =>
    intro l
    show digitsVal ('0' :: (List.replicate m '0' ++ l)) = digitsVal l
    unfold digitsVal
    show List.foldl _ (10 * 0 + digitVal '0') _ = _
    rw [show 10 * 0 + digitVal '0' = 0 by decide]
    exact ih l

theorem pad4_length {y : Nat} (h : y ≤ 9999) : (pad4 y).length = 4 := by
  have hl := natDigits_length_le (show y < 10 ^ 4 by omega) (by omega)
  unfold pad4
  simp only [List.length_append, List.length_replicate]
  omega

theorem pad4_all (y : Nat) : (pad4 y).all isDigitC = true := by
  unfold pad4
  simp only [List.all_append, natDigits_all, Bool.and_true]
  rw [List.all_eq_true]
  intro c hc
  rw [List.eq_of_mem_replicate hc]
  decide

theorem digitsVal_pad4 (y : Nat) : digitsVal (pad4 y) = y := by
  unfold pad4
  rw [digitsVal_replicate_zero, digitsVal_natDigits]

theorem get4Digits_append {l : GoStr} (hlen : l.length = 4)
    (hall : l.all isDigitC = true) (r : GoStr) :
    get4Digits (l ++ r) = some (digitsVal l, r) := by
  rcases l with _ | ⟨a, _ | ⟨b, _ | ⟨c, _ | ⟨d, _ | ⟨e, t⟩⟩⟩⟩⟩ <;> simp at hlen
  simp only [List.all_cons, List.all_nil, Bool.and_eq_true, Bool.and_true] at hall
  show get4Digits (a :: b :: c :: d :: r) = _
  simp only [get4Digits]
  rw [hall.1, hall.2.1, hall.2.2.1, hall.2.2.2]
  simp only [Bool.and_self, if_true, Bool.true_and, if_pos]
  congr 1
  show _ = (digitsVal [a, b, c, d], r)
  unfold digitsVal
  simp only [List.foldl_cons, List.foldl_nil]
  congr 1
  ring

theorem get4Digits_pad4 {y : Nat} (h : y ≤ 9999) (r : GoStr) :
    get4Digits (pad4 y ++ r) = some (y, r) := by
  rw [get4Digits_append (pad4_length h) (pad4_all y), digitsVal_pad4]

theorem Atoi_digits {l : GoStr} (hne : l ≠ []) (hall : l.all isDigitC = true) :
    Atoi l = some ((digitsVal l : Int)) := by
  cases l with
  | nil => exact absurd rfl hne
  | cons c t =>
    have hc : isDigitC c = true := by
      simp only [List.all_cons, Bool.and_eq_true] at hall
      exact hall.1
    have hcp : c ≠ '+' := ne_of_class hc (by decide)
    have hcm : c ≠ '-' := ne_of_class hc (by decide)
    unfold Atoi
    split
    · rename_i heq
      cases heq
    · rename_i t' heq
      injection heq with h1 _
      exact absurd h1 hcp
    · rename_i t' heq
      injection heq with h1 _
      exact absurd h1 hcm
    · rw [if_pos hall]

/-! #### RFC1123Z date format/parse round trip -/

theorem not_mem_of_class {p : Char → Bool} {l : GoStr} (hl : l.all p = true)
    {c : Char} (hc : p c = false) : c ∉ l := by
  intro hm
  have hal : ∀ x ∈ l, p x = true := by simpa [List.all_eq_true] using hl
  have := hal c hm
  rw [hc] at this
  cases this

theorem daysInMonth_le (y m : Nat) : daysInMonth y m ≤ 31 := by
  unfold daysInMonth
  split
  · split <;> omega
  · rcases m - 1 with _|_|_|_|_|_|_|_|_|_|_|_|k <;> simp [List.getD]

theorem dayName_facts {i : Nat} (h : i < 7) :
    (shortDayNames.getD i []).length = 3
    ∧ (shortDayNames.getD i []).all isAlphaC = true
    ∧ (lookupIdx (shortDayNames.getD i []) shortDayNames).isSome = true := by
  interval_cases i <;> exact ⟨rfl, by decide, by decide⟩

theorem monthName_facts {m : Nat} (h1 : 1 ≤ m) (h2 : m ≤ 12) :
    (shortMonthNames.getD (m - 1) []).length = 3
    ∧ (shortMonthNames.getD (m - 1) []).all isAlphaC = true
    ∧ lookupIdx (shortMonthNames.getD (m - 1) []) shortMonthNames = some (m - 1) := by
  interval_cases m <;> exact ⟨rfl, by decide, by decide⟩

theorem pad2_all (n : Nat) : (pad2 n).all isDigitC = true := by
  unfold pad2
  split
  · simp only [List.all_cons, natDigits_all, Bool.and_true]
    decide
  · exact natDigits_all n

theorem pad2_ne_nil (n : Nat) : pad2 n ≠ [] := by
  unfold pad2
  split
  · simp
  · exact natDigits_ne_nil n

theorem getNum1or2_pad2 {n : Nat} (h : n ≤ 99) (r : GoStr) :
    getNum1or2 (pad2 n ++ r) = some (n, r) := by
  rw [pad2_eq h]
  show getNum1or2 (digitChar (n / 10) :: digitChar (n % 10) :: r) = _
  simp only [getNum1or2]
  rw [digitChar_isDigit (by omega : n / 10 ≤ 9), digitChar_isDigit (by omega : n % 10 ≤ 9)]
  simp only [if_true]
  rw [digitVal_digitChar (by omega : n / 10 ≤ 9), digitVal_digitChar (by omega : n % 10 ≤ 9)]
  rw [Nat.div_add_mod]

theorem get2Digits_pad2' {n : Nat} (h : n ≤ 99) :
    get2Digits (pad2 n) = some (n, []) := by
  conv_lhs => rw [← List.append_nil (pad2 n)]
  exact get2Digits_pad2 h []

/-- `fmtRFC1123Z` in fully right-associated cons form. -/
theorem fmtRFC1123Z_assoc (t : DebTime) :
    fmtRFC1123Z t = shortDayNames.getD (weekdayIdx t) []
      ++ ',' :: ' ' :: (pad2 t.day ++ ' ' :: (shortMonthNames.getD (t.month - 1) []
      ++ ' ' :: (pad4 t.year ++ ' ' :: (pad2 t.hour ++ ':' :: (pad2 t.minute
      ++ ':' :: (pad2 t.second ++ ' ' :: (if t.tzMin < 0 then '-' else '+')
      :: (pad2 (t.tzMin.natAbs / 60) ++ pad2 (t.tzMin.natAbs % 60)))))))) := by
  unfold fmtRFC1123Z
  rw [show s2l ", " = [','] ++ [' '] from rfl]
  simp only [List.append_assoc, List.cons_append, List.singleton_append, List.nil_append]

/-- Parsing back a formatted date recovers it exactly (valid field ranges). -/
theorem parseRFC1123Z_fmt {t : DebTime}
    (hy1 : 1 ≤ t.year) (hy2 : t.year ≤ 9999) (hm1 : 1 ≤ t.month) (hm2 : t.month ≤ 12)
    (hd1 : 1 ≤ t.day) (hdm : t.day ≤ daysInMonth t.year t.month)
    (hh : t.hour ≤ 23) (hmi : t.minute ≤ 59) (hse : t.second ≤ 59)
    (hna : t.nanos = 0) (htz : t.tzMin.natAbs ≤ 1439) :
    parseRFC1123Z (fmtRFC1123Z t) = some t := by
  have hw7 : weekdayIdx t < 7 := Nat.mod_lt _ (by omega)
  obtain ⟨hdl, _, hds⟩ := dayName_facts hw7
  obtain ⟨hml, _, hms⟩ := monthName_facts hm1 hm2
  have hda99 : t.day ≤ 99 := le_trans hdm (le_trans (daysInMonth_le _ _) (by omega))
  have htk : ∀ X : GoStr, ((shortDayNames.getD (weekdayIdx t) []) ++ X).take 3
      = shortDayNames.getD (weekdayIdx t) [] := by
    intro X
    rw [← hdl]
    exact List.take_left _ X
  have hdr : ∀ X : GoStr, ((shortDayNames.getD (weekdayIdx t) []) ++ X).drop 3 = X := by
    intro X
    rw [← hdl]
    exact List.drop_left _ X
  have htkM : ∀ X : GoStr, ((shortMonthNames.getD (t.month - 1) []) ++ X).take 3
      = shortMonthNames.getD (t.month - 1) [] := by
    intro X
    rw [← hml]
    exact List.take_left _ X
  have hdrM : ∀ X : GoStr, ((shortMonthNames.getD (t.month - 1) []) ++ X).drop 3 = X := by
    intro X
    rw [← hml]
    exact List.drop_left _ X
  have h2da := get2Digits_pad2 hda99
  have h2ho := getNum1or2_pad2 (show t.hour ≤ 99 by omega)
  have h2mi := get2Digits_pad2 (show t.minute ≤ 99 by omega)
  have h2se := get2Digits_pad2 (show t.second ≤ 99 by omega)
  have h2zh := get2Digits_pad2 (show t.tzMin.natAbs / 60 ≤ 99 by omega)
  have h2zm := get2Digits_pad2' (show t.tzMin.natAbs % 60 ≤ 99 by omega)
  have h4y := get4Digits_pad4 hy2
  rw [fmtRFC1123Z_assoc]
  unfold parseRFC1123Z
  simp only [htk, hds, if_true]
  simp only [hdr, h2da, htkM, hms, hdrM, h4y, h2ho, h2mi, h2se, h2zh, h2zm]
  have hsgn : ((if t.tzMin < 0 then '-' else '+') = '+'
      || (if t.tzMin < 0 then '-' else '+') = '-') = true := by
    split <;> decide
  simp only [hsgn, if_true]
  have hcond : (1 ≤ t.day && t.day ≤ daysInMonth t.year (t.month - 1 + 1)
      && t.hour ≤ 23 && t.minute ≤ 59 && t.second ≤ 59) = true := by
    have hmm : t.month - 1 + 1 = t.month := by omega
    rw [hmm]
    simp only [Bool.and_eq_true, decide_eq_true_eq]
    exact ⟨⟨⟨⟨hd1, hdm⟩, hh⟩, hmi⟩, hse⟩
  simp only [hcond, if_true]
  have ht : t = ⟨t.year, t.month, t.day, t.hour, t.minute, t.second, t.nanos, t.tzMin⟩ :=
    rfl
  conv_rhs => rw [ht]
  simp only [Option.some.injEq, DebTime.mk.injEq]
  refine ⟨trivial, by omega, trivial, trivial, trivial, trivial, hna.symm, ?_⟩
  by_cases hneg : t.tzMin < 0
  · rw [if_pos hneg, if_pos rfl]
    omega
  · rw [if_neg hneg, if_neg (by decide)]
    omega

theorem list3_explicit {l : GoStr} (hl : l.length = 3) (ha : l.all isAlphaC = true) :
    ∃ c1 c2 c3, l = [c1, c2, c3] ∧ isAlphaC c1 = true ∧ isAlphaC c2 = true
      ∧ isAlphaC c3 = true := by
  rcases l with _|⟨a,_|⟨b,_|⟨c,_|⟨d,t⟩⟩⟩⟩ <;> simp at hl
  simp only [List.all_cons, List.all_nil, Bool.and_eq_true, Bool.and_true] at ha
  exact ⟨a, b, c, rfl, ha.1, ha.2.1, ha.2.2⟩

theorem pad4_explicit {y : Nat} (h : y ≤ 9999) :
    ∃ a b c d, pad4 y = [a, b, c, d] ∧ isDigitC a = true ∧ isDigitC b = true
      ∧ isDigitC c = true ∧ isDigitC d = true := by
  have hl := pad4_length h
  have ha := pad4_all y
  rcases hp : pad4 y with _|⟨a,_|⟨b,_|⟨c,_|⟨d,_|⟨e,t⟩⟩⟩⟩⟩ <;> rw [hp] at hl <;> simp at hl
  rw [hp] at ha
  simp only [List.all_cons, List.all_nil, Bool.and_eq_true, Bool.and_true] at ha
  exact ⟨a, b, c, d, rfl, ha.1, ha.2.1, ha.2.2.1, ha.2.2.2⟩

/-- The formatted date contains no double space, no newline, no carriage
return. -/
theorem fmt_clean {t : DebTime} (hm1 : 1 ≤ t.month) (hm2 : t.month ≤ 12)
    (hy2 : t.year ≤ 9999) (hdm : t.day ≤ daysInMonth t.year t.month)
    (hh : t.hour ≤ 23) (hmi : t.minute ≤ 59) (hse : t.second ≤ 59)
    (htz : t.tzMin.natAbs ≤ 1439) :
    splitFirst (s2l "  ") (fmtRFC1123Z t) = none
    ∧ '\n' ∉ fmtRFC1123Z t ∧ '\r' ∉ fmtRFC1123Z t := by
  have hw7 : weekdayIdx t < 7 := Nat.mod_lt _ (by omega)
  obtain ⟨hdl, hdal, _⟩ := dayName_facts hw7
  obtain ⟨hml, hmal, _⟩ := monthName_facts hm1 hm2
  have hda99 : t.day ≤ 99 := le_trans hdm (le_trans (daysInMonth_le _ _) (by omega))
  refine ⟨?_, ?_, ?_⟩
  · obtain ⟨d1, d2, d3, hdn, hdc1, hdc2, hdc3⟩ := list3_explicit hdl hdal
    obtain ⟨m1, m2, m3, hmn, hmc1, hmc2, hmc3⟩ := list3_explicit hml hmal
    obtain ⟨a, b, c, d, hp4, hca, hcb, hcc, hcd⟩ := pad4_explicit hy2
    have q1 : digitChar (t.day / 10) ≠ ' ' :=
      ne_of_class (digitChar_isDigit (by omega)) (by decide)
    have q2 : digitChar (t.day % 10) ≠ ' ' :=
      ne_of_class (digitChar_isDigit (by omega)) (by decide)
    have q3 : digitChar (t.hour / 10) ≠ ' ' :=
      ne_of_class (digitChar_isDigit (by omega)) (by decide)
    have q4 : digitChar (t.hour % 10) ≠ ' ' :=
      ne_of_class (digitChar_isDigit (by omega)) (by decide)
    have q5 : digitChar (t.minute / 10) ≠ ' ' :=
      ne_of_class (digitChar_isDigit (by omega)) (by decide)
    have q6 : digitChar (t.minute % 10) ≠ ' ' :=
      ne_of_class (digitChar_isDigit (by omega)) (by decide)
    have q7 : digitChar (t.second / 10) ≠ ' ' :=
      ne_of_class (digitChar_isDigit (by omega)) (by decide)
    have q8 : digitChar (t.second % 10) ≠ ' ' :=
      ne_of_class (digitChar_isDigit (by omega)) (by decide)
    have q9 : digitChar (t.tzMin.natAbs / 60 / 10) ≠ ' ' :=
      ne_of_class (digitChar_isDigit (by omega)) (by decide)
    have q10 : digitChar (t.tzMin.natAbs / 60 % 10) ≠ ' ' :=
      ne_of_class (digitChar_isDigit (by omega)) (by decide)
    have q11 : digitChar (t.tzMin.natAbs % 60 / 10) ≠ ' ' :=
      ne_of_class (digitChar_isDigit (by omega)) (by decide)
    have q12 : digitChar (t.tzMin.natAbs % 60 % 10) ≠ ' ' :=
      ne_of_class (digitChar_isDigit (by omega)) (by decide)
    have w1 : d1 ≠ ' ' := ne_of_class hdc1 (by decide)
    have w2 : d2 ≠ ' ' := ne_of_class hdc2 (by decide)
    have w3 : d3 ≠ ' ' := ne_of_class hdc3 (by decide)
    have w4 : m1 ≠ ' ' := ne_of_class hmc1 (by decide)
    have w5 : m2 ≠ ' ' := ne_of_class hmc2 (by decide)
    have w6 : m3 ≠ ' ' := ne_of_class hmc3 (by decide)
    have w7 : a ≠ ' ' := ne_of_class hca (by decide)
    have w8 : b ≠ ' ' := ne_of_class hcb (by decide)
    have w9 : c ≠ ' ' := ne_of_class hcc (by decide)
    have w10 : d ≠ ' ' := ne_of_class hcd (by decide)
    have hsg : (if t.tzMin < 0 then '-' else '+') ≠ ' ' := by split <;> decide
    rw [splitFirst_none_iff]
    show containsSub [' ', ' '] _ = false
    rw [← noPair_iff.mp]
    rw [fmtRFC1123Z_assoc, hdn, hmn, hp4, pad2_eq hda99,
      pad2_eq (show t.hour ≤ 99 by omega), pad2_eq (show t.minute ≤ 99 by omega),
      pad2_eq (show t.second ≤ 99 by omega),
      pad2_eq (show t.tzMin.natAbs / 60 ≤ 99 by omega),
      pad2_eq (show t.tzMin.natAbs % 60 ≤ 99 by omega)]
    simp only [List.cons_append, List.nil_append]
    simp [noPair, q1, q2, q3, q4, q5, q6, q7, q8, q9, q10, q11, q12,
      w1, w2, w3, w4, w5, w6, w7, w8, w9, w10, hsg]
  · intro hmem
    rw [fmtRFC1123Z_assoc] at hmem
    simp only [List.mem_append, List.mem_cons, List.cons_append, List.nil_append] at hmem
    rcases hmem with h|h|h|h|h|h|h|h|h|h|h|h|h|h|h|h|h|h <;>
      first
        | exact absurd h (by decide)
        | exact not_mem_of_class hdal (by decide) h
        | exact not_mem_of_class hmal (by decide) h
        | exact not_mem_of_class (pad2_all _) (by decide) h
        | exact not_mem_of_class (pad4_all _) (by decide) h
        | (revert h; split <;> decide)
  · intro hmem
    rw [fmtRFC1123Z_assoc] at hmem
    simp only [List.mem_append, List.mem_cons, List.cons_append, List.nil_append] at hmem
    rcases hmem with h|h|h|h|h|h|h|h|h|h|h|h|h|h|h|h|h|h <;>
      first
        | exact absurd h (by decide)
        | exact not_mem_of_class hdal (by decide) h
        | exact not_mem_of_class hmal (by decide) h
        | exact not_mem_of_class (pad2_all _) (by decide) h
        | exact not_mem_of_class (pad4_all _) (by decide) h
        | (revert h; split <;> decide)

/-! #### Semver scanner lemmas -/

/-- A prerelease identifier that the leftmost-first scan recovers exactly:
`"0"`, a nonzero-led digit run, or a non-digit-led identifier-character run. -/
def goodPreTok (t : GoStr) : Bool :=
  match t with
  | [] => false
  | c :: cs => (c = '0' && cs = []) || (isNonzeroC c && (c :: cs).all isDigitC)
      || (!(isDigitC c) && (c :: cs).all isIdentC)

/-- A prerelease string whose dot-separated identifiers are all good. -/
def goodPre (p : GoStr) : Bool := (splitOnChar '.' p).all goodPreTok

/-- Join with dots (inverse of `splitOnChar '.'`). -/
def dotJoin : List GoStr → GoStr
  | [] => []
  | [t] => t
  | t :: ts => t ++ '.' :: dotJoin ts

theorem ne_of_class' {p : Char → Bool} {c d : Char} (hc : p c = false)
    (hd : p d = true) : c ≠ d :=
  fun he => absurd (he ▸ hc) (by simp [hd])

theorem isNonzeroC_imp_isDigitC {c : Char} (h : isNonzeroC c = true) :
    isDigitC c = true := by
  simp only [isNonzeroC, Bool.and_eq_true, decide_eq_true_eq] at h
  simp only [isDigitC, Bool.and_eq_true, decide_eq_true_eq]
  exact ⟨le_trans (by decide) h.1, h.2⟩

theorem isDigitC_imp_isIdentC {c : Char} (h : isDigitC c = true) :
    isIdentC c = true := by
  simp [isIdentC, h]

theorem isNonzeroC_eq_false {c : Char} (h : isDigitC c = false) :
    isNonzeroC c = false := by
  cases hb : isNonzeroC c with
  | false => rfl
  | true => rw [isNonzeroC_imp_isDigitC hb] at h; cases h

theorem isDigitC_eq_false {c : Char} (h : isIdentC c = false) :
    isDigitC c = false := by
  cases hb : isDigitC c with
  | false => rfl
  | true => rw [isDigitC_imp_isIdentC hb] at h; cases h

theorem dotJoin_splitOnChar : ∀ p : GoStr, dotJoin (splitOnChar '.' p) = p := by
  intro p
  induction p with
  | nil => rfl
  | cons d ds ih =>
    rw [splitOnChar]
    cases hs : splitOnChar '.' ds with
    | nil => exact absurd hs (splitOnChar_ne_nil _ _)
    | cons t ts =>
      rw [hs] at ih
      show dotJoin (if d = '.' then [] :: t :: ts else (d :: t) :: ts) = d :: ds
      by_cases hd : d = '.'
      · rw [if_pos hd, hd]
        show '.' :: dotJoin (t :: ts) = '.' :: ds
        rw [ih]
      · rw [if_neg hd]
        cases ts with
        | nil =>
          show d :: t = d :: ds
          have ih' : t = ds := ih
          rw [ih']
        | cons u us =>
          show (d :: t) ++ '.' :: dotJoin (u :: us) = d :: ds
          rw [← ih]
          rfl

theorem dotJoin_eq_flatMap :
    ∀ (t : GoStr) (ts : List GoStr),
      dotJoin (t :: ts) = t ++ ts.flatMap (fun tk => '.' :: tk) := by
  intro t ts
  induction ts generalizing t with
  | nil => simp [dotJoin]
  | cons u us ih =>
    show t ++ '.' :: dotJoin (u :: us) = _
    rw [ih u]
    simp [List.flatMap_cons]

theorem spanC_append {p : Char → Bool} :
    ∀ {x : GoStr}, x.all p = true → ∀ y,
      spanC p (x ++ y) = (x ++ (spanC p y).1, (spanC p y).2) := by
  intro x
  induction x with
  | nil => intro _ y; simp [spanC]
  | cons c t ih =>
    intro hx y
    simp only [List.all_cons, Bool.and_eq_true] at hx
    simp [spanC, hx.1, ih hx.2 y]

theorem spanC_cons_neg {p : Char → Bool} {c : Char} (cs : GoStr) (h : p c = false) :
    spanC p (c :: cs) = ([], c :: cs) := by
  simp [spanC, h]

theorem spanC_eat {p : Char → Bool} {x r : GoStr} (hx : x.all p = true)
    (hr : ∀ c, r.head? = some c → p c = false) :
    spanC p (x ++ r) = (x, r) := by
  rw [spanC_append hx]
  cases r with
  | nil => simp [spanC]
  | cons c cs =>
    rw [spanC_cons_neg cs (hr c rfl)]
    simp

theorem scanNum_cons (c : Char) (cs : GoStr) :
    scanNum (c :: cs) = (if c = '0' then some (['0'], cs)
      else if isNonzeroC c then
        some (c :: (spanC isDigitC cs).1, (spanC isDigitC cs).2)
      else none) := rfl

theorem scanIdent_cons (c : Char) (cs : GoStr) :
    scanIdent (c :: cs) = (if c = '0' then some (['0'], cs)
      else if isNonzeroC c then
        some (c :: (spanC isDigitC cs).1, (spanC isDigitC cs).2)
      else if isAlphaC c || c = '-' then
        some (c :: (spanC isIdentC cs).1, (spanC isIdentC cs).2)
      else none) := rfl

theorem scanNum_natDigits {n : Nat} {r : GoStr}
    (hr : ∀ c, r.head? = some c → isDigitC c = false) :
    scanNum (natDigits n ++ r) = some (natDigits n, r) := by
  rcases Nat.eq_zero_or_pos n with h0 | hpos
  · subst h0
    rw [show natDigits 0 = ['0'] from rfl]
    simp [scanNum]
  · obtain ⟨c, t, he, hc, ht⟩ := natDigits_head hpos
    rw [he]
    show scanNum (c :: (t ++ r)) = some (c :: t, r)
    rw [scanNum_cons]
    rw [if_neg (show ¬(c = '0') from ne_of_class hc (by decide))]
    rw [hc]
    simp [spanC_eat ht hr]

theorem scanIdent_token {tk : GoStr} (htk : goodPreTok tk = true) {r : GoStr}
    (hr : ∀ c, r.head? = some c → isIdentC c = false) :
    scanIdent (tk ++ r) = some (tk, r) := by
  cases tk with
  | nil => simp [goodPreTok] at htk
  | cons c cs =>
    simp only [goodPreTok, Bool.or_eq_true, Bool.and_eq_true, decide_eq_true_eq,
      Bool.not_eq_true'] at htk
    have hrd : ∀ c, r.head? = some c → isDigitC c = false :=
      fun c h => isDigitC_eq_false (hr c h)
    rcases htk with (⟨hc0, hcs⟩ | ⟨hnz, hall⟩) | ⟨hnd, hall⟩
    · subst hc0
      subst hcs
      show scanIdent ('0' :: r) = some (['0'], r)
      simp [scanIdent]
    · show scanIdent (c :: (cs ++ r)) = some (c :: cs, r)
      rw [scanIdent_cons]
      rw [if_neg (show ¬(c = '0') from ne_of_class hnz (by decide))]
      rw [hnz]
      simp only [List.all_cons, Bool.and_eq_true] at hall
      simp [spanC_eat hall.2 hrd]
    · show scanIdent (c :: (cs ++ r)) = some (c :: cs, r)
      rw [scanIdent_cons]
      simp only [List.all_cons, Bool.and_eq_true] at hall
      have hc0 : ¬(c = '0') := ne_of_class' hnd (by decide)
      have halpha : (isAlphaC c || c = '-') = true := by
        have := hall.1
        rw [isIdentC, hnd] at this
        simpa using this
      rw [if_neg hc0, isNonzeroC_eq_false hnd]
      simp only [Bool.false_eq_true, if_false, halpha, if_true]
      simp [spanC_eat hall.2 hr]

theorem scanDotIdents_none {fuel : Nat} {r : GoStr}
    (hr : ∀ c, r.head? = some c → c ≠ '.') :
    scanDotIdents fuel r = ([], r) := by
  cases fuel with
  | zero => rfl
  | succ f =>
    cases r with
    | nil => rfl
    | cons c cs =>
      have hc := hr c rfl
      show scanDotIdents (f + 1) (c :: cs) = ([], c :: cs)
      unfold scanDotIdents
      split
      · rename_i heq
        injection heq with h1 _
        exact absurd h1 hc
      · rfl

theorem scanDotIdents_tokens :
    ∀ (toks : List GoStr) (fuel : Nat) (r : GoStr),
      (∀ tk ∈ toks, goodPreTok tk = true) →
      (∀ c, r.head? = some c → isIdentC c = false ∧ c ≠ '.') →
      toks.length ≤ fuel →
      scanDotIdents fuel (toks.flatMap (fun tk => '.' :: tk) ++ r)
        = (toks.flatMap (fun tk => '.' :: tk), r) := by
  intro toks
  induction toks with
  | nil =>
    intro fuel r _ hr _
    simp only [List.flatMap_nil, List.nil_append]
    exact scanDotIdents_none (fun c h => (hr c h).2)
  | cons tk ts ih =>
    intro fuel r htoks hr hlen
    cases fuel with
    | zero => simp at hlen
    | succ f =>
      have hhead : ∀ c, (ts.flatMap (fun tk => '.' :: tk) ++ r).head? = some c →
          isIdentC c = false := by
        cases ts with
        | nil =>
          simpa using fun c h => (hr c h).1
        | cons u us =>
          intro c h
          simp only [List.flatMap_cons, List.cons_append, List.head?_cons,
            Option.some.injEq] at h
          rw [← h]
          decide
      have hscan := scanIdent_token (htoks tk (List.mem_cons_self _ _)) hhead
      rw [List.flatMap_cons]
      show scanDotIdents (f + 1) ('.' :: (tk ++ ts.flatMap (fun tk => '.' :: tk) ++ r)) = _
      rw [scanDotIdents]
      simp only [List.append_assoc] at hscan ⊢
      rw [hscan]
      show ('.' :: tk ++ (scanDotIdents f (ts.flatMap (fun tk => '.' :: tk) ++ r)).1,
        (scanDotIdents f (ts.flatMap (fun tk => '.' :: tk) ++ r)).2) = _
      rw [ih f r (fun x hx => htoks x (List.mem_cons_of_mem _ hx)) hr (by simpa using hlen)]

theorem intToStr_nonneg {i : Int} (h : 0 ≤ i) : intToStr i = natDigits i.toNat := by
  unfold intToStr
  rw [if_neg (by omega)]
  congr 1
  omega

theorem renderVer_eq {v : Version} (hma : 0 ≤ v.Major) (hmi : 0 ≤ v.Minor)
    (hpa : 0 ≤ v.Patch) :
    renderVer v = natDigits v.Major.toNat
      ++ '.' :: (natDigits v.Minor.toNat
      ++ '.' :: (natDigits v.Patch.toNat
      ++ (if v.Prerelease = [] then [] else '-' :: v.Prerelease))) := by
  unfold renderVer
  rw [intToStr_nonneg hma, intToStr_nonneg hmi, intToStr_nonneg hpa]
  simp only [List.cons_append, List.append_assoc]

theorem flatMap_head_not_ident {ts : List GoStr} {r : GoStr}
    (hr : ∀ c, r.head? = some c → isIdentC c = false) :
    ∀ c, ((ts.flatMap fun tk => '.' :: tk) ++ r).head? = some c →
      isIdentC c = false := by
  cases ts with
  | nil => simpa using hr
  | cons u us =>
    intro c h
    simp only [List.flatMap_cons, List.cons_append, List.head?_cons,
      Option.some.injEq] at h
    rw [← h]
    decide

theorem flatMap_dot_length (ts : List GoStr) :
    ts.length ≤ (ts.flatMap fun tk => '.' :: tk).length := by
  induction ts with
  | nil => simp
  | cons u us ih =>
    simp only [List.flatMap_cons, List.length_append, List.length_cons, List.length_cons]
    omega

/-- The leftmost-first match starting at a rendered version consumes exactly
the rendered version, provided the following character cannot extend it. -/
theorem matchSemverAt_renderVer {v : Version}
    (hma : 0 ≤ v.Major) (hmi : 0 ≤ v.Minor) (hpa : 0 ≤ v.Patch)
    (hpre : v.Prerelease = [] ∨ goodPre v.Prerelease = true)
    {r : GoStr}
    (hr : ∀ c, r.head? = some c → isIdentC c = false ∧ c ≠ '.' ∧ c ≠ '+') :
    matchSemverAt (renderVer v ++ r)
      = some ({ matched := renderVer v,
                major := natDigits v.Major.toNat,
                minor := natDigits v.Minor.toNat,
                patch := natDigits v.Patch.toNat,
                pre := v.Prerelease }, r) := by
  have hrd : ∀ c, r.head? = some c → isDigitC c = false :=
    fun c h => isDigitC_eq_false (hr c h).1
  have hdot : ∀ (X : GoStr) c, ('.' :: X).head? = some c → isDigitC c = false := by
    intro X c h
    simp only [List.head?_cons, Option.some.injEq] at h
    rw [← h]
    decide
  rw [renderVer_eq hma hmi hpa]
  by_cases hp : v.Prerelease = []
  · rw [hp]
    simp only [if_pos]
    simp only [List.append_nil, List.append_assoc, List.cons_append]
    unfold matchSemverAt
    rw [scanNum_natDigits (hdot _)]
    simp only []
    rw [scanNum_natDigits (hdot _)]
    simp only []
    rw [scanNum_natDigits hrd]
    simp only []
    cases r with
    | nil => simp [List.append_assoc]
    | cons c cs =>
      obtain ⟨hc1, hc2, hc3⟩ := hr c rfl
      have hcm : c ≠ '-' := ne_of_class' hc1 (by decide)
      split
      · rename_i heq
        injection heq with h1 _
        exact absurd h1 hcm
      · split
        · rename_i heq
          injection heq with h1 _
          exact absurd h1 hc3
        · simp [List.append_assoc]
  · rw [if_neg hp]
    have hgood : goodPre v.Prerelease = true := by
      rcases hpre with h | h
      · exact absurd h hp
      · exact h
    have hjoin := dotJoin_splitOnChar v.Prerelease
    cases hts : splitOnChar '.' v.Prerelease with
    | nil => exact absurd hts (splitOnChar_ne_nil _ _)
    | cons tk1 ts =>
      rw [hts] at hjoin
      have htoks : ∀ tk ∈ tk1 :: ts, goodPreTok tk = true := by
        have := hgood
        unfold goodPre at this
        rw [hts] at this
        simpa [List.all_eq_true] using this
      have hpre_eq : v.Prerelease = tk1 ++ ts.flatMap (fun tk => '.' :: tk) := by
        rw [← hjoin, dotJoin_eq_flatMap]
      have hscan1 : scanIdent (v.Prerelease ++ r)
          = some (tk1, ts.flatMap (fun tk => '.' :: tk) ++ r) := by
        conv_lhs => rw [hpre_eq]
        rw [List.append_assoc]
        exact scanIdent_token (htoks tk1 (List.mem_cons_self _ _))
          (flatMap_head_not_ident (fun c h => (hr c h).1))
      have hscan2 : scanDotIdents (ts.flatMap (fun tk => '.' :: tk) ++ r).length
          (ts.flatMap (fun tk => '.' :: tk) ++ r)
          = (ts.flatMap (fun tk => '.' :: tk), r) :=
        scanDotIdents_tokens ts _ r
          (fun tk h => htoks tk (List.mem_cons_of_mem _ h))
          (fun c h => ⟨(hr c h).1, (hr c h).2.1⟩)
          (by
            have := flatMap_dot_length ts
            simp only [List.length_append]
            omega)
      simp only [List.append_assoc, List.cons_append]
      unfold matchSemverAt
      rw [scanNum_natDigits (hdot _)]
      simp only []
      rw [scanNum_natDigits (hdot _)]
      simp only []
      rw [scanNum_natDigits (fun c h => by
        simp only [List.head?_cons, Option.some.injEq] at h
        rw [← h]
        decide)]
      simp only []
      rw [hscan1]
      simp only []
      rw [hscan2]
      simp only []
      have hr6 : ∀ c, r.head? = some c → c ≠ '+' := fun c h => (hr c h).2.2
      cases r with
      | nil =>
        simp only [Option.some.injEq, Prod.mk.injEq, SemGroups.mk.injEq]
        refine ⟨⟨?_, trivial, trivial, trivial, ?_⟩, trivial⟩
        · rw [hpre_eq]
          simp [List.append_assoc]
        · rw [hpre_eq]
      | cons c cs =>
        have hc3 : c ≠ '+' := hr6 c rfl
        split
        · rename_i heq
          injection heq with h1 _
          exact absurd h1 hc3
        · simp only [Option.some.injEq, Prod.mk.injEq, SemGroups.mk.injEq]
          refine ⟨⟨?_, trivial, trivial, trivial, ?_⟩, trivial⟩
          · rw [hpre_eq]
            simp [List.append_assoc]
          · rw [hpre_eq]

theorem matchSemverAt_nondigit {c : Char} {l : GoStr} (h : isDigitC c = false) :
    matchSemverAt (c :: l) = none := by
  have hs : scanNum (c :: l) = none := by
    rw [scanNum_cons, if_neg (show ¬(c = '0') from ne_of_class' h (by decide)),
      isNonzeroC_eq_false h]
    simp
  unfold matchSemverAt
  rw [hs]

theorem FindString_cons_nondigit {c : Char} {l : GoStr} (h : isDigitC c = false) :
    FindString (c :: l) = FindString l := by
  unfold FindString
  have hm := @matchSemverAt_nondigit c l h
  simp only [findSemver, hm]
  cases hf : findSemver l with
  | none => rfl
  | some p => rfl

theorem FindString_append_nondigit {p : GoStr} (hp : ∀ c ∈ p, isDigitC c = false)
    (l : GoStr) : FindString (p ++ l) = FindString l := by
  induction p with
  | nil => rfl
  | cons c t ih =>
    rw [List.cons_append,
      FindString_cons_nondigit (hp c (List.mem_cons_self _ _)),
      ih fun x hx => hp x (List.mem_cons_of_mem _ hx)]

theorem renderVer_ne_nil {v : Version} (hma : 0 ≤ v.Major) (hmi : 0 ≤ v.Minor)
    (hpa : 0 ≤ v.Patch) : renderVer v ≠ [] := by
  rw [renderVer_eq hma hmi hpa]
  intro hh
  rw [List.append_eq_nil] at hh
  exact natDigits_ne_nil _ hh.1

theorem findSemver_renderVer {v : Version}
    (hma : 0 ≤ v.Major) (hmi : 0 ≤ v.Minor) (hpa : 0 ≤ v.Patch)
    (hpre : v.Prerelease = [] ∨ goodPre v.Prerelease = true)
    {r : GoStr}
    (hr : ∀ c, r.head? = some c → isIdentC c = false ∧ c ≠ '.' ∧ c ≠ '+') :
    findSemver (renderVer v ++ r)
      = some ([], { matched := renderVer v,
                    major := natDigits v.Major.toNat,
                    minor := natDigits v.Minor.toNat,
                    patch := natDigits v.Patch.toNat,
                    pre := v.Prerelease }, r) := by
  have hm := matchSemverAt_renderVer hma hmi hpa hpre hr
  cases hrv : renderVer v with
  | nil => exact absurd hrv (renderVer_ne_nil hma hmi hpa)
  | cons c cs =>
    rw [hrv] at hm
    show findSemver (c :: (cs ++ r)) = _
    simp only [findSemver]
    rw [show c :: (cs ++ r) = (c :: cs) ++ r from rfl, hm]

theorem replaceAllG_nil (sel : SemGroups → GoStr) :
    ∀ fuel, replaceAllG sel fuel [] = [] := by
  intro fuel
  cases fuel with
  | zero => rfl
  | succ f => rfl

theorem ReplaceAllString_renderVer {v : Version}
    (hma : 0 ≤ v.Major) (hmi : 0 ≤ v.Minor) (hpa : 0 ≤ v.Patch)
    (hpre : v.Prerelease = [] ∨ goodPre v.Prerelease = true)
    (sel : SemGroups → GoStr) :
    ReplaceAllString sel (renderVer v)
      = sel { matched := renderVer v,
              major := natDigits v.Major.toNat,
              minor := natDigits v.Minor.toNat,
              patch := natDigits v.Patch.toNat,
              pre := v.Prerelease } := by
  have hf : findSemver (renderVer v)
      = some ([], { matched := renderVer v,
                    major := natDigits v.Major.toNat,
                    minor := natDigits v.Minor.toNat,
                    patch := natDigits v.Patch.toNat,
                    pre := v.Prerelease }, []) := by
    have := @findSemver_renderVer v hma hmi hpa hpre []
      (fun c h => by cases h)
    rw [List.append_nil] at this
    exact this
  unfold ReplaceAllString
  obtain ⟨k, hk⟩ : ∃ k, (renderVer v).length = k + 1 := by
    cases hl : (renderVer v).length with
    | zero =>
      exact absurd (List.length_eq_zero.mp hl) (renderVer_ne_nil hma hmi hpa)
    | succ k => exact ⟨k, rfl⟩
  rw [hk]
  rw [replaceAllG, hf]
  simp only []
  rw [replaceAllG_nil]
  simp

theorem goodPreTok_all_ident {tk : GoStr} (h : goodPreTok tk = true) :
    tk.all isIdentC = true := by
  cases tk with
  | nil => simp [goodPreTok] at h
  | cons c cs =>
    simp only [goodPreTok, Bool.or_eq_true, Bool.and_eq_true, decide_eq_true_eq,
      Bool.not_eq_true'] at h
    rcases h with (⟨hc0, hcs⟩ | ⟨_, hall⟩) | ⟨_, hall⟩
    · subst hc0
      subst hcs
      decide
    · rw [List.all_eq_true] at hall ⊢
      intro x hx
      simpa using isDigitC_imp_isIdentC (by simpa using hall x hx)
    · exact hall

theorem goodPreTok_valid {tk : GoStr} (h : goodPreTok tk = true) :
    validPreToken tk = true := by
  have hident := goodPreTok_all_ident h
  cases tk with
  | nil => simp [goodPreTok] at h
  | cons c cs =>
    simp only [goodPreTok, Bool.or_eq_true, Bool.and_eq_true, decide_eq_true_eq,
      Bool.not_eq_true'] at h
    rcases h with (⟨hc0, hcs⟩ | ⟨hnz, hall⟩) | ⟨hnd, hall⟩
    · subst hc0
      subst hcs
      decide
    · unfold validPreToken validNumToken
      rw [hall, hident]
      have hc0 : c ≠ '0' := ne_of_class hnz (by decide)
      simp [hc0]
    · unfold validPreToken
      have hd : (c :: cs).all isDigitC = false := by
        simp [List.all_cons, hnd]
      rw [hd, hident]
      simp

theorem pre_chars {p : GoStr} (h : goodPre p = true) {c : Char} (hc : c ∈ p) :
    isIdentC c = true ∨ c = '.' := by
  have htoks : ∀ tk ∈ splitOnChar '.' p, goodPreTok tk = true := by
    simpa [goodPre, List.all_eq_true] using h
  rw [← dotJoin_splitOnChar p] at hc
  cases hts : splitOnChar '.' p with
  | nil => exact absurd hts (splitOnChar_ne_nil _ _)
  | cons tk1 ts =>
    rw [hts, dotJoin_eq_flatMap] at hc
    rcases List.mem_append.mp hc with h1 | h2
    · left
      have ha := goodPreTok_all_ident (htoks tk1 (by rw [hts]; exact List.mem_cons_self _ _))
      rw [List.all_eq_true] at ha
      simpa using ha c h1
    · rcases List.mem_flatMap.mp h2 with ⟨tk, htk, hctk⟩
      rcases List.mem_cons.mp hctk with he | hm
      · right; exact he
      · left
        have ha := goodPreTok_all_ident
          (htoks tk (by rw [hts]; exact List.mem_cons_of_mem _ htk))
        rw [List.all_eq_true] at ha
        simpa using ha c hm

theorem renderVer_chars {v : Version} (hma : 0 ≤ v.Major) (hmi : 0 ≤ v.Minor)
    (hpa : 0 ≤ v.Patch) (hpre : v.Prerelease = [] ∨ goodPre v.Prerelease = true)
    {c : Char} (hc : c ∈ renderVer v) :
    isDigitC c = true ∨ c = '.' ∨ c = '-' ∨ isIdentC c = true := by
  rw [renderVer_eq hma hmi hpa] at hc
  by_cases hp : v.Prerelease = []
  · rw [if_pos hp, List.append_nil] at hc
    simp only [List.mem_append, List.mem_cons] at hc
    rcases hc with h|h|h|h|h <;>
      first
        | (right; left; exact h)
        | (left; exact (List.all_eq_true.mp (natDigits_all _)) c h)
  · rw [if_neg hp] at hc
    have hgood : goodPre v.Prerelease = true := by
      rcases hpre with hh | hh
      · exact absurd hh hp
      · exact hh
    simp only [List.mem_append, List.mem_cons] at hc
    rcases hc with h|h|h|h|h|h
    · left; exact (List.all_eq_true.mp (natDigits_all _)) c h
    · right; left; exact h
    · left; exact (List.all_eq_true.mp (natDigits_all _)) c h
    · right; left; exact h
    · left; exact (List.all_eq_true.mp (natDigits_all _)) c h
    · rcases h with h | h
      · right; right; left; exact h
      · rcases pre_chars hgood h with hh | hh
        · right; right; right; exact hh
        · right; left; exact hh

theorem not_mem_renderVer {v : Version} (hma : 0 ≤ v.Major) (hmi : 0 ≤ v.Minor)
    (hpa : 0 ≤ v.Patch) (hpre : v.Prerelease = [] ∨ goodPre v.Prerelease = true)
    {c : Char} (h1 : isDigitC c = false) (h2 : c ≠ '.') (h3 : c ≠ '-')
    (h4 : isIdentC c = false) : c ∉ renderVer v := by
  intro hc
  rcases renderVer_chars hma hmi hpa hpre hc with h|h|h|h
  · rw [h] at h1; cases h1
  · exact h2 h
  · exact h3 h
  · rw [h] at h4; cases h4

theorem semverDecomp_renderVer {v : Version}
    (hma : 0 ≤ v.Major) (hmi : 0 ≤ v.Minor) (hpa : 0 ≤ v.Patch)
    (hpre : v.Prerelease = [] ∨ goodPre v.Prerelease = true) :
    semverDecomp (renderVer v) = some v := by
  have hplus : splitFirstChar '+' (renderVer v) = none :=
    splitFirst_single_none
      (not_mem_renderVer hma hmi hpa hpre (by decide) (by decide) (by decide) (by decide))
  have hnd : ∀ n : Nat, '.' ∉ natDigits n :=
    fun n => not_mem_of_class (natDigits_all n) (by decide)
  have hVer : v = ⟨v.Major, v.Minor, v.Patch, v.Prerelease⟩ := rfl
  by_cases hp : v.Prerelease = []
  · have hminus : splitFirstChar '-' (renderVer v) = none := by
      apply splitFirst_single_none
      intro hc
      rw [renderVer_eq hma hmi hpa, hp, if_pos rfl, List.append_nil] at hc
      simp only [List.mem_append, List.mem_cons] at hc
      rcases hc with h|h|h|h|h <;>
        first
          | exact absurd h (by decide)
          | exact (not_mem_of_class (natDigits_all _) (by decide)) h
    have hbase : renderVer v = natDigits v.Major.toNat
        ++ '.' :: (natDigits v.Minor.toNat ++ '.' :: natDigits v.Patch.toNat) := by
      rw [renderVer_eq hma hmi hpa, hp, if_pos rfl, List.append_nil]
    have hsplit : splitOnChar '.' (renderVer v)
        = [natDigits v.Major.toNat, natDigits v.Minor.toNat, natDigits v.Patch.toNat] := by
      rw [hbase]
      rw [show natDigits v.Major.toNat
          ++ '.' :: (natDigits v.Minor.toNat ++ '.' :: natDigits v.Patch.toNat)
          = natDigits v.Major.toNat
          ++ '.' :: (natDigits v.Minor.toNat ++ '.' :: natDigits v.Patch.toNat) from rfl]
      rw [splitOnChar_append _ (hnd _), splitOnChar_append _ (hnd _),
        splitOnChar_no (hnd _)]
    unfold semverDecomp
    rw [hplus]
    try simp only []
    rw [hminus]
    try simp only []
    rw [hsplit]
    try simp only []
    rw [validNumToken_natDigits, validNumToken_natDigits, validNumToken_natDigits]
    simp only [Bool.and_self, Bool.and_true, if_true]
    rw [digitsVal_natDigits, digitsVal_natDigits, digitsVal_natDigits]
    conv_rhs => rw [hVer]
    simp only [Option.some.injEq, Version.mk.injEq]
    refine ⟨by omega, by omega, by omega, ?_⟩
    simp [hp]
  · have hform : renderVer v
        = (natDigits v.Major.toNat
            ++ '.' :: (natDigits v.Minor.toNat ++ '.' :: natDigits v.Patch.toNat))
          ++ '-' :: v.Prerelease := by
      rw [renderVer_eq hma hmi hpa, if_neg hp]
      simp [List.append_assoc]
    have hgood : goodPre v.Prerelease = true := by
      rcases hpre with hh | hh
      · exact absurd hh hp
      · exact hh
    have hbm : '-' ∉ natDigits v.Major.toNat
        ++ '.' :: (natDigits v.Minor.toNat ++ '.' :: natDigits v.Patch.toNat) := by
      intro hc
      simp only [List.mem_append, List.mem_cons] at hc
      rcases hc with h|h|h|h|h <;>
        first
          | exact absurd h (by decide)
          | exact (not_mem_of_class (natDigits_all _) (by decide)) h
    have hminus : splitFirstChar '-' (renderVer v)
        = some (natDigits v.Major.toNat
            ++ '.' :: (natDigits v.Minor.toNat ++ '.' :: natDigits v.Patch.toNat),
          v.Prerelease) := by
      rw [hform]
      exact splitFirst_single_append _ hbm
    have hsplit : splitOnChar '.' (natDigits v.Major.toNat
          ++ '.' :: (natDigits v.Minor.toNat ++ '.' :: natDigits v.Patch.toNat))
        = [natDigits v.Major.toNat, natDigits v.Minor.toNat, natDigits v.Patch.toNat] := by
      rw [splitOnChar_append _ (hnd _), splitOnChar_append _ (hnd _),
        splitOnChar_no (hnd _)]
    have hvalidPre : (splitOnChar '.' v.Prerelease).all validPreToken = true := by
      rw [List.all_eq_true]
      intro tk htk
      have htoks : ∀ tk ∈ splitOnChar '.' v.Prerelease, goodPreTok tk = true := by
        simpa [goodPre, List.all_eq_true] using hgood
      simpa using goodPreTok_valid (htoks tk htk)
    unfold semverDecomp
    rw [hplus]
    try simp only []
    rw [hminus]
    try simp only []
    rw [hsplit]
    try simp only []
    rw [validNumToken_natDigits, validNumToken_natDigits, validNumToken_natDigits,
      hvalidPre]
    simp only [Bool.and_self, Bool.and_true, if_true]
    rw [digitsVal_natDigits, digitsVal_natDigits, digitsVal_natDigits]
    conv_rhs => rw [hVer]
    simp only [Option.some.injEq, Version.mk.injEq]
    refine ⟨by omega, by omega, by omega, rfl⟩

theorem ToVersion_renderVer {v : Version}
    (hma : 0 ≤ v.Major) (hmi : 0 ≤ v.Minor) (hpa : 0 ≤ v.Patch)
    (hpre : v.Prerelease = [] ∨ goodPre v.Prerelease = true) :
    ToVersion (renderVer v) = (v, none) := by
  have hdec := semverDecomp_renderVer hma hmi hpa hpre
  have hMa := ReplaceAllString_renderVer hma hmi hpa hpre (·.major)
  have hMi := ReplaceAllString_renderVer hma hmi hpa hpre (·.minor)
  have hPa := ReplaceAllString_renderVer hma hmi hpa hpre (·.patch)
  have hPr := ReplaceAllString_renderVer hma hmi hpa hpre (·.pre)
  unfold ToVersion
  rw [hdec]
  simp only [Option.isSome_some, if_true]
  rw [hMa]
  try simp only []
  rw [Atoi_digits (natDigits_ne_nil _) (natDigits_all _)]
  try simp only []
  rw [hMi]
  try simp only []
  rw [Atoi_digits (natDigits_ne_nil _) (natDigits_all _)]
  try simp only []
  rw [hPa]
  try simp only []
  rw [Atoi_digits (natDigits_ne_nil _) (natDigits_all _)]
  try simp only []
  rw [hPr]
  rw [digitsVal_natDigits, digitsVal_natDigits, digitsVal_natDigits]
  have hVer : v = ⟨v.Major, v.Minor, v.Patch, v.Prerelease⟩ := rfl
  conv_rhs => rw [hVer]
  simp only [Prod.mk.injEq, Version.mk.injEq]
  first
    | trivial
    | (and_intros <;> first | omega | rfl | trivial)

/-! #### Header-line lemmas -/

theorem FindString_headerLine {pkg : GoStr} (hpkg : ∀ c ∈ pkg, isDigitC c = false)
    {v : Version} (hma : 0 ≤ v.Major) (hmi : 0 ≤ v.Minor) (hpa : 0 ≤ v.Patch)
    (hpre : v.Prerelease = [] ∨ goodPre v.Prerelease = true)
    (dist urg : GoStr) :
    FindString (headerLine pkg v dist urg) = renderVer v := by
  have hform : headerLine pkg v dist urg
      = (pkg ++ [' ', '(']) ++ (renderVer v
          ++ ')' :: (' ' :: (dist ++ (s2l "; urgency=" ++ urg)))) := by
    unfold headerLine
    rw [show s2l " (" = [' ', '('] from rfl, show s2l ") " = [')', ' '] from rfl]
    simp [List.append_assoc]
  rw [hform]
  rw [FindString_append_nondigit (by
    intro c hc
    rcases List.mem_append.mp hc with h | h
    · exact hpkg c h
    · rcases List.mem_cons.mp h with h1 | h1
      · rw [h1]; decide
      · rcases List.mem_cons.mp h1 with h2 | h2
        · rw [h2]; decide
        · cases h2)]
  unfold FindString
  rw [findSemver_renderVer hma hmi hpa hpre (fun c h => by
    simp only [List.head?_cons, Option.some.injEq] at h
    rw [← h]
    exact ⟨by decide, by decide, by decide⟩)]

/-- The header-line `switch` body as a named function. -/
def debHeaderStep (r : Release) (comp : GoStr) : Release :=
  if hasSuffix (s2l ";") comp then
    { r with Distribution := trimSuffix (s2l ";") comp }
  else if hasPrefix (s2l "urgency=") comp then
    { r with Urgency := trimPrefix (s2l "urgency=") comp }
  else r

theorem debHeaderRel_eq (l : GoStr) :
    debHeaderRel l = (goSplit (s2l " ") l).foldl debHeaderStep zeroRelease := rfl

theorem debHeaderStep_fields (r : Release) (comp : GoStr) :
    (debHeaderStep r comp).Date = r.Date
    ∧ (debHeaderStep r comp).Changes = r.Changes
    ∧ (debHeaderStep r comp).Maintainer = r.Maintainer := by
  unfold debHeaderStep
  split
  · exact ⟨rfl, rfl, rfl⟩
  · split
    · exact ⟨rfl, rfl, rfl⟩
    · exact ⟨rfl, rfl, rfl⟩

theorem goSplitAux_fuel {sep : GoStr} (hsep : sep ≠ []) :
    ∀ fuel (s : GoStr), s.length < fuel → goSplitAux sep fuel s = goSplit sep s := by
  intro fuel
  induction fuel using Nat.strong_induction_on with
  | _ fuel ih =>
    intro s hs
    cases fuel with
    | zero => omega
    | succ f =>
      show goSplitAux sep (f + 1) s = goSplitAux sep (s.length + 1) s
      cases hsp : splitFirst sep s with
      | none => simp only [goSplitAux, hsp]
      | some p =>
        obtain ⟨a, b⟩ := p
        simp only [goSplitAux, hsp]
        have hlen := splitFirst_eq hsp
        have hblen : b.length < s.length := by
          rw [hlen]
          simp only [List.length_append]
          cases sep with
          | nil => exact absurd rfl hsep
          | cons c cs => simp only [List.length_cons]; omega
        congr 1
        rw [ih f (by omega) b (by omega), ih s.length (by omega) b hblen]

theorem goSplit_cons {sep : GoStr} (hsep : sep ≠ []) {T B : GoStr}
    (h1 : containsSub sep (T ++ sep.dropLast) = false) :
    goSplit sep (T ++ sep ++ B) = T :: goSplit sep B := by
  show goSplitAux sep (_ + 1) _ = _
  simp only [goSplitAux, splitFirst_first_occ hsep T B h1]
  congr 1
  apply goSplitAux_fuel hsep
  simp only [List.length_append]
  cases sep with
  | nil => exact absurd rfl hsep
  | cons c cs => simp only [List.length_cons]; omega

theorem containsSub_nil_right {sep x : GoStr} (h : splitFirst sep x = none) :
    containsSub sep (x ++ sep.dropLast.take 0) = false := by
  simp [containsSub, h]

theorem goSplit_space_cons {x rest : GoStr} (hx : ' ' ∉ x) :
    goSplit [' '] (x ++ ' ' :: rest) = x :: goSplit [' '] rest := by
  have := @goSplit_cons [' '] (by simp) x rest
    (by
      show containsSub [' '] (x ++ []) = false
      rw [List.append_nil]
      rw [← splitFirst_none_iff]
      exact splitFirst_single_none hx)
  simpa using this

theorem goSplit_header {x1 x2 x3 x4 : GoStr}
    (h1 : ' ' ∉ x1) (h2 : ' ' ∉ x2) (h3 : ' ' ∉ x3) (h4 : ' ' ∉ x4) :
    goSplit [' '] (x1 ++ ' ' :: (x2 ++ ' ' :: (x3 ++ ' ' :: x4))) = [x1, x2, x3, x4] := by
  rw [goSplit_space_cons h1, goSplit_space_cons h2, goSplit_space_cons h3,
    goSplit_single (splitFirst_single_none h4)]

theorem headerLine_space_form (pkg : GoStr) (v : Version) (dist urg : GoStr) :
    headerLine pkg v dist urg
      = pkg ++ ' ' :: (('(' :: (renderVer v ++ [')']))
          ++ ' ' :: ((dist ++ [';']) ++ ' ' :: (s2l "urgency=" ++ urg))) := by
  unfold headerLine
  rw [show s2l " (" = [' ', '('] from rfl, show s2l ") " = [')', ' '] from rfl,
    show s2l "; urgency=" = [';', ' '] ++ s2l "urgency=" from rfl]
  simp [List.append_assoc]

theorem hasPrefix_cons_ne {c d : Char} (p s : GoStr) (h : ¬(c = d)) :
    hasPrefix (c :: p) (d :: s) = false := by
  simp [hasPrefix, h]

/-- Evaluating the header `switch` fold on a rendered header line. -/
theorem debHeaderRel_headerLine {pkg : GoStr} {v : Version} {dist urg : GoStr}
    (hpkg : ' ' ∉ pkg)
    (hrv : ' ' ∉ renderVer v)
    (hdist : ' ' ∉ dist) (hurg : ' ' ∉ urg)
    (hsuf : urg = [] ∨ hasSuffix [';'] urg = false) :
    debHeaderRel (headerLine pkg v dist urg)
      = { zeroRelease with Urgency := urg, Distribution := dist } := by
  have hx2 : ' ' ∉ '(' :: (renderVer v ++ [')']) := by
    intro hc
    rcases List.mem_cons.mp hc with h | h
    · cases h
    · rcases List.mem_append.mp h with h | h
      · exact hrv h
      · rcases List.mem_cons.mp h with h | h
        · cases h
        · cases h
  have hx3 : ' ' ∉ dist ++ [';'] := by
    intro hc
    rcases List.mem_append.mp hc with h | h
    · exact hdist h
    · rcases List.mem_cons.mp h with h | h
      · cases h
      · cases h
  have hx4 : ' ' ∉ s2l "urgency=" ++ urg := by
    intro hc
    rcases List.mem_append.mp hc with h | h
    · revert h
      decide
    · exact hurg h
  rw [debHeaderRel_eq, headerLine_space_form,
    show s2l " " = [' '] from rfl,
    goSplit_header hpkg hx2 hx3 hx4]
  simp only [List.foldl_cons, List.foldl_nil]
  have hstep2 : ∀ r : Release, debHeaderStep r ('(' :: (renderVer v ++ [')'])) = r := by
    intro r
    unfold debHeaderStep
    rw [show s2l ";" = [';'] from rfl]
    rw [show ('(' : Char) :: (renderVer v ++ [')'])
        = ('(' :: renderVer v) ++ [')'] from rfl]
    rw [hasSuffix_concat, if_neg (by decide)]
    rw [show s2l "urgency=" = 'u' :: s2l "rgency=" from rfl,
      show ('(' :: renderVer v) ++ [')'] = '(' :: (renderVer v ++ [')']) from rfl,
      hasPrefix_cons_ne _ _ (by decide)]
    simp
  have hstep3 : ∀ r : Release,
      debHeaderStep r (dist ++ [';'])
        = { r with Distribution := dist } := by
    intro r
    unfold debHeaderStep
    rw [show s2l ";" = [';'] from rfl, hasSuffix_concat]
    simp only [decide_eq_true_eq, if_pos]
    rw [trimSuffix_concat_single]
  have hstep4 : ∀ r : Release,
      debHeaderStep r (s2l "urgency=" ++ urg)
        = { r with Urgency := urg } := by
    intro r
    unfold debHeaderStep
    have hnosuf : hasSuffix (s2l ";") (s2l "urgency=" ++ urg) = false := by
      by_cases hnil : urg = []
      · rw [hnil, List.append_nil]
        decide
      · have hsf : hasSuffix [';'] urg = false := by
          rcases hsuf with h | h
          · exact absurd h hnil
          · exact h
        rw [show s2l ";" = [';'] from rfl,
          hasSuffix_append_right ';' (s2l "urgency=") hnil, hsf]
    rw [hnosuf]
    simp only [Bool.false_eq_true, if_false]
    rw [hasPrefix_append_self]
    simp only [if_true]
    rw [trimPrefix_append_self]
  rw [hstep2, hstep3, hstep4]
  obtain ⟨hd, hc, hm⟩ := debHeaderStep_fields zeroRelease pkg
  rcases hr1 : debHeaderStep zeroRelease pkg with ⟨d1, c1, u1, di1, m1⟩
  rw [hr1] at hd hc hm
  simp only at hd hc hm
  rw [hd, hc, hm]

/-! #### Well-formedness conditions for the Debian round trip -/

/-- A change the rendered line parses back exactly. -/
def chgWF (c : Change) : Prop :=
  noPair ':' ' ' c.Type' = true
  ∧ hasPrefix (s2l " -- ") (c.Type' ++ s2l ": " ++ c.Body) = false
  ∧ '\n' ∉ c.Type' ∧ '\r' ∉ c.Type' ∧ '\n' ∉ c.Body ∧ '\r' ∉ c.Body

/-- A maintainer whose trailer line parses back exactly. -/
def mWF (m : Maintainer) : Prop :=
  noPair ' ' ' ' m.Name = true ∧ noPair ' ' '<' m.Name = true
  ∧ m.Name.getLast? ≠ some ' '
  ∧ noPair ' ' ' ' m.Email = true ∧ noPair ' ' '<' m.Email = true
  ∧ '\n' ∉ m.Name ∧ '\r' ∉ m.Name ∧ '\n' ∉ m.Email ∧ '\r' ∉ m.Email

/-- A date within `time.Parse`'s validated ranges. -/
def dWF (t : DebTime) : Prop :=
  1 ≤ t.year ∧ t.year ≤ 9999 ∧ 1 ≤ t.month ∧ t.month ≤ 12
  ∧ 1 ≤ t.day ∧ t.day ≤ daysInMonth t.year t.month
  ∧ t.hour ≤ 23 ∧ t.minute ≤ 59 ∧ t.second ≤ 59 ∧ t.nanos = 0
  ∧ t.tzMin.natAbs ≤ 1439

def uWF (u : GoStr) : Prop :=
  u = [] ∨ (' ' ∉ u ∧ hasSuffix [';'] u = false ∧ '\n' ∉ u ∧ '\r' ∉ u)

def distWF (ds : GoStr) : Prop := ds = [] ∨ (' ' ∉ ds ∧ '\n' ∉ ds ∧ '\r' ∉ ds)

def vWF (v : Version) : Prop :=
  0 ≤ v.Major ∧ 0 ≤ v.Minor ∧ 0 ≤ v.Patch
  ∧ (v.Prerelease = [] ∨ goodPre v.Prerelease = true)

def relWF (r : Release) : Prop :=
  dWF r.Date ∧ (∀ c ∈ r.Changes, chgWF c) ∧ uWF r.Urgency
  ∧ distWF r.Distribution ∧ mWF r.Maintainer

def pkgWF (p : GoStr) : Prop :=
  (∀ c ∈ p, isDigitC c = false) ∧ ' ' ∉ p ∧ '\n' ∉ p ∧ '\r' ∉ p

/-- The release the round trip stores for an input release. -/
def parsedRel (rel : Release) : Release :=
  ⟨rel.Date, sortChangesGo rel.Changes, substUrg rel.Urgency,
    substDist rel.Distribution, rel.Maintainer⟩

theorem substUrg_ok {u : GoStr} (h : uWF u) :
    ' ' ∉ substUrg u ∧ (substUrg u = [] ∨ hasSuffix [';'] (substUrg u) = false)
    ∧ '\n' ∉ substUrg u ∧ '\r' ∉ substUrg u := by
  unfold substUrg
  rcases h with h | ⟨h1, h2, h3, h4⟩
  · rw [h, if_pos rfl]
    refine ⟨by decide, Or.inr (by decide), by decide, by decide⟩
  · by_cases hn : u = []
    · rw [hn, if_pos rfl]
      refine ⟨by decide, Or.inr (by decide), by decide, by decide⟩
    · rw [if_neg hn]
      exact ⟨h1, Or.inr h2, h3, h4⟩

theorem substDist_ok {d : GoStr} (h : distWF d) :
    ' ' ∉ substDist d ∧ '\n' ∉ substDist d ∧ '\r' ∉ substDist d := by
  unfold substDist
  rcases h with h | ⟨h1, h2, h3⟩
  · rw [h, if_pos rfl]
    refine ⟨by decide, by decide, by decide⟩
  · by_cases hn : d = []
    · rw [hn, if_pos rfl]
      refine ⟨by decide, by decide, by decide⟩
    · rw [if_neg hn]
      exact ⟨h1, h2, h3⟩

theorem noPair_cons' {a b c : Char} {s : GoStr} (h : noPair a b s = true)
    (h2 : ¬(c = a) ∨ s.head? ≠ some b) : noPair a b (c :: s) = true := by
  cases s with
  | nil => rfl
  | cons d t =>
    simp only [noPair, Bool.and_eq_true, Bool.not_eq_true', Bool.and_eq_false_iff,
      decide_eq_false_iff_not]
    refine ⟨?_, h⟩
    rcases h2 with h2 | h2
    · exact Or.inl h2
    · right
      intro he
      exact h2 (by simp [he])

/-! #### The inner Debian scan loop on rendered lines -/

theorem debChange_rendered {T B : GoStr} (hT : noPair ':' ' ' T = true) :
    debChange (T ++ s2l ": " ++ B) = ⟨T, B⟩ := by
  have hocc : containsSub (s2l ": ") (T ++ (s2l ": ").dropLast) = false := by
    rw [show (s2l ": ").dropLast = [':'] from rfl,
      show s2l ": " = [':', ' '] from rfl]
    apply noPair_iff.mp
    apply noPair_append hT (noPair_single _ _ _)
    rintro ⟨_, h2⟩
    simp only [List.head?_cons, Option.some.injEq] at h2
    exact absurd h2 (by decide)
  have hsp : splitFirst (s2l ": ") (T ++ s2l ": " ++ B) = some (T, B) :=
    splitFirst_first_occ (by decide) T B hocc
  unfold debChange goSplitN2
  rw [hsp]

theorem debInner_empty_line (v : Version) (vs : GoStr) (ls : List GoStr)
    (cl : Changelog) (err : Option GoErr) (rel : Release) :
    debInner v vs ([] :: ls) cl err rel = debInner v vs ls cl err rel := by
  rw [debInner]
  rw [show hasPrefix (s2l "  * ") [] = false from rfl]
  simp only [Bool.false_eq_true, if_false]
  rw [show hasPrefix (s2l " -- ") [] = false from rfl]
  simp only [Bool.false_eq_true, if_false]

theorem debInner_change (v : Version) (vs : GoStr) {c : Change} (hc : chgWF c)
    (ls : List GoStr) (cl : Changelog) (err : Option GoErr) (rel : Release) :
    debInner v vs (changeLine c :: ls) cl err rel
      = debInner v vs ls cl err
          { rel with Changes := rel.Changes ++ [c] } := by
  obtain ⟨hT, hnp, _⟩ := hc
  show debInner v vs ((s2l "  * " ++ (c.Type' ++ s2l ": " ++ c.Body)) :: ls) cl err rel = _
  rw [debInner]
  rw [hasPrefix_append_self]
  simp only [if_true]
  rw [trimPrefix_append_self]
  rw [hnp]
  simp only [Bool.false_eq_true, if_false]
  rw [debChange_rendered hT]

theorem debInner_changes (v : Version) (vs : GoStr) :
    ∀ (cs : List Change), (∀ c ∈ cs, chgWF c) →
      ∀ (ls : List GoStr) (cl : Changelog) (err : Option GoErr) (rel : Release),
      debInner v vs (cs.map changeLine ++ ls) cl err rel
        = debInner v vs ls cl err { rel with Changes := rel.Changes ++ cs } := by
  intro cs
  induction cs with
  | nil =>
    intro _ ls cl err rel
    simp only [List.map_nil, List.nil_append, List.append_nil]
  | cons c cs ih =>
    intro hcs ls cl err rel
    rw [List.map_cons, List.cons_append,
      debInner_change v vs (hcs c (List.mem_cons_self _ _)),
      ih (fun x hx => hcs x (List.mem_cons_of_mem _ hx))]
    obtain ⟨rd, rc, ru, rdi, rm⟩ := rel
    simp [List.append_assoc]


set_option maxHeartbeats 1000000 in
theorem debTrailer_rendered (v : Version) (vs : GoStr) {m : Maintainer} {d : DebTime}
    (hm : mWF m) (hd : dWF d) (cl : Changelog) (err : Option GoErr) (rel : Release) :
    debTrailer v vs (trailerLine m d) cl err rel
      = (setRel cl v { rel with Maintainer := m, Date := d }, err) := by
  obtain ⟨mn, me⟩ := m
  obtain ⟨hN1, hN3, hN2, hE1, hE2, _⟩ := hm
  obtain ⟨hdy1, hdy2, hdm1, hdm2, hdd1, hdd2, hdh, hdmi, hds, hdn, hdtz⟩ := hd
  obtain ⟨hfds, _, _⟩ := fmt_clean hdm1 hdm2 hdy2 hdd2 hdh hdmi hds hdtz
  have hparse := parseRFC1123Z_fmt hdy1 hdy2 hdm1 hdm2 hdd1 hdd2 hdh hdmi hds hdn hdtz
  have hline : trimPrefix (s2l " -- ") (trailerLine ⟨mn, me⟩ d)
      = (mn ++ (' ' :: '<' :: (me ++ ['>'])))
          ++ [' ', ' '] ++ fmtRFC1123Z d := by
    unfold trailerLine
    rw [show s2l " -- " ++ mn ++ s2l " <" ++ me ++ s2l ">  " ++ fmtRFC1123Z d
        = s2l " -- " ++ ((mn ++ (' ' :: '<' :: (me ++ ['>'])))
            ++ [' ', ' '] ++ fmtRFC1123Z d)
        from by
          simp [show s2l " <" = [' ', '<'] from rfl,
            show s2l ">  " = ['>', ' ', ' '] from rfl, List.append_assoc]]
    rw [trimPrefix_append_self]
  have hAnds : noPair ' ' ' ' ((mn ++ (' ' :: '<' :: (me ++ ['>']))) ++ [' ']) = true := by
    rw [List.append_assoc]
    simp only [List.cons_append]
    apply noPair_append hN1
    · apply noPair_cons'
      · apply noPair_cons'
        · rw [List.append_assoc]
          simp only [List.singleton_append]
          apply noPair_append hE1
          · decide
          · rintro ⟨_, h2⟩
            simp only [List.head?_cons, Option.some.injEq] at h2
            exact absurd h2 (by decide)
        · left
          decide
      · right
        simp
    · rintro ⟨h1, _⟩
      exact hN2 h1
  have hsplit2 : goSplit (s2l "  ")
      ((mn ++ (' ' :: '<' :: (me ++ ['>'])))
        ++ [' ', ' '] ++ fmtRFC1123Z d)
      = [mn ++ (' ' :: '<' :: (me ++ ['>'])), fmtRFC1123Z d] := by
    rw [show s2l "  " = [' ', ' '] from rfl]
    rw [@goSplit_cons [' ', ' '] (by simp)
      (mn ++ (' ' :: '<' :: (me ++ ['>']))) (fmtRFC1123Z d) (by
        rw [show (([' ', ' '] : GoStr)).dropLast = [' '] from rfl]
        exact noPair_iff.mp hAnds)]
    rw [goSplit_single (show splitFirst [' ', ' '] (fmtRFC1123Z d) = none from hfds)]
  have hsplitA : goSplit (s2l " <") (mn ++ (' ' :: '<' :: (me ++ ['>'])))
      = [mn, me ++ ['>']] := by
    rw [show s2l " <" = [' ', '<'] from rfl]
    rw [show mn ++ (' ' :: '<' :: (me ++ ['>']))
        = mn ++ [' ', '<'] ++ (me ++ ['>']) from by simp [List.append_assoc]]
    rw [@goSplit_cons [' ', '<'] (by simp) mn (me ++ ['>']) (by
      rw [show (([' ', '<'] : GoStr)).dropLast = [' '] from rfl]
      apply noPair_iff.mp
      apply noPair_append hN3 (noPair_single _ _ _)
      rintro ⟨_, h2⟩
      simp only [List.head?_cons, Option.some.injEq] at h2
      exact absurd h2 (by decide))]
    rw [goSplit_single (by
      rw [splitFirst_none_iff]
      apply noPair_iff.mp
      apply noPair_append hE2
      · decide
      · rintro ⟨_, h2⟩
        simp only [List.head?_cons, Option.some.injEq] at h2
        exact absurd h2 (by decide))]
  have htrim : trimSuffix (s2l ">") (me ++ ['>']) = me := by
    rw [show s2l ">" = ['>'] from rfl]
    exact trimSuffix_concat_single '>' me
  obtain ⟨rd, rc, ru, rdi, rm⟩ := rel
  simp only [debTrailer, hline, hsplit2, List.getD_cons_zero, List.getD_cons_succ]
  rw [if_neg (by simp)]
  simp only [List.getD_cons_zero, List.getD_cons_succ, hsplitA, List.length_cons,
    List.length_nil, htrim, hparse]
  rw [if_pos (by simp)]


theorem hasPrefix_star_trailer (x : GoStr) :
    hasPrefix (s2l "  * ") (s2l " -- " ++ x) = false := rfl

/-- One whole block body (blank line, sorted change lines, blank line,
trailer) through the inner loop: commits the release and stops. -/
theorem debInner_chunk (v : Version) (vs : GoStr) {cs : List Change}
    (hcs : ∀ c ∈ cs, chgWF c) {m : Maintainer} {d : DebTime}
    (hm : mWF m) (hd : dWF d)
    (more : List GoStr) (cl : Changelog) (err : Option GoErr) (rel0 : Release) :
    debInner v vs (([] : GoStr) :: (cs.map changeLine
        ++ ([] :: (trailerLine m d :: more)))) cl err rel0
      = (more, setRel cl v { rel0 with Changes := rel0.Changes ++ cs, Maintainer := m, Date := d }, err) := by
  rw [debInner_empty_line, debInner_changes v vs cs hcs, debInner_empty_line]
  show debInner v vs ((s2l " -- " ++ (m.Name ++ s2l " <" ++ m.Email ++ s2l ">  "
      ++ fmtRFC1123Z d)) :: more) cl err _ = _
  unfold debInner
  rw [show s2l " -- " ++ (m.Name ++ s2l " <" ++ m.Email ++ s2l ">  " ++ fmtRFC1123Z d)
      = s2l " -- " ++ m.Name ++ s2l " <" ++ m.Email ++ s2l ">  " ++ fmtRFC1123Z d
      from by simp [List.append_assoc]]
  rw [show hasPrefix (s2l "  * ") (s2l " -- " ++ m.Name ++ s2l " <" ++ m.Email
        ++ s2l ">  " ++ fmtRFC1123Z d)
      = hasPrefix (s2l "  * ") (s2l " -- " ++ (m.Name ++ s2l " <" ++ m.Email
        ++ s2l ">  " ++ fmtRFC1123Z d)) from by simp [List.append_assoc]]
  rw [hasPrefix_star_trailer]
  simp only [Bool.false_eq_true, if_false]
  rw [show s2l " -- " ++ m.Name ++ s2l " <" ++ m.Email ++ s2l ">  " ++ fmtRFC1123Z d
      = s2l " -- " ++ (m.Name ++ s2l " <" ++ m.Email ++ s2l ">  " ++ fmtRFC1123Z d)
      from by simp [List.append_assoc]]
  rw [hasPrefix_append_self]
  simp only [if_true]
  rw [show s2l " -- " ++ (m.Name ++ s2l " <" ++ m.Email ++ s2l ">  " ++ fmtRFC1123Z d)
      = trailerLine m d from by unfold trailerLine; simp [List.append_assoc]]
  rw [debTrailer_rendered v vs hm hd]


/-- The lines of one emitted block, without the final blank line. -/
def blockCore (pkg : GoStr) (b : release × Release) : List GoStr :=
  headerLine pkg b.1.v (substDist b.2.Distribution) (substUrg b.2.Urgency)
    :: ([] : GoStr)
    :: ((sortChangesGo b.2.Changes).map changeLine
        ++ [([] : GoStr), trailerLine b.2.Maintainer b.1.d])

/-- The full line sequence of the trimmed output: block cores separated by
single blank lines. -/
def blocksLines (pkg : GoStr) : List (release × Release) → List GoStr
  | [] => []
  | [b] => blockCore pkg b
  | b :: b2 :: rest => blockCore pkg b ++ ([] : GoStr) :: blocksLines pkg (b2 :: rest)

theorem blocksLines_one (pkg : GoStr) (b : release × Release) :
    blocksLines pkg [b] = blockCore pkg b := rfl

theorem blocksLines_cons (pkg : GoStr) (b b2 : release × Release)
    (rest : List (release × Release)) :
    blocksLines pkg (b :: b2 :: rest)
      = blockCore pkg b ++ ([] : GoStr) :: blocksLines pkg (b2 :: rest) := rfl

/-- A blank line at the top level: `ToVersion("")` fails, `err` is set. -/
theorem parseDebLines_blank (fuel : Nat) (ls : List GoStr) (cl : Changelog)
    (err : Option GoErr) :
    parseDebLines (fuel + 1) (([] : GoStr) :: ls) cl err
      = parseDebLines fuel ls cl (some .notSemver) := rfl

/-- One rendered block at the head of the line stream: the block's release
is parsed back and appended to the map, the remaining lines are returned to
the outer loop with `err = none`. -/
theorem parseDebLines_one_block (pkg : GoStr) (hpkg : pkgWF pkg)
    (b : release × Release) (hrel : relWF b.2) (hv : vWF b.1.v)
    (hbd : b.1.d = b.2.Date)
    (more : List GoStr) (cl : Changelog) (hcl : b.1.v ∉ keys cl)
    (err : Option GoErr) (fuel : Nat) :
    parseDebLines (fuel + 1) (blockCore pkg b ++ more) cl err
      = parseDebLines fuel more (cl ++ [(b.1.v, parsedRel b.2)]) none := by
  obtain ⟨hpkgd, hpkgs, _, _⟩ := hpkg
  obtain ⟨hvma, hvmi, hvpa, hvpre⟩ := hv
  obtain ⟨hrdate, hrchg, hrurg, hrdist, hrm⟩ := hrel
  have hrv : ' ' ∉ renderVer b.1.v :=
    not_mem_renderVer hvma hvmi hvpa hvpre (by decide) (by decide) (by decide) (by decide)
  have hcs : ∀ c ∈ sortChangesGo b.2.Changes, chgWF c := by
    intro c hc
    exact hrchg c ((List.perm_insertionSort chLe b.2.Changes).mem_iff.mp hc)
  have hfs := FindString_headerLine hpkgd hvma hvmi hvpa hvpre
    (substDist b.2.Distribution) (substUrg b.2.Urgency)
  have htv := ToVersion_renderVer hvma hvmi hvpa hvpre
  have hku := substUrg_ok hrurg
  have hkd := substDist_ok hrdist
  have hdr := debHeaderRel_headerLine hpkgs hrv hkd.1 hku.1 hku.2.1
  have hkey : hasKey cl b.1.v = false := by
    rw [← Bool.not_eq_true]
    intro h
    exact hcl (hasKey_iff_mem.mp h)
  have hshape : blockCore pkg b ++ more
      = headerLine pkg b.1.v (substDist b.2.Distribution) (substUrg b.2.Urgency)
        :: (([] : GoStr) :: ((sortChangesGo b.2.Changes).map changeLine
            ++ (([] : GoStr) :: (trailerLine b.2.Maintainer b.1.d :: more)))) := by
    unfold blockCore
    simp [List.append_assoc]
  rw [hshape]
  simp only [parseDebLines]
  simp only [hfs, htv, hkey, Bool.false_eq_true, if_false]
  rw [hdr]
  rw [debInner_chunk b.1.v (renderVer b.1.v) hcs hrm (hbd ▸ hrdate) more cl none]
  simp only []
  have hcom : ({ Date := b.1.d, Changes := zeroRelease.Changes ++ sortChangesGo b.2.Changes, Urgency := substUrg b.2.Urgency, Distribution := substDist b.2.Distribution, Maintainer := b.2.Maintainer } : Release) = parsedRel b.2 := by
    unfold parsedRel
    rw [hbd]
    simp [zeroRelease]
  rw [hcom, setRel_append_of_not_mem (parsedRel b.2) hcl]


theorem blockCore_length (pkg : GoStr) (b : release × Release) :
    (blockCore pkg b).length = (sortChangesGo b.2.Changes).length + 4 := by
  simp [blockCore]

theorem parseDebLines_nil (fuel : Nat) (cl : Changelog) (err : Option GoErr) :
    parseDebLines fuel [] cl err = (cl, err) := by
  cases fuel <;> rfl

/-- Parsing the whole rendered line stream: every block is parsed back in
order and appended; the final `err` is `none` as soon as there is at least
one block. -/
theorem parseDebLines_blocks (pkg : GoStr) (hpkg : pkgWF pkg) :
    ∀ (bs : List (release × Release)),
      (∀ b ∈ bs, relWF b.2 ∧ vWF b.1.v ∧ b.1.d = b.2.Date) →
      (bs.map (fun b => b.1.v)).Nodup →
      ∀ (cl : Changelog), (∀ b ∈ bs, b.1.v ∉ keys cl) →
      ∀ (err : Option GoErr) (fuel : Nat),
        (blocksLines pkg bs).length < fuel →
        parseDebLines fuel (blocksLines pkg bs) cl err
          = (cl ++ bs.map (fun b => (b.1.v, parsedRel b.2)),
             if bs = [] then err else none) := by
  intro bs
  induction bs with
  | nil =>
    intro _ _ cl _ err fuel _
    rw [show blocksLines pkg [] = [] from rfl, parseDebLines_nil]
    simp
  | cons b rest ih =>
    intro hwf hnd cl hdisj err fuel hfuel
    obtain ⟨hr1, hr2, hr3⟩ := hwf b (List.mem_cons_self _ _)
    have hmemcl : b.1.v ∉ keys cl := hdisj b (List.mem_cons_self _ _)
    simp only [List.map_cons, List.nodup_cons] at hnd
    cases rest with
    | nil =>
      cases fuel with
      | zero => omega
      | succ fu =>
        rw [blocksLines_one, show blockCore pkg b = blockCore pkg b ++ [] from
          (List.append_nil _).symm]
        rw [parseDebLines_one_block pkg hpkg b hr1 hr2 hr3 [] cl hmemcl err fu,
          parseDebLines_nil]
        simp
    | cons b2 rest' =>
      cases fuel with
      | zero => omega
      | succ fu =>
        rw [blocksLines_cons] at hfuel ⊢
        rw [parseDebLines_one_block pkg hpkg b hr1 hr2 hr3
          (([] : GoStr) :: blocksLines pkg (b2 :: rest')) cl hmemcl err fu]
        cases fu with
        | zero =>
          exfalso
          have := blockCore_length pkg b
          simp only [List.length_append, List.length_cons] at hfuel
          omega
        | succ fu' =>
          rw [parseDebLines_blank]
          rw [ih (fun x hx => hwf x (List.mem_cons_of_mem _ hx)) hnd.2
            (cl ++ [(b.1.v, parsedRel b.2)])
            (by
              intro x hx hk
              rw [show keys (cl ++ [(b.1.v, parsedRel b.2)])
                  = keys cl ++ [b.1.v] from by simp [keys]] at hk
              rcases List.mem_append.mp hk with h | h
              · exact hdisj x (List.mem_cons_of_mem _ hx) h
              · rcases List.mem_singleton.mp h with he
                exact hnd.1 (he ▸ List.mem_map_of_mem (fun b => b.1.v) hx))
            (some .notSemver) fu'
            (by
              have := blockCore_length pkg b
              simp only [List.length_append, List.length_cons] at hfuel
              omega)]
          simp


theorem splitLines_nl (rest : GoStr) :
    splitLines ('\n' :: rest) = ([] : GoStr) :: splitLines rest := by
  have := @splitLines_cons ([] : GoStr) rest (by simp) (by simp)
  simpa using this

theorem changeLine_clean {c : Change} (hc : chgWF c) :
    '\n' ∉ changeLine c ∧ '\r' ∉ changeLine c := by
  obtain ⟨_, _, hT1, hT2, hB1, hB2⟩ := hc
  unfold changeLine
  constructor <;> intro h <;> simp only [List.mem_append] at h
  · rcases h with ((h | h) | h) | h
    · exact absurd h (by decide)
    · exact hT1 h
    · exact absurd h (by decide)
    · exact hB1 h
  · rcases h with ((h | h) | h) | h
    · exact absurd h (by decide)
    · exact hT2 h
    · exact absurd h (by decide)
    · exact hB2 h

theorem trailerLine_clean {m : Maintainer} {d : DebTime} (hm : mWF m) (hd : dWF d) :
    '\n' ∉ trailerLine m d ∧ '\r' ∉ trailerLine m d := by
  obtain ⟨_, _, _, _, _, hN1, hN2, hE1, hE2⟩ := hm
  obtain ⟨hdy1, hdy2, hdm1, hdm2, hdd1, hdd2, hdh, hdmi, hds, hdn, hdtz⟩ := hd
  obtain ⟨_, hf1, hf2⟩ := fmt_clean hdm1 hdm2 hdy2 hdd2 hdh hdmi hds hdtz
  unfold trailerLine
  constructor <;> intro h <;> simp only [List.mem_append] at h
  · rcases h with ((((h | h) | h) | h) | h) | h
    · exact absurd h (by decide)
    · exact hN1 h
    · exact absurd h (by decide)
    · exact hE1 h
    · exact absurd h (by decide)
    · exact hf1 h
  · rcases h with ((((h | h) | h) | h) | h) | h
    · exact absurd h (by decide)
    · exact hN2 h
    · exact absurd h (by decide)
    · exact hE2 h
    · exact absurd h (by decide)
    · exact hf2 h

theorem headerLine_clean {pkg : GoStr} {v : Version} {dist urg : GoStr}
    (hp1 : '\n' ∉ pkg) (hp2 : '\r' ∉ pkg)
    (hv : vWF v)
    (hd1 : '\n' ∉ dist) (hd2 : '\r' ∉ dist)
    (hu1 : '\n' ∉ urg) (hu2 : '\r' ∉ urg) :
    '\n' ∉ headerLine pkg v dist urg ∧ '\r' ∉ headerLine pkg v dist urg := by
  obtain ⟨hvma, hvmi, hvpa, hvpre⟩ := hv
  have hrv1 : '\n' ∉ renderVer v :=
    not_mem_renderVer hvma hvmi hvpa hvpre (by decide) (by decide) (by decide) (by decide)
  have hrv2 : '\r' ∉ renderVer v :=
    not_mem_renderVer hvma hvmi hvpa hvpre (by decide) (by decide) (by decide) (by decide)
  unfold headerLine
  constructor <;> intro h <;> simp only [List.mem_append] at h
  · rcases h with (((((h | h) | h) | h) | h) | h) | h
    · exact hp1 h
    · exact absurd h (by decide)
    · exact hrv1 h
    · exact absurd h (by decide)
    · exact hd1 h
    · exact absurd h (by decide)
    · exact hu1 h
  · rcases h with (((((h | h) | h) | h) | h) | h) | h
    · exact hp2 h
    · exact absurd h (by decide)
    · exact hrv2 h
    · exact absurd h (by decide)
    · exact hd2 h
    · exact absurd h (by decide)
    · exact hu2 h

theorem splitLines_changes :
    ∀ (cs : List Change), (∀ c ∈ cs, chgWF c) → ∀ (t : GoStr),
      splitLines ((cs.flatMap fun c => changeLine c ++ ['\n']) ++ t)
        = cs.map changeLine ++ splitLines t := by
  intro cs
  induction cs with
  | nil => intro _ t; simp
  | cons c cs ih =>
    intro hcs t
    obtain ⟨h1, h2⟩ := changeLine_clean (hcs c (List.mem_cons_self _ _))
    rw [List.flatMap_cons]
    rw [show (changeLine c ++ ['\n']) ++ (cs.flatMap fun c => changeLine c ++ ['\n']) ++ t
        = changeLine c ++ '\n' :: ((cs.flatMap fun c => changeLine c ++ ['\n']) ++ t)
        from by simp [List.append_assoc]]
    rw [splitLines_cons _ h1 h2, ih (fun x hx => hcs x (List.mem_cons_of_mem _ hx)) t]
    simp


/-- One emitted block followed by more text: its lines are the block core,
a blank separator line, then the lines of the rest. -/
theorem splitLines_block {pkg : GoStr} (hpkg : pkgWF pkg)
    {b : release × Release} (hrel : relWF b.2) (hv : vWF b.1.v)
    (hbd : b.1.d = b.2.Date) (t : GoStr) :
    splitLines (blockStr pkg b.1 b.2 ++ t)
      = blockCore pkg b ++ ([] : GoStr) :: splitLines t := by
  obtain ⟨hpkgd, hpkgs, hpn, hpr⟩ := hpkg
  obtain ⟨hrdate, hrchg, hrurg, hrdist, hrm⟩ := hrel
  have hcs : ∀ c ∈ sortChangesGo b.2.Changes, chgWF c := by
    intro c hc
    exact hrchg c ((List.perm_insertionSort chLe b.2.Changes).mem_iff.mp hc)
  have hku := substUrg_ok hrurg
  have hkd := substDist_ok hrdist
  obtain ⟨hh1, hh2⟩ := headerLine_clean hpn hpr hv hkd.2.1 hkd.2.2 hku.2.2.1 hku.2.2.2
  obtain ⟨ht1, ht2⟩ := trailerLine_clean hrm (hbd ▸ hrdate)
  have hshape : blockStr pkg b.1 b.2 ++ t
      = headerLine pkg b.1.v (substDist b.2.Distribution) (substUrg b.2.Urgency)
          ++ '\n' :: ('\n' :: (((sortChangesGo b.2.Changes).flatMap
              fun c => changeLine c ++ ['\n'])
            ++ ('\n' :: (trailerLine b.2.Maintainer b.1.d
              ++ '\n' :: ('\n' :: t))))) := by
    unfold blockStr
    simp [List.append_assoc]
  rw [hshape]
  rw [splitLines_cons _ hh1 hh2, splitLines_nl, splitLines_changes _ hcs, splitLines_nl,
    splitLines_cons _ ht1 ht2, splitLines_nl]
  unfold blockCore
  simp [List.append_assoc]

/-- The last block, with the final newline of its closing blank line removed:
its lines are exactly the block core. -/
theorem splitLines_blockTrim {pkg : GoStr} (hpkg : pkgWF pkg)
    {b : release × Release} (hrel : relWF b.2) (hv : vWF b.1.v)
    (hbd : b.1.d = b.2.Date) :
    splitLines (headerLine pkg b.1.v (substDist b.2.Distribution) (substUrg b.2.Urgency)
        ++ '\n' :: ('\n' :: (((sortChangesGo b.2.Changes).flatMap
            fun c => changeLine c ++ ['\n'])
          ++ ('\n' :: (trailerLine b.2.Maintainer b.1.d ++ ['\n'])))))
      = blockCore pkg b := by
  obtain ⟨hpkgd, hpkgs, hpn, hpr⟩ := hpkg
  obtain ⟨hrdate, hrchg, hrurg, hrdist, hrm⟩ := hrel
  have hcs : ∀ c ∈ sortChangesGo b.2.Changes, chgWF c := by
    intro c hc
    exact hrchg c ((List.perm_insertionSort chLe b.2.Changes).mem_iff.mp hc)
  have hku := substUrg_ok hrurg
  have hkd := substDist_ok hrdist
  obtain ⟨hh1, hh2⟩ := headerLine_clean hpn hpr hv hkd.2.1 hkd.2.2 hku.2.2.1 hku.2.2.2
  obtain ⟨ht1, ht2⟩ := trailerLine_clean hrm (hbd ▸ hrdate)
  rw [splitLines_cons _ hh1 hh2, splitLines_nl, splitLines_changes _ hcs, splitLines_nl]
  rw [show trailerLine b.2.Maintainer b.1.d ++ ['\n']
      = trailerLine b.2.Maintainer b.1.d ++ '\n' :: [] from rfl]
  rw [splitLines_cons _ ht1 ht2]
  unfold blockCore
  simp [List.append_assoc, splitLines]
  rfl

/-- The block text of one block is its trimmed form plus one final newline. -/
theorem blockStr_snoc (pkg : GoStr) (b : release × Release) :
    blockStr pkg b.1 b.2
      = (headerLine pkg b.1.v (substDist b.2.Distribution) (substUrg b.2.Urgency)
          ++ '\n' :: ('\n' :: (((sortChangesGo b.2.Changes).flatMap
              fun c => changeLine c ++ ['\n'])
            ++ ('\n' :: (trailerLine b.2.Maintainer b.1.d ++ ['\n'])))))
        ++ ['\n'] := by
  unfold blockStr
  simp [List.append_assoc]

/-- The emitted text of a non-empty block list: some text `y` followed by a
final newline, where the lines of `y` are the block cores separated by
single blank lines. -/
theorem textOf_structure {pkg : GoStr} (hpkg : pkgWF pkg) :
    ∀ (bs : List (release × Release)), bs ≠ [] →
      (∀ b ∈ bs, relWF b.2 ∧ vWF b.1.v ∧ b.1.d = b.2.Date) →
      ∃ y, (bs.flatMap fun b => blockStr pkg b.1 b.2) = y ++ ['\n']
        ∧ splitLines y = blocksLines pkg bs := by
  intro bs
  induction bs with
  | nil => intro h _; exact absurd rfl h
  | cons b rest ih =>
    intro _ hwf
    obtain ⟨hr1, hr2, hr3⟩ := hwf b (List.mem_cons_self _ _)
    cases rest with
    | nil =>
      refine ⟨_, ?_, splitLines_blockTrim hpkg hr1 hr2 hr3⟩
      rw [List.flatMap_cons, List.flatMap_nil, List.append_nil, blockStr_snoc]
    | cons b2 rest' =>
      obtain ⟨y, hy1, hy2⟩ := ih (by simp) (fun x hx => hwf x (List.mem_cons_of_mem _ hx))
      refine ⟨blockStr pkg b.1 b.2 ++ y, ?_, ?_⟩
      · rw [List.flatMap_cons, hy1, List.append_assoc]
      · rw [splitLines_block hpkg hr1 hr2 hr3, hy2, blocksLines_cons]


theorem flatMap_of_map {α β γ : Type} (f : α → β) (g : β → List γ) :
    ∀ l : List α, (l.map f).flatMap g = l.flatMap (fun x => g (f x)) := by
  intro l
  induction l with
  | nil => rfl
  | cons a l ih => simp only [List.map_cons, List.flatMap_cons, ih]

/-- C2 (corrected): for a model with distinct version keys in which every
release is round-trip well-formed (`relWF`: clean maintainer, in-range date,
clean change types and bodies, clean urgency/distribution) with a
well-formed version (`vWF`) and a well-formed package name (`pkgWF`),
formatting with `Changelog.Debian` and parsing back with `ParseDebian`
returns no error and a model whose key set is a permutation of the
original's, and which maps every original key to the original release with
the urgency and distribution defaults substituted and the changes re-ordered
into the stable Type-sorted order (a permutation of the original multiset),
date and maintainer preserved exactly. -/
theorem c2_amended (cl : Changelog) (pkg : GoStr)
    (hnd : (keys cl).Nodup)
    (hwf : ∀ p ∈ cl, vWF p.1 ∧ relWF p.2)
    (hpkg : pkgWF pkg) :
    (ParseDebian (Changelog.Debian cl pkg).1).2 = none
    ∧ ((keys (ParseDebian (Changelog.Debian cl pkg).1).1).Perm (keys cl))
    ∧ ∀ p ∈ cl, lookupRel (ParseDebian (Changelog.Debian cl pkg).1).1 p.1
        = some (parsedRel p.2) := by
  by_cases hcl : cl = []
  · subst hcl
    exact ⟨rfl, List.Perm.refl _, fun p hp => absurd hp (List.not_mem_nil p)⟩
  · set bs := (emissionOrder cl).map
      (fun rk => (rk, (lookupRel cl rk.v).getD zeroRelease)) with hbs
    have hperm : (emissionOrder cl).Perm (goReleases cl) :=
      (List.reverse_perm _).trans (List.perm_insertionSort relLe _)
    have hbwf : ∀ b ∈ bs, relWF b.2 ∧ vWF b.1.v ∧ b.1.d = b.2.Date := by
      intro b hb
      rw [hbs] at hb
      obtain ⟨rk, hrk, hbe⟩ := List.mem_map.mp hb
      obtain ⟨p, hp, he⟩ := List.mem_map.mp (hperm.subset hrk)
      have hlp : lookupRel cl rk.v = some p.2 := by
        rw [← he]
        exact lookupRel_of_mem_nodup hnd hp
      rw [← hbe]
      refine ⟨?_, ?_, ?_⟩
      · simp only [hlp, Option.getD_some]
        exact (hwf p hp).2
      · rw [← he]
        exact (hwf p hp).1
      · simp only [hlp, Option.getD_some]
        rw [← he]
    have hbnd : (bs.map (fun b => b.1.v)).Nodup := by
      rw [hbs, List.map_map]
      exact emissionOrder_v_nodup hnd
    have hbsne : bs ≠ [] := by
      intro h
      apply hcl
      have h1 : bs.length = (emissionOrder cl).length := by rw [hbs, List.length_map]
      have h2 : (emissionOrder cl).length = cl.length := by
        rw [hperm.length_eq]
        simp [goReleases]
      rw [h, List.length_nil] at h1
      exact List.length_eq_zero.mp (by omega)
    obtain ⟨y, hy1, hy2⟩ := textOf_structure hpkg bs hbsne
      (fun b hb => ⟨(hbwf b hb).1, (hbwf b hb).2.1, (hbwf b hb).2.2⟩)
    have hout : (Changelog.Debian cl pkg).1 = y := by
      show trimSuffix (s2l "\n") (debEmit pkg (emissionOrder cl) cl []).1 = y
      rw [debEmit_flatMap pkg (emissionOrder cl) cl [] (emissionOrder_v_nodup hnd),
        List.nil_append]
      rw [show (emissionOrder cl).flatMap
            (fun rk => blockStr pkg rk ((lookupRel cl rk.v).getD zeroRelease))
          = bs.flatMap (fun b => blockStr pkg b.1 b.2) from by
        rw [hbs, flatMap_of_map]]
      rw [hy1, trimSuffix_concat_newline]
    have hparse : ParseDebian (Changelog.Debian cl pkg).1
        = (bs.map (fun b => (b.1.v, parsedRel b.2)), none) := by
      unfold ParseDebian
      rw [hout, hy2]
      rw [parseDebLines_blocks pkg hpkg bs hbwf hbnd []
        (fun b _ hk => absurd hk (List.not_mem_nil _)) none _ (by omega)]
      rw [List.nil_append, if_neg hbsne]
    have hkeysres : keys (bs.map fun b => (b.1.v, parsedRel b.2))
        = (emissionOrder cl).map (fun rk => rk.v) := by
      unfold keys
      rw [List.map_map, hbs, List.map_map]
      rfl
    have hpermres : (keys (bs.map fun b => (b.1.v, parsedRel b.2))).Perm (keys cl) := by
      rw [hkeysres]
      exact emissionOrder_v_perm cl
    refine ⟨by rw [hparse], by rw [hparse]; exact hpermres, ?_⟩
    intro p hp
    rw [hparse]
    have hgo : (⟨p.1, p.2.Date⟩ : release) ∈ goReleases cl :=
      List.mem_map_of_mem (fun q => release.mk q.1 q.2.Date) hp
    have hrk : (⟨p.1, p.2.Date⟩ : release) ∈ emissionOrder cl := hperm.mem_iff.mpr hgo
    have hlp : lookupRel cl p.1 = some p.2 := lookupRel_of_mem_nodup hnd hp
    have hment : (p.1, parsedRel p.2) ∈ bs.map (fun b => (b.1.v, parsedRel b.2)) := by
      have hb : ((⟨p.1, p.2.Date⟩ : release),
          (lookupRel cl (⟨p.1, p.2.Date⟩ : release).v).getD zeroRelease) ∈ bs := by
        rw [hbs]
        exact List.mem_map_of_mem _ hrk
      have := List.mem_map_of_mem (fun b => (b.1.v, parsedRel b.2)) hb
      simpa [hlp] using this
    have hndres : (keys (bs.map fun b => (b.1.v, parsedRel b.2))).Nodup :=
      hpermres.nodup_iff.mpr hnd
    exact lookupRel_of_mem_nodup hndres hment


def c2cl : Changelog :=
  [(⟨1, 3, 0, []⟩,
    ⟨⟨2019, 7, 13, 0, 0, 0, 0, 0⟩,
     [⟨s2l "Fixed", s2l "some format discrepancies"⟩, ⟨s2l "Added", s2l "a useful feature"⟩],
     [], [], ⟨s2l "John Doe", s2l "john@doe.me"⟩⟩)]

def c2pkg : GoStr := s2l "awesomeapp"

/-- Witness for C2 at a concrete one-release model. -/
theorem c2_amended_witness :
    (ParseDebian (Changelog.Debian c2cl c2pkg).1).2 = none
    ∧ ((keys (ParseDebian (Changelog.Debian c2cl c2pkg).1).1).Perm (keys c2cl))
    ∧ ∀ p ∈ c2cl, lookupRel (ParseDebian (Changelog.Debian c2cl c2pkg).1).1 p.1
        = some (parsedRel p.2) :=
  c2_amended c2cl c2pkg (by decide)
    (by
      intro p hp
      rw [c2cl, List.mem_singleton] at hp
      subst hp
      constructor
      · unfold vWF
        decide
      · unfold relWF dWF chgWF uWF distWF mWF
        refine ⟨by decide, ?_, by decide, by decide, by decide⟩
        intro c hc
        rw [List.mem_cons, List.mem_singleton] at hc
        rcases hc with rfl | rfl <;> decide)
    (by unfold pkgWF; decide)

end Changelog
